import Mathlib

/-!
# Verification of the BabelCode type-schema and result-assembly layers

This file gives a shallow embedding, in Lean 4, of the parts of the
`google-research/babelcode` repository that the verified claims are about:

* `babelcode/schema_parsing/schema_type.py` — the `SchemaType` dataclass, the
  generic-type-string parser `SchemaType.from_generic_type_string`, the
  renderer `SchemaType.to_generic`, `SchemaType.copy`, `is_generic_equal`,
  `is_reconcilable`, `reconcile_type` and `validate_correct_type`;
* `babelcode/schema_parsing/utils.py` — the primitive/type tables;
* `babelcode/data_types/result_types.py` — `ExecutionResult`,
  `PredictionOutcome`, `GET_TC_REGEX` and
  `PredictionResult.from_execution_result`;
* `babelcode/execution.py` — the per-prediction command loop `execute_code`
  (with the per-command subprocess behaviour of `safe_execute` supplied as
  data, since it is an OS boundary).

Python strings are modelled as `List Char` where character-level work is
needed and as `String` elsewhere; Python `None`-able values as `Option`;
raised exceptions as `Except`.  All definitions are executable.
-/

/-! ## String / character-list helpers

These model the Python string primitives used by the source
(`str.count`, `in`, `str.replace(x, y, 1)`, `str.split(sep, 1)`,
`str.split('\n')`, `'sep'.join`). -/

/-- Number of occurrences of character `c` in `l` (Python `s.count(c)` for a
single-character needle). -/
def countChar (c : Char) (l : List Char) : Nat :=
  l.count c

/-- Does `l` contain the two-character substring `[]`? (Python `'[]' in s`). -/
def containsBrackets : List Char → Bool
  | [] => false
  | [_] => false
  | a :: b :: rest => (a = '[' && b = ']') || containsBrackets (b :: rest)

/-- Remove the first occurrence of the substring `[]`
(Python `s.replace('[]', '', 1)`). -/
def removeBrackets : List Char → List Char
  | [] => []
  | [c] => [c]
  | a :: b :: rest => if a = '[' ∧ b = ']' then rest else a :: removeBrackets (b :: rest)

/-- Split at the first occurrence of `c`: returns the part before and, when
`c` occurs, the part after (Python `s.split(c, 1)`). -/
def splitFirst (c : Char) : List Char → List Char × Option (List Char)
  | [] => ([], none)
  | x :: rest =>
    if x = c then ([], some rest)
    else (x :: (splitFirst c rest).1, (splitFirst c rest).2)

theorem splitFirst_some_length {c : Char} :
    ∀ (l pre post : List Char), splitFirst c l = (pre, some post) →
      post.length < l.length := by
  intro l
  induction l with
  | nil => intro pre post h; simp [splitFirst] at h
  | cons x rest ih =>
    intro pre post h
    simp only [splitFirst] at h
    by_cases hx : x = c
    · rw [if_pos hx] at h
      have h2 : some rest = some post := congrArg Prod.snd h
      have h3 : rest = post := by injection h2
      subst h3
      simp only [List.length_cons]
      omega
    · rw [if_neg hx] at h
      have h2 : (splitFirst c rest).2 = some post := congrArg Prod.snd h
      have := ih (splitFirst c rest).1 post (by rw [← h2])
      simp only [List.length_cons]
      omega

/-- Split a list on every occurrence of `c` (Python `s.split(c)` for a
one-character separator; returns at least one piece). -/
def splitAll (c : Char) (l : List Char) : List (List Char) :=
  match h : splitFirst c l with
  | (pre, none) => [pre]
  | (pre, some post) => pre :: splitAll c post
  termination_by l.length
  decreasing_by
    exact splitFirst_some_length l pre post h

/-- `allSame l` models Python `len(set(l)) == 1`: `l` is non-empty and all
its elements are equal. -/
def allSame [DecidableEq α] : List α → Bool
  | [] => false
  | x :: xs => xs.all (fun y => y = x)

/-- Join with a separator (Python `sep.join(pieces)`). -/
def joinSep (sep : String) : List String → String
  | [] => ""
  | [s] => s
  | s :: rest => s ++ sep ++ joinSep sep rest

/-! ## The `SchemaType` dataclass (`schema_parsing/schema_type.py`)

The Python dataclass has fields `type_str`, `lang_type` (default
`'NOT_SET'`), `elements` (default `[]`) and `key_type` (default `None`).  Its
`__post_init__` validation is modelled by `SchemaType.make` below: Python
constructor calls that can raise `SchemaTypeError` are modelled as `Except`.
-/

inductive SchemaType where
  | mk (typeStr : String) (langType : String) (elements : List SchemaType)
       (keyType : Option SchemaType)

def SchemaType.typeStr : SchemaType → String
  | .mk ts _ _ _ => ts

def SchemaType.langType : SchemaType → String
  | .mk _ lt _ _ => lt

def SchemaType.elements : SchemaType → List SchemaType
  | .mk _ _ es _ => es

def SchemaType.keyType : SchemaType → Option SchemaType
  | .mk _ _ _ k => k

@[simp] theorem SchemaType.typeStr_mk (a b c d) : (SchemaType.mk a b c d).typeStr = a := rfl
@[simp] theorem SchemaType.langType_mk (a b c d) : (SchemaType.mk a b c d).langType = b := rfl
@[simp] theorem SchemaType.elements_mk (a b c d) : (SchemaType.mk a b c d).elements = c := rfl
@[simp] theorem SchemaType.keyType_mk (a b c d) : (SchemaType.mk a b c d).keyType = d := rfl

theorem SchemaType.sizeOf_elem_lt {e : SchemaType} {l : List SchemaType} (h : e ∈ l)
    (ts lt : String) (k : Option SchemaType) : sizeOf e < sizeOf (SchemaType.mk ts lt l k) := by
  have := List.sizeOf_lt_of_mem h
  simp only [SchemaType.mk.sizeOf_spec]
  omega

theorem SchemaType.sizeOf_key_lt {k : SchemaType} (ts lt : String) (l : List SchemaType) :
    sizeOf k < sizeOf (SchemaType.mk ts lt l (some k)) := by
  simp only [SchemaType.mk.sizeOf_spec]
  have : sizeOf (some k) = 1 + sizeOf k := rfl
  omega

/-- Strong induction principle for the nested inductive `SchemaType`. -/
theorem SchemaType.inductionOn {P : SchemaType → Prop}
    (h : ∀ ts lt elems key, (∀ e ∈ elems, P e) → (∀ k, key = some k → P k) →
         P (SchemaType.mk ts lt elems key)) : ∀ t, P t
  | .mk ts lt elems key =>
    h ts lt elems key
      (fun e he => SchemaType.inductionOn h e)
      (fun k hk => SchemaType.inductionOn h k)
  termination_by t => sizeOf t
  decreasing_by
    · exact SchemaType.sizeOf_elem_lt he ts lt key
    · subst hk; exact SchemaType.sizeOf_key_lt ts lt elems

mutual
/-- Structural equality of `SchemaType`s, i.e. the Python dataclass `__eq__`
(which compares all four fields, recursively). -/
def SchemaType.beq : SchemaType → SchemaType → Bool
  | .mk a1 a2 a3 a4, .mk b1 b2 b3 b4 =>
    a1 = b1 && a2 = b2 && SchemaType.beqList a3 b3 && SchemaType.beqOpt a4 b4

def SchemaType.beqList : List SchemaType → List SchemaType → Bool
  | [], [] => true
  | a :: as, b :: bs => SchemaType.beq a b && SchemaType.beqList as bs
  | _, _ => false

def SchemaType.beqOpt : Option SchemaType → Option SchemaType → Bool
  | none, none => true
  | some a, some b => SchemaType.beq a b
  | _, _ => false
end

theorem SchemaType.beq_iff : ∀ a b : SchemaType, SchemaType.beq a b = true ↔ a = b := by
  intro a
  induction a using SchemaType.inductionOn with
  | h ts lt elems key ihE ihK =>
    intro b
    cases b with
    | mk bts blt belems bkey =>
      simp only [SchemaType.beq, Bool.and_eq_true, decide_eq_true_eq, SchemaType.mk.injEq]
      constructor
      · rintro ⟨⟨⟨h1, h2⟩, h3⟩, h4⟩
        refine ⟨h1, h2, ?_, ?_⟩
        · clear h4
          induction elems generalizing belems with
          | nil => cases belems <;> simp_all [SchemaType.beqList]
          | cons e es ih =>
            cases belems with
            | nil => simp_all [SchemaType.beqList]
            | cons f fs =>
              simp only [SchemaType.beqList, Bool.and_eq_true] at h3
              have he := (ihE e (by simp)) f |>.mp h3.1
              have := ih (fun x hx => ihE x (by simp [hx])) fs h3.2
              simp [he, this]
        · cases key with
          | none => cases bkey <;> simp_all [SchemaType.beqOpt]
          | some k =>
            cases bkey with
            | none => simp_all [SchemaType.beqOpt]
            | some bk =>
              simp only [SchemaType.beqOpt] at h4
              have := (ihK k rfl bk).mp h4
              simp [this]
      · rintro ⟨h1, h2, h3, h4⟩
        subst h1; subst h2; subst h3; subst h4
        refine ⟨⟨⟨rfl, rfl⟩, ?_⟩, ?_⟩
        · induction elems with
          | nil => simp [SchemaType.beqList]
          | cons e es ih =>
            simp only [SchemaType.beqList, Bool.and_eq_true]
            exact ⟨(ihE e (by simp) e).mpr rfl, ih (fun x hx => ihE x (by simp [hx]))⟩
        · cases key with
          | none => simp [SchemaType.beqOpt]
          | some k => exact (ihK k rfl k).mpr rfl

instance : DecidableEq SchemaType := fun a b =>
  decidable_of_iff _ (SchemaType.beq_iff a b)

/-! ## Tables from `schema_parsing/utils.py` -/

def PRIMITIVE_TYPES : List String :=
  ["string", "integer", "boolean", "float", "double", "character", "long"]

def PRIMITIVE_WITH_NULL : List String := ["string", "character"]

def PRIMITIVE_DATA_STRUCTURES : List String := ["list", "map", "tuple", "set"]

/-- `RECONCILABLE_TYPES` from `utils.py`: maps a type name to the set of type
names it may be widened to (`dict.get(k, set())` is modelled by returning
`[]` for absent keys). -/
def RECONCILABLE_TYPES (ts : String) : List String :=
  if ts = "float" then ["double"]
  else if ts = "integer" then ["long", "float", "double"]
  else if ts = "long" then ["double"]
  else if ts = "character" then ["string"]
  else []

/-- `allows_null` from `utils.py`. -/
def allows_null (ts : String) : Bool :=
  ts ∈ PRIMITIVE_WITH_NULL ++ PRIMITIVE_DATA_STRUCTURES

/-- `SchemaType.is_leaf`: true iff there are no children elements. -/
def SchemaType.is_leaf (t : SchemaType) : Bool :=
  t.elements.length = 0

/-- The dataclass constructor including `__post_init__` validation:
raises `SchemaTypeError` if `key_type` is set without elements, or if the
type is a data-structure name without elements. -/
def SchemaType.make (ts lt : String) (elems : List SchemaType)
    (key : Option SchemaType) : Except String SchemaType :=
  if key.isSome ∧ elems = [] then
    .error "key_type is set without a value_type"
  else if ts ∈ PRIMITIVE_DATA_STRUCTURES ∧ elems = [] then
    .error "data structure type must have a value"
  else
    .ok (SchemaType.mk ts lt elems key)

/-! ## `_split_tuple_children` (`schema_type.py` lines 25–66)

The Python helper scans the children string of a tuple, splitting on `|` at
angle-bracket depth zero and raising `SchemaTypeError` when the `>`
characters are uneven.  `cur` is the accumulator `current_element_characters`
and `depth` is `num_open`. -/

def splitTupleChildrenAux : List Char → List Char → Nat → Except String (List (List Char))
  | [], cur, depth =>
    if depth ≠ 0 then .error "has uneven > characters"
    else .ok (if cur.isEmpty then [] else [cur])
  | c :: rest, cur, depth =>
    if c = '|' ∧ depth = 0 then
      (splitTupleChildrenAux rest [] 0).map (fun out => cur :: out)
    else if c = '<' then
      splitTupleChildrenAux rest (cur ++ [c]) (depth + 1)
    else if c = '>' then
      if depth = 0 then .error "has uneven > characters"
      else splitTupleChildrenAux rest (cur ++ [c]) (depth - 1)
    else
      splitTupleChildrenAux rest (cur ++ [c]) depth

def splitTupleChildren (l : List Char) : Except String (List (List Char)) :=
  splitTupleChildrenAux l [] 0

/-- Size bound on the pieces produced by `_split_tuple_children`, needed for
the parser's termination: the pieces' total length plus their number is
bounded by the input length (plus the accumulator, plus one). -/
theorem splitTupleChildrenAux_size :
    ∀ (l cur : List Char) (depth : Nat) (out : List (List Char)),
      splitTupleChildrenAux l cur depth = .ok out →
      ((out.map List.length).sum + out.length ≤ cur.length + l.length + 1 ∧
       ∀ p ∈ out, p.length ≤ cur.length + l.length) := by
  intro l
  induction l with
  | nil =>
    intro cur depth out h
    simp only [splitTupleChildrenAux] at h
    split at h
    · exact absurd h (by simp)
    · rename_i hd
      have : out = if cur.isEmpty then [] else [cur] := by
        injection h with h'; exact h'.symm
      subst this
      by_cases hc : cur.isEmpty <;> simp [hc]
  | cons c rest ih =>
    intro cur depth out h
    simp only [splitTupleChildrenAux] at h
    split at h
    · -- separator case
      cases hrec : splitTupleChildrenAux rest [] 0 with
      | error e => rw [hrec] at h; exact absurd h (by simp [Except.map])
      | ok out' =>
        rw [hrec] at h
        simp only [Except.map] at h
        injection h with h'
        subst h'
        obtain ⟨hsum, hmem⟩ := ih [] 0 out' hrec
        simp only [List.length_nil, List.length_cons] at hsum hmem ⊢
        constructor
        · simp only [List.map_cons, List.sum_cons]
          omega
        · intro p hp
          rcases List.mem_cons.mp hp with hp | hp
          · subst hp; omega
          · have := hmem p hp; omega
    · split at h
      · obtain ⟨hsum, hmem⟩ := ih (cur ++ [c]) (depth + 1) out h
        simp only [List.length_append, List.length_cons, List.length_nil] at hsum hmem ⊢
        exact ⟨by omega, fun p hp => by have := hmem p hp; omega⟩
      · split at h
        · split at h
          · exact absurd h (by simp)
          · obtain ⟨hsum, hmem⟩ := ih (cur ++ [c]) (depth - 1) out h
            simp only [List.length_append, List.length_cons, List.length_nil] at hsum hmem ⊢
            exact ⟨by omega, fun p hp => by have := hmem p hp; omega⟩
        · obtain ⟨hsum, hmem⟩ := ih (cur ++ [c]) depth out h
          simp only [List.length_append, List.length_cons, List.length_nil] at hsum hmem ⊢
          exact ⟨by omega, fun p hp => by have := hmem p hp; omega⟩

theorem removeBrackets_length :
    ∀ l : List Char, containsBrackets l = true →
      (removeBrackets l).length + 2 = l.length := by
  intro l
  induction l with
  | nil => intro h; simp [containsBrackets] at h
  | cons a rest ih =>
    intro h
    cases rest with
    | nil => simp [containsBrackets] at h
    | cons b rest2 =>
      by_cases hab : a = '[' ∧ b = ']'
      · simp [removeBrackets, if_pos hab]
      · have h' : containsBrackets (b :: rest2) = true := by
          simp only [containsBrackets, Bool.or_eq_true, Bool.and_eq_true,
            decide_eq_true_eq] at h
          rcases h with h | h
          · exact absurd h hab
          · exact h
        have := ih h'
        simp only [removeBrackets, if_neg hab, List.length_cons] at this ⊢
        omega

theorem splitFirst_eq_some {c : Char} :
    ∀ (l pre post : List Char), splitFirst c l = (pre, some post) →
      l = pre ++ c :: post ∧ c ∉ pre := by
  intro l
  induction l with
  | nil => intro pre post h; simp [splitFirst] at h
  | cons x rest ih =>
    intro pre post h
    simp only [splitFirst] at h
    by_cases hx : x = c
    · rw [if_pos hx] at h
      injection h with h1 h2
      injection h2 with h2
      subst h1; subst h2; subst hx
      simp
    · rw [if_neg hx] at h
      injection h with h1 h2
      have h2' : (splitFirst c rest).2 = some post := h2
      obtain ⟨hrest, hpre⟩ := ih (splitFirst c rest).1 post (by rw [← h2'])
      subst h1
      constructor
      · simp [List.cons_append, ← hrest]
      · simp only [List.mem_cons, not_or]
        exact ⟨fun hcx => hx hcx.symm, hpre⟩

/-! ## `SchemaType.from_generic_type_string` (`schema_type.py` lines 116–192)

A transcription of the Python classmethod, working on `List Char`.
Raised `SchemaTypeError`/`ValueError`/`IndexError` are all modelled as
`Except.error` (the `IndexError` on `children_types[-1]` for an empty
children string, reachable only for inputs like `">x<"`, gets a marker
message).  In the leaf branch the Python code also checks
`not out.is_leaf()` and raises `ValueError`; that check is vacuous because
the constructed node has no elements, so it has no counterpart here. -/

def quoteStr (s : String) : String := "\"" ++ s ++ "\""

mutual
def fromGenericChars (l : List Char) : Except String SchemaType :=
  if countChar '<' l ≠ countChar '>' l then
    .error (quoteStr (String.mk l) ++ " does not have same number of <>")
  else if hbb : containsBrackets l then
    if countChar '<' l ≠ 0 then
      .error (quoteStr (String.mk l) ++ " has both [] and <>")
    else
      match fromGenericChars (removeBrackets l) with
      | .error e => .error e
      | .ok inner => SchemaType.make "list" "NOT_SET" [inner] none
  else if countChar '<' l = 0 then
    SchemaType.make (String.mk l) "NOT_SET" [] none
  else
    match hsp : splitFirst '<' l with
    | (_, none) =>
      -- unreachable: `count '<' l ≠ 0` guarantees a `<` is found
      .error "INTERNAL: no < found"
    | (tn, some rest) =>
      match hgl : rest.getLast? with
      | none => .error "IndexError: string index out of range"
      | some c =>
        if c ≠ '>' then
          .error (String.mk rest ++ " has extra after last >")
        else
          if String.mk tn = "map" then
            match hm : splitFirst ';' rest.dropLast with
            | (_, none) =>
              .error ("Expected map to be in the form map<TYPE_1;TYPE_2>, but got "
                       ++ String.mk l)
            | (kstr, some vstr) =>
              match fromGenericChars kstr with
              | .error e => .error e
              | .ok keyT =>
                match fromGenericChars vstr with
                | .error e => .error e
                | .ok valT => SchemaType.make "map" "NOT_SET" [valT] (some keyT)
          else if String.mk tn = "tuple" then
            match hch : splitTupleChildren rest.dropLast with
            | .error e => .error e
            | .ok children =>
              if allSame children then
                match hc : children with
                | [] => .error "INTERNAL: empty children"  -- unreachable
                | c0 :: _ =>
                  match fromGenericChars c0 with
                  | .error e => .error e
                  | .ok inner => SchemaType.make "list" "NOT_SET" [inner] none
              else
                match fromGenericList children with
                | .error e => .error e
                | .ok elems => SchemaType.make "tuple" "NOT_SET" elems none
          else
            match fromGenericChars rest.dropLast with
            | .error e => .error e
            | .ok inner => SchemaType.make (String.mk tn) "NOT_SET" [inner] none

  termination_by l.length
  decreasing_by
  · -- removeBrackets strictly shrinks
    have := removeBrackets_length l hbb
    omega
  · -- map key string
    have h1 := splitFirst_some_length l tn rest hsp
    have h2 := splitFirst_eq_some rest.dropLast kstr vstr hm
    have h3 : rest.dropLast.length = kstr.length + 1 + vstr.length := by
      rw [h2.1]; simp only [List.length_append, List.length_cons]; omega
    have h4 : rest.dropLast.length ≤ rest.length := by
      simp [List.length_dropLast]
    omega
  · -- map value string
    have h1 := splitFirst_some_length l tn rest hsp
    have h2 := splitFirst_eq_some rest.dropLast kstr vstr hm
    have h3 : rest.dropLast.length = kstr.length + 1 + vstr.length := by
      rw [h2.1]; simp only [List.length_append, List.length_cons]; omega
    have h4 : rest.dropLast.length ≤ rest.length := by
      simp [List.length_dropLast]
    omega
  · -- homogeneous tuple: first child
    have h1 := splitFirst_some_length l tn rest hsp
    have h2 := (splitTupleChildrenAux_size rest.dropLast [] 0 _
      (by simpa [splitTupleChildren] using hch)).2 c0 (List.mem_cons_self _ _)
    have h4 : rest.dropLast.length ≤ rest.length := by
      simp [List.length_dropLast]
    simp only [List.length_nil] at h2
    omega
  · -- heterogeneous tuple: all children
    have h1 := splitFirst_some_length l tn rest hsp
    have h2 := (splitTupleChildrenAux_size rest.dropLast [] 0 _
      (by simpa [splitTupleChildren] using hch)).1
    have hne : rest ≠ [] := by
      intro hrest; rw [hrest] at hgl; simp at hgl
    have h4 : rest.dropLast.length = rest.length - 1 := List.length_dropLast rest
    have h5 : 1 ≤ rest.length := List.length_pos.mpr hne
    simp only [List.length_nil] at h2
    omega
  · -- default container: children string
    have h1 := splitFirst_some_length l tn rest hsp
    have h4 : rest.dropLast.length ≤ rest.length := by
      simp [List.length_dropLast]
    omega

def fromGenericList (pieces : List (List Char)) : Except String (List SchemaType) :=
  match pieces with
  | [] => .ok []
  | p :: ps =>
    match fromGenericChars p with
    | .error e => .error e
    | .ok t =>
      match fromGenericList ps with
      | .error e => .error e
      | .ok ts => .ok (t :: ts)
  termination_by (pieces.map List.length).sum + pieces.length
  decreasing_by
  · simp only [List.map_cons, List.sum_cons, List.length_cons]
    omega
  · simp only [List.map_cons, List.sum_cons, List.length_cons]
    omega
end

/-- `SchemaType.from_generic_type_string` on Lean `String`s. -/
def fromGenericTypeString (s : String) : Except String SchemaType :=
  fromGenericChars s.data

theorem SchemaType.sizeOf_keyType_lt :
    ∀ {t lk : SchemaType}, t.keyType = some lk → sizeOf lk < sizeOf t := by
  intro t lk h
  cases t with
  | mk ts lt elems key =>
    simp only [SchemaType.keyType_mk] at h
    subst h
    exact SchemaType.sizeOf_key_lt ts lt elems

theorem SchemaType.sizeOf_elements_lt (t : SchemaType) :
    sizeOf t.elements < sizeOf t := by
  cases t with
  | mk ts lt elems key =>
    simp only [SchemaType.elements_mk, SchemaType.mk.sizeOf_spec]
    omega

theorem SchemaType.sizeOf_keyTypeOpt_lt (t : SchemaType) :
    sizeOf t.keyType < sizeOf t := by
  cases t with
  | mk ts lt elems key =>
    simp only [SchemaType.keyType_mk, SchemaType.mk.sizeOf_spec]
    omega

/-! ## `SchemaType.to_generic` (`schema_type.py` lines 194–203)

The Python method crashes with `AttributeError`/`IndexError` on a `map` node
without a key type or without elements; such nodes cannot be produced by the
validated constructor, and `toGeneric` returns the marker string
`"INVALID"` for them. -/

mutual
def toGeneric : SchemaType → String
  | .mk ts _ elems key =>
    if ts = "list" ∨ ts = "tuple" ∨ ts = "set" then
      ts ++ "<" ++ joinSep (if ts = "tuple" then "|" else ",") (toGenericList elems) ++ ">"
    else if ts = "map" then
      match key, elems with
      | some k, e0 :: _ => "map<" ++ toGeneric k ++ ";" ++ toGeneric e0 ++ ">"
      | _, _ => "INVALID"
    else ts
  termination_by t => sizeOf t
  decreasing_by
  all_goals
    simp only [SchemaType.mk.sizeOf_spec, List.cons.sizeOf_spec, Option.some.sizeOf_spec]
    omega

def toGenericList : List SchemaType → List String
  | [] => []
  | t :: ts => toGeneric t :: toGenericList ts
  termination_by l => sizeOf l
  decreasing_by
  all_goals
    simp only [List.cons.sizeOf_spec]
    omega
end

mutual
/-- `SchemaType.copy` (`schema_type.py` lines 205–224).  The copy is built
through the dataclass constructor, so `__post_init__` validation re-runs on
every node: copying can raise on malformed trees. -/
def SchemaType.copy : SchemaType → Except String SchemaType
  | .mk ts lt elems none =>
    match SchemaType.copyList elems with
    | .error e => .error e
    | .ok newElems => SchemaType.make ts lt newElems none
  | .mk ts lt elems (some k) =>
    match SchemaType.copyList elems with
    | .error e => .error e
    | .ok newElems =>
      match SchemaType.copy k with
      | .error e => .error e
      | .ok newKey => SchemaType.make ts lt newElems (some newKey)
  termination_by t => sizeOf t
  decreasing_by
  all_goals
    simp only [SchemaType.mk.sizeOf_spec, List.cons.sizeOf_spec, Option.some.sizeOf_spec]
    omega

def SchemaType.copyList : List SchemaType → Except String (List SchemaType)
  | [] => .ok []
  | t :: ts =>
    match SchemaType.copy t with
    | .error e => .error e
    | .ok c =>
      match SchemaType.copyList ts with
      | .error e => .error e
      | .ok cs => .ok (c :: cs)
  termination_by l => sizeOf l
  decreasing_by
  all_goals
    simp only [List.cons.sizeOf_spec]
    omega
end

/-! ## `is_generic_equal` (`schema_type.py` lines 360–398)

The Python function falls through from the map-key check to the shared
element-count/element-wise comparison; the shared tail is split out as
`igeTail`/`igeList` here. -/

mutual
def is_generic_equal (left right : SchemaType) : Bool :=
  if left.is_leaf || right.is_leaf then
    if left.typeStr = "null" || right.typeStr = "null" then true
    else left.typeStr = right.typeStr
  else if left.typeStr ≠ right.typeStr then false
  else if left.typeStr = "map" then
    match hl : left.keyType, hr : right.keyType with
    | some lk, some rk => is_generic_equal lk rk && igeTail left right
    | _, _ => false
  else igeTail left right
  termination_by (sizeOf left + sizeOf right, 2)
  decreasing_by
  · apply Prod.Lex.left
    have h1 := SchemaType.sizeOf_keyType_lt hl
    have h2 := SchemaType.sizeOf_keyType_lt hr
    omega
  · apply Prod.Lex.right
    omega
  · apply Prod.Lex.right
    omega

def igeTail (left right : SchemaType) : Bool :=
  left.elements.length = right.elements.length &&
    igeList left.elements right.elements
  termination_by (sizeOf left + sizeOf right, 1)
  decreasing_by
  · apply Prod.Lex.left
    have h1 := SchemaType.sizeOf_elements_lt left
    have h2 := SchemaType.sizeOf_elements_lt right
    omega

def igeList : List SchemaType → List SchemaType → Bool
  | a :: as, b :: bs => is_generic_equal a b && igeList as bs
  | _, _ => true
  termination_by as bs => (sizeOf as + sizeOf bs, 2)
  decreasing_by
  · apply Prod.Lex.left
    simp only [List.cons.sizeOf_spec]
    omega
  · apply Prod.Lex.left
    simp only [List.cons.sizeOf_spec]
    omega
end

/-- `is_reconcilable` (`schema_type.py` lines 401–412). -/
def is_reconcilable (t : SchemaType) : Bool :=
  RECONCILABLE_TYPES t.typeStr ≠ []

/-! ## `reconcile_type` (`schema_type.py` lines 415–480)

Raised `SchemaTypeError` is the `.error` case; the Python `None` result is
`.ok none`.  The element loop over `zip(left.elements, right.elements)` is
`reconcileElems` (the zip truncation for ragged lists is the catch-all
pattern, unreachable after the length check). -/

mutual
def reconcile_type (left right : SchemaType) : Except String (Option SchemaType) :=
  if left.langType ≠ "NOT_SET" ∨ right.langType ≠ "NOT_SET" then
    .error "Cannot reconcile types with a lang type"
  else if left.is_leaf || right.is_leaf then
    if ¬left.is_leaf || ¬right.is_leaf then .ok none
    else if is_reconcilable left || is_reconcilable right then
      if right.typeStr ∈ RECONCILABLE_TYPES left.typeStr then
        (fromGenericTypeString (toGeneric right)).map some
      else if left.typeStr ∈ RECONCILABLE_TYPES right.typeStr then
        (fromGenericTypeString (toGeneric left)).map some
      else .ok none
    else .ok none
  else if left.typeStr ≠ right.typeStr then .ok none
  else if left.elements.length ≠ right.elements.length then .ok none
  else if left.keyType ≠ right.keyType then .ok none
  else
    match reconcileElems left.elements right.elements with
    | .error e => .error e
    | .ok none => .ok none
    | .ok (some newElems) =>
      match SchemaType.copy left with
      | .error e => .error e
      | .ok copied =>
        match copied with
        | .mk cts clt _ ckey =>
          (fromGenericTypeString (toGeneric (.mk cts clt newElems ckey))).map some
  termination_by (sizeOf left + sizeOf right, 1)
  decreasing_by
  · apply Prod.Lex.left
    have h1 := SchemaType.sizeOf_elements_lt left
    have h2 := SchemaType.sizeOf_elements_lt right
    omega

def reconcileElems : List SchemaType → List SchemaType → Except String (Option (List SchemaType))
  | a :: as, b :: bs =>
    match reconcile_type a b with
    | .error e => .error e
    | .ok none => .ok none
    | .ok (some n) =>
      match reconcileElems as bs with
      | .error e => .error e
      | .ok none => .ok none
      | .ok (some ns) => .ok (some (n :: ns))
  | _, _ => .ok (some [])
  termination_by as bs => (sizeOf as + sizeOf bs, 2)
  decreasing_by
  · apply Prod.Lex.left
    simp only [List.cons.sizeOf_spec]
    omega
  · apply Prod.Lex.left
    simp only [List.cons.sizeOf_spec]
    omega
end

/-! ## The spec's `TypeExpr` universe

Section 3 of the specification defines `TypeExpr` as: leaf primitives
`boolean, integer, long, float, double, character, string, null`; containers
`list<T>`, `set<T>`, `map<K,V>` (K restricted to
`string|integer|character|boolean`), `tuple<T1|T2|…>`; with the invariants
that container nodes have a non-empty element list, map nodes have both a
key child and a value child, and leaves have no children.  `wfType` is that
universe.  `noLang` says every node's `lang_type` is still the unset
default, and `noTupleCollapse` marks the trees on which the parser's
homogeneous-tuple collapse does not fire. -/

def isPrimLeafName (s : String) : Bool :=
  s = "boolean" ∨ s = "integer" ∨ s = "long" ∨ s = "float" ∨ s = "double" ∨
    s = "character" ∨ s = "string" ∨ s = "null"

def isMapKeyName (s : String) : Bool :=
  s = "string" ∨ s = "integer" ∨ s = "character" ∨ s = "boolean"

def wfKeyLeaf : SchemaType → Bool
  | .mk ts _ [] none => isMapKeyName ts
  | _ => false

def wfKeyOpt : Option SchemaType → Bool
  | some k => wfKeyLeaf k
  | none => false

mutual
def wfType : SchemaType → Bool
  | .mk ts _ elems key =>
    if ts = "list" ∨ ts = "set" then
      key.isNone && elems.length = 1 && wfList elems
    else if ts = "map" then
      wfKeyOpt key && elems.length = 1 && wfList elems
    else if ts = "tuple" then
      key.isNone && decide (elems ≠ []) && wfList elems
    else
      isPrimLeafName ts && elems.isEmpty && key.isNone
  termination_by t => sizeOf t
  decreasing_by
  all_goals
    simp only [SchemaType.mk.sizeOf_spec, List.cons.sizeOf_spec, Option.some.sizeOf_spec]
    omega

def wfList : List SchemaType → Bool
  | [] => true
  | t :: ts => wfType t && wfList ts
  termination_by l => sizeOf l
  decreasing_by
  all_goals
    simp only [List.cons.sizeOf_spec]
    omega
end

mutual
def noLang : SchemaType → Bool
  | .mk _ lt elems key => lt = "NOT_SET" && noLangList elems && noLangOpt key
  termination_by t => sizeOf t
  decreasing_by
  all_goals
    simp only [SchemaType.mk.sizeOf_spec, List.cons.sizeOf_spec, Option.some.sizeOf_spec]
    omega

def noLangList : List SchemaType → Bool
  | [] => true
  | t :: ts => noLang t && noLangList ts
  termination_by l => sizeOf l
  decreasing_by
  all_goals
    simp only [List.cons.sizeOf_spec]
    omega

def noLangOpt : Option SchemaType → Bool
  | some k => noLang k
  | none => true
  termination_by o => sizeOf o
  decreasing_by
  all_goals
    simp only [Option.some.sizeOf_spec]
    omega
end

mutual
def noTupleCollapse : SchemaType → Bool
  | .mk ts _ elems key =>
    (!(ts = "tuple") || !allSame (toGenericList elems)) &&
      noTupleCollapseList elems && noTupleCollapseOpt key
  termination_by t => sizeOf t
  decreasing_by
  all_goals
    simp only [SchemaType.mk.sizeOf_spec, List.cons.sizeOf_spec, Option.some.sizeOf_spec]
    omega

def noTupleCollapseList : List SchemaType → Bool
  | [] => true
  | t :: ts => noTupleCollapse t && noTupleCollapseList ts
  termination_by l => sizeOf l
  decreasing_by
  all_goals
    simp only [List.cons.sizeOf_spec]
    omega

def noTupleCollapseOpt : Option SchemaType → Bool
  | some k => noTupleCollapse k
  | none => true
  termination_by o => sizeOf o
  decreasing_by
  all_goals
    simp only [Option.some.sizeOf_spec]
    omega
end

/-! ## Bracket-depth scanning, for the round-trip proofs -/

/-- Running angle-bracket depth scan: `scan l d` returns the final depth when
processing `l` from depth `d` never goes negative, and `none` otherwise. -/
def scan : List Char → Nat → Option Nat
  | [], d => some d
  | c :: r, d =>
    if c = '<' then scan r (d + 1)
    else if c = '>' then
      if d = 0 then none else scan r (d - 1)
    else scan r d

theorem scan_append : ∀ (a b : List Char) (d : Nat),
    scan (a ++ b) d = (scan a d).bind (fun e => scan b e) := by
  intro a
  induction a with
  | nil => intro b d; simp [scan]
  | cons c r ih =>
    intro b d
    simp only [List.cons_append, scan]
    by_cases hc : c = '<'
    · simp [hc, ih]
    · by_cases hc2 : c = '>'
      · by_cases hd : d = 0 <;> simp [hc, hc2, hd, ih]
      · simp [hc, hc2, ih]

theorem scan_count : ∀ (l : List Char) (d e : Nat), scan l d = some e →
    e + countChar '>' l = d + countChar '<' l := by
  intro l
  induction l with
  | nil =>
    intro d e h
    simp only [scan, Option.some.injEq] at h
    subst h
    simp [countChar]
  | cons c r ih =>
    intro d e h
    simp only [scan] at h
    simp only [countChar, List.count_cons] at *
    by_cases hc : c = '<'
    · rw [if_pos hc] at h
      have := ih (d + 1) e h
      simp only [countChar] at this
      have hc2 : ¬ (c == '>') = true := by simp [hc]
      simp [hc, hc2] at *
      omega
    · by_cases hc2 : c = '>'
      · rw [if_neg hc, if_pos hc2] at h
        by_cases hd : d = 0
        · rw [if_pos hd] at h; exact absurd h (by simp)
        · rw [if_neg hd] at h
          have := ih (d - 1) e h
          simp only [countChar] at this
          simp [hc, hc2] at *
          omega
      · rw [if_neg hc, if_neg hc2] at h
        have := ih d e h
        simp only [countChar] at this
        simp [hc, hc2] at *
        omega

theorem splitFirst_not_mem {c : Char} : ∀ l : List Char, c ∉ l →
    splitFirst c l = (l, none) := by
  intro l
  induction l with
  | nil => intro _; rfl
  | cons x rest ih =>
    intro h
    simp only [List.mem_cons, not_or] at h
    have hx : ¬ x = c := fun hh => h.1 hh.symm
    simp only [splitFirst, if_neg hx, ih h.2]

theorem splitFirst_append {c : Char} : ∀ (w r : List Char), c ∉ w →
    splitFirst c (w ++ c :: r) = (w, some r) := by
  intro w
  induction w with
  | nil => intro r _; simp [splitFirst]
  | cons x rest ih =>
    intro r h
    simp only [List.mem_cons, not_or] at h
    have hx : ¬ x = c := fun hh => h.1 hh.symm
    simp only [List.cons_append, splitFirst, if_neg hx]
    rw [show rest.append (c :: r) = rest ++ c :: r from rfl, ih r h.2]

theorem containsBrackets_eq_false : ∀ l : List Char, '[' ∉ l →
    containsBrackets l = false := by
  intro l
  induction l with
  | nil => intro _; rfl
  | cons a rest ih =>
    intro h
    simp only [List.mem_cons, not_or] at h
    cases rest with
    | nil => rfl
    | cons b rest2 =>
      have hcb := ih h.2
      have ha : ¬ (a = '[') := fun hh => h.1 hh.symm
      simp only [containsBrackets, hcb, Bool.or_false]
      simp [ha]

theorem scan_plain : ∀ (w : List Char), (∀ c ∈ w, c ≠ '<' ∧ c ≠ '>') →
    ∀ d, scan w d = some d := by
  intro w
  induction w with
  | nil => intro _ d; rfl
  | cons c rest ih =>
    intro h d
    obtain ⟨h1, h2⟩ := h c (by simp)
    simp only [scan, if_neg h1, if_neg h2]
    exact ih (fun x hx => h x (by simp [hx])) d

theorem stc_plain : ∀ (w : List Char), (∀ x ∈ w, x ≠ '|' ∧ x ≠ '<' ∧ x ≠ '>') →
    ∀ (l cur : List Char) (d : Nat),
      splitTupleChildrenAux (w ++ l) cur d = splitTupleChildrenAux l (cur ++ w) d := by
  intro w
  induction w with
  | nil => intro _ l cur d; simp
  | cons x rest ih =>
    intro h l cur d
    obtain ⟨hx1, hx2, hx3⟩ := h x (by simp)
    simp only [List.cons_append, splitTupleChildrenAux]
    rw [if_neg (fun hh => hx1 hh.1), if_neg hx2, if_neg hx3]
    have hih := ih (fun y hy => h y (by simp [hy])) l (cur ++ [x]) d
    simp only [List.append_assoc, List.singleton_append] at hih
    exact hih

theorem stc_balanced : ∀ (body : List Char) (j k : Nat), scan body j = some k →
    ∀ (m : Nat), 1 ≤ m → ∀ (l cur : List Char),
      splitTupleChildrenAux (body ++ l) cur (j + m) =
        splitTupleChildrenAux l (cur ++ body) (k + m) := by
  intro body
  induction body with
  | nil =>
    intro j k h m hm l cur
    simp only [scan, Option.some.injEq] at h
    subst h
    simp
  | cons c rest ih =>
    intro j k h m hm l cur
    simp only [scan] at h
    have hbar : ¬ (c = '|' ∧ j + m = 0) := fun hh => by omega
    simp only [List.cons_append, splitTupleChildrenAux, if_neg hbar]
    by_cases hc : c = '<'
    · rw [if_pos hc] at h ⊢
      rw [show j + m + 1 = (j + 1) + m by omega]
      have hih := ih (j + 1) k h m hm l (cur ++ [c])
      simp only [List.append_assoc, List.singleton_append] at hih
      exact hih
    · by_cases hc2 : c = '>'
      · rw [if_neg hc] at h ⊢
        rw [if_pos hc2] at h ⊢
        by_cases hj : j = 0
        · rw [if_pos hj] at h; exact absurd h (by simp)
        · rw [if_neg hj] at h
          rw [if_neg (show ¬ (j + m = 0) by omega)]
          rw [show j + m - 1 = (j - 1) + m by omega]
          have hih := ih (j - 1) k h m hm l (cur ++ [c])
          simp only [List.append_assoc, List.singleton_append] at hih
          exact hih
      · rw [if_neg hc] at h ⊢
        rw [if_neg hc2] at h ⊢
        have hih := ih j k h m hm l (cur ++ [c])
        simp only [List.append_assoc, List.singleton_append] at hih
        exact hih

/-! ## Shape lemmas for `toGeneric` and `wfType` -/

theorem primLeafName_cases {ts : String} (h : isPrimLeafName ts = true) :
    ts = "boolean" ∨ ts = "integer" ∨ ts = "long" ∨ ts = "float" ∨ ts = "double" ∨
      ts = "character" ∨ ts = "string" ∨ ts = "null" := by
  simpa [isPrimLeafName] using h

theorem mapKeyName_cases {ts : String} (h : isMapKeyName ts = true) :
    ts = "string" ∨ ts = "integer" ∨ ts = "character" ∨ ts = "boolean" := by
  simpa [isMapKeyName] using h

theorem primLeafName_not_container {ts : String} (h : isPrimLeafName ts = true) :
    ¬(ts = "list" ∨ ts = "tuple" ∨ ts = "set") ∧ ¬ ts = "map" := by
  rcases primLeafName_cases h with rfl | rfl | rfl | rfl | rfl | rfl | rfl | rfl <;>
    exact ⟨by decide, by decide⟩

/-- The eight primitive leaf names contain none of the grammar's
metacharacters. -/
theorem primLeafName_chars {ts : String} (h : isPrimLeafName ts = true) :
    ∀ c ∈ ts.data, c ≠ '<' ∧ c ≠ '>' ∧ c ≠ '|' ∧ c ≠ ';' ∧ c ≠ '[' := by
  rcases primLeafName_cases h with rfl | rfl | rfl | rfl | rfl | rfl | rfl | rfl <;> decide

/-- The four container names contain none of the grammar's metacharacters. -/
theorem containerName_chars {ts : String}
    (h : ts = "list" ∨ ts = "set" ∨ ts = "map" ∨ ts = "tuple") :
    ∀ c ∈ ts.data, c ≠ '<' ∧ c ≠ '>' ∧ c ≠ '|' ∧ c ≠ ';' ∧ c ≠ '[' := by
  rcases h with rfl | rfl | rfl | rfl <;> decide

theorem toGeneric_leaf {ts lt : String} (h : isPrimLeafName ts = true) :
    toGeneric (.mk ts lt [] none) = ts := by
  obtain ⟨h1, h2⟩ := primLeafName_not_container h
  rw [toGeneric, if_neg h1, if_neg h2]
  intro k e0 tail hk he
  exact Option.noConfusion hk

theorem toGeneric_listset {ts : String} (h : ts = "list" ∨ ts = "set")
    (lt : String) (e : SchemaType) :
    toGeneric (.mk ts lt [e] none) = ts ++ "<" ++ toGeneric e ++ ">" := by
  rcases h with rfl | rfl
  · rw [toGeneric, if_pos (by simp), if_neg (by decide)]
    · simp only [toGenericList]
      rfl
    · intro k e0 tail hk he
      exact Option.noConfusion hk
  · rw [toGeneric, if_pos (by simp), if_neg (by decide)]
    · simp only [toGenericList]
      rfl
    · intro k e0 tail hk he
      exact Option.noConfusion hk

theorem toGeneric_map (lt : String) (k v : SchemaType) :
    toGeneric (.mk "map" lt [v] (some k)) =
      "map<" ++ toGeneric k ++ ";" ++ toGeneric v ++ ">" := by
  rw [toGeneric, if_neg (by decide), if_pos rfl]

theorem toGeneric_tuple (lt : String) (elems : List SchemaType) :
    toGeneric (.mk "tuple" lt elems none) =
      "tuple" ++ "<" ++ joinSep "|" (toGenericList elems) ++ ">" := by
  rw [toGeneric, if_pos (by simp), if_pos rfl]
  intro k e0 tail hk he
  exact Option.noConfusion hk

theorem toGenericList_eq_map : ∀ l : List SchemaType, toGenericList l = l.map toGeneric := by
  intro l
  induction l with
  | nil => rw [toGenericList]; rfl
  | cons t ts ih => rw [toGenericList, ih]; rfl

/-- Inversion of `wfType` on a constructor. -/
theorem wfType_inv {ts lt : String} {elems : List SchemaType} {key : Option SchemaType}
    (h : wfType (.mk ts lt elems key) = true) :
    (isPrimLeafName ts = true ∧ elems = [] ∧ key = none) ∨
    ((ts = "list" ∨ ts = "set") ∧ key = none ∧ ∃ e, elems = [e] ∧ wfType e = true) ∨
    (ts = "map" ∧ ∃ k v, key = some k ∧ elems = [v] ∧ wfKeyLeaf k = true ∧ wfType v = true) ∨
    (ts = "tuple" ∧ key = none ∧ elems ≠ [] ∧ wfList elems = true) := by
  rw [wfType] at h
  by_cases h1 : ts = "list" ∨ ts = "set"
  · rw [if_pos h1] at h
    simp only [Bool.and_eq_true, Option.isNone_iff_eq_none, decide_eq_true_eq] at h
    obtain ⟨⟨hk, hlen⟩, hwf⟩ := h
    obtain ⟨e, rfl⟩ := List.length_eq_one.mp hlen
    refine Or.inr (Or.inl ⟨h1, hk, e, rfl, ?_⟩)
    rw [wfList] at hwf
    simp only [Bool.and_eq_true] at hwf
    exact hwf.1
  · rw [if_neg h1] at h
    by_cases h2 : ts = "map"
    · rw [if_pos h2] at h
      simp only [Bool.and_eq_true, decide_eq_true_eq] at h
      obtain ⟨⟨hk, hlen⟩, hwf⟩ := h
      obtain ⟨v, rfl⟩ := List.length_eq_one.mp hlen
      cases key with
      | none => rw [wfKeyOpt] at hk; exact absurd hk (by simp)
      | some k =>
        rw [wfKeyOpt] at hk
        refine Or.inr (Or.inr (Or.inl ⟨h2, k, v, rfl, rfl, hk, ?_⟩))
        rw [wfList] at hwf
        simp only [Bool.and_eq_true] at hwf
        exact hwf.1
    · rw [if_neg h2] at h
      by_cases h3 : ts = "tuple"
      · rw [if_pos h3] at h
        simp only [Bool.and_eq_true, Option.isNone_iff_eq_none, decide_eq_true_eq] at h
        exact Or.inr (Or.inr (Or.inr ⟨h3, h.1.1, h.1.2, h.2⟩))
      · rw [if_neg h3] at h
        simp only [Bool.and_eq_true, List.isEmpty_iff, Option.isNone_iff_eq_none] at h
        exact Or.inl ⟨h.1.1, h.1.2, h.2⟩

theorem wfList_iff : ∀ l : List SchemaType, wfList l = true ↔ ∀ t ∈ l, wfType t = true := by
  intro l
  induction l with
  | nil => rw [wfList]; simp
  | cons t ts ih =>
    rw [wfList]
    simp only [Bool.and_eq_true, ih, List.mem_cons]
    constructor
    · rintro ⟨h1, h2⟩ x (rfl | hx)
      · exact h1
      · exact h2 x hx
    · intro h
      exact ⟨h t (Or.inl rfl), fun x hx => h x (Or.inr hx)⟩

theorem noLang_inv {ts lt : String} {elems : List SchemaType} {key : Option SchemaType}
    (h : noLang (.mk ts lt elems key) = true) :
    lt = "NOT_SET" ∧ noLangList elems = true ∧ (∀ k, key = some k → noLang k = true) := by
  rw [noLang] at h
  simp only [Bool.and_eq_true, decide_eq_true_eq] at h
  refine ⟨h.1.1, h.1.2, ?_⟩
  intro k hk
  subst hk
  rw [noLangOpt] at h
  exact h.2

theorem noLangList_iff : ∀ l : List SchemaType, noLangList l = true ↔ ∀ t ∈ l, noLang t = true := by
  intro l
  induction l with
  | nil => rw [noLangList]; simp
  | cons t ts ih =>
    rw [noLangList]
    simp only [Bool.and_eq_true, ih, List.mem_cons]
    constructor
    · rintro ⟨h1, h2⟩ x (rfl | hx)
      · exact h1
      · exact h2 x hx
    · intro h
      exact ⟨h t (Or.inl rfl), fun x hx => h x (Or.inr hx)⟩

theorem noTupleCollapse_inv {ts lt : String} {elems : List SchemaType}
    {key : Option SchemaType} (h : noTupleCollapse (.mk ts lt elems key) = true) :
    (ts = "tuple" → allSame (toGenericList elems) = false) ∧
      noTupleCollapseList elems = true ∧
      (∀ k, key = some k → noTupleCollapse k = true) := by
  rw [noTupleCollapse] at h
  simp only [Bool.and_eq_true, Bool.or_eq_true, Bool.not_eq_true', decide_eq_true_eq,
    Bool.not_eq_true] at h
  refine ⟨?_, h.1.2, ?_⟩
  · intro hts
    rcases h.1.1 with h' | h'
    · simp [hts] at h'
    · exact h'
  · intro k hk
    subst hk
    rw [noTupleCollapseOpt] at h
    exact h.2

theorem noTupleCollapseList_iff : ∀ l : List SchemaType,
    noTupleCollapseList l = true ↔ ∀ t ∈ l, noTupleCollapse t = true := by
  intro l
  induction l with
  | nil => rw [noTupleCollapseList]; simp
  | cons t ts ih =>
    rw [noTupleCollapseList]
    simp only [Bool.and_eq_true, ih, List.mem_cons]
    constructor
    · rintro ⟨h1, h2⟩ x (rfl | hx)
      · exact h1
      · exact h2 x hx
    · intro h
      exact ⟨h t (Or.inl rfl), fun x hx => h x (Or.inr hx)⟩


/-! ## Properties of rendered generic strings -/

theorem str_data_append (a b : String) : (a ++ b).data = a.data ++ b.data := rfl

theorem str_mk_data (s : String) : String.mk s.data = s := rfl

theorem mapKeyName_prim {ts : String} (h : isMapKeyName ts = true) :
    isPrimLeafName ts = true := by
  rcases mapKeyName_cases h with rfl | rfl | rfl | rfl <;> decide

theorem primLeafName_not_ds {ts : String} (h : isPrimLeafName ts = true) :
    ts ∉ PRIMITIVE_DATA_STRUCTURES := by
  rcases primLeafName_cases h with rfl | rfl | rfl | rfl | rfl | rfl | rfl | rfl <;> decide

theorem wfKeyLeaf_inv {k : SchemaType} (h : wfKeyLeaf k = true) :
    ∃ kts klt, k = .mk kts klt [] none ∧ isMapKeyName kts = true := by
  cases k with
  | mk kts klt elems key =>
    cases elems with
    | cons e es => simp [wfKeyLeaf] at h
    | nil =>
      cases key with
      | some kk => simp [wfKeyLeaf] at h
      | none => exact ⟨kts, klt, rfl, by simpa [wfKeyLeaf] using h⟩

theorem scan_mono : ∀ (l : List Char) (j k : Nat), scan l j = some k →
    ∀ m, scan l (j + m) = some (k + m) := by
  intro l
  induction l with
  | nil =>
    intro j k h m
    simp only [scan, Option.some.injEq] at h ⊢
    omega
  | cons c r ih =>
    intro j k h m
    simp only [scan] at h ⊢
    by_cases hc : c = '<'
    · rw [if_pos hc] at h ⊢
      rw [show j + m + 1 = (j + 1) + m by omega]
      exact ih (j + 1) k h m
    · by_cases hc2 : c = '>'
      · rw [if_neg hc, if_pos hc2] at h ⊢
        by_cases hj : j = 0
        · rw [if_pos hj] at h; exact absurd h (by simp)
        · rw [if_neg hj] at h
          rw [if_neg (show ¬ (j + m = 0) by omega)]
          rw [show j + m - 1 = (j - 1) + m by omega]
          exact ih (j - 1) k h m
      · rw [if_neg hc, if_neg hc2] at h ⊢
        exact ih j k h m

theorem scan_joinSep : ∀ parts : List String, (∀ p ∈ parts, scan p.data 0 = some 0) →
    scan (joinSep "|" parts).data 0 = some 0 := by
  intro parts
  induction parts with
  | nil => intro _; rfl
  | cons p rest ih =>
    intro h
    cases rest with
    | nil => exact h p (by simp)
    | cons q rest2 =>
      rw [joinSep]
      rw [str_data_append, str_data_append, scan_append, scan_append]
      rw [h p (by simp)]
      have h2 : scan "|".data 0 = some 0 := rfl
      simp only [Option.some_bind, h2]
      exact ih (fun x hx => h x (by simp [hx]))
      intro hq
      exact List.noConfusion hq

theorem containerName_scan {ts : String}
    (h : ts = "list" ∨ ts = "set" ∨ ts = "map" ∨ ts = "tuple") :
    ∀ d, scan ts.data d = some d :=
  scan_plain _ (fun c hc =>
    ⟨(containerName_chars h c hc).1, (containerName_chars h c hc).2.1⟩)

theorem primName_scan {ts : String} (h : isPrimLeafName ts = true) :
    ∀ d, scan ts.data d = some d :=
  scan_plain _ (fun c hc =>
    ⟨(primLeafName_chars h c hc).1, (primLeafName_chars h c hc).2.1⟩)

theorem scan_wrap {name : String} (hname : ∀ d, scan name.data d = some d)
    {body : String} (hbody : scan body.data 0 = some 0) :
    scan (name ++ "<" ++ body ++ ">").data 0 = some 0 := by
  rw [str_data_append, str_data_append, str_data_append]
  rw [scan_append, scan_append, scan_append, hname 0]
  simp only [Option.some_bind]
  rw [show scan "<".data 0 = some 1 from rfl]
  simp only [Option.some_bind]
  rw [scan_mono body.data 0 0 hbody 1]
  simp only [Option.some_bind]
  rfl

/-- Every rendered well-formed `TypeExpr` is angle-bracket balanced. -/
theorem render_scan0 : ∀ t, wfType t = true → scan (toGeneric t).data 0 = some 0 := by
  intro t
  induction t using SchemaType.inductionOn with
  | h ts lt elems key ihE ihK =>
    intro hwf
    rcases wfType_inv hwf with ⟨hp, rfl, rfl⟩ | ⟨hts, rfl, e, rfl, hwfe⟩ |
      ⟨hts, k, v, rfl, rfl, hk, hv⟩ | ⟨hts, rfl, hne, hwfl⟩
    · rw [toGeneric_leaf hp]
      exact primName_scan hp 0
    · rw [toGeneric_listset hts]
      refine scan_wrap ?_ (ihE e (by simp) hwfe)
      rcases hts with rfl | rfl
      · exact containerName_scan (Or.inl rfl)
      · exact containerName_scan (Or.inr (Or.inl rfl))
    · subst hts
      obtain ⟨kts, klt, rfl, hkn⟩ := wfKeyLeaf_inv hk
      rw [toGeneric_map]
      rw [show ("map<" ++ toGeneric (.mk kts klt [] none) ++ ";" ++ toGeneric v ++ ">") =
        ("map" ++ "<" ++ (toGeneric (.mk kts klt [] none) ++ ";" ++ toGeneric v) ++ ">") by
          simp [String.append_assoc]]
      refine scan_wrap (containerName_scan (Or.inr (Or.inr (Or.inl rfl)))) ?_
      rw [str_data_append, str_data_append, scan_append, scan_append]
      rw [toGeneric_leaf (mapKeyName_prim hkn), primName_scan (mapKeyName_prim hkn) 0]
      simp only [Option.some_bind]
      rw [show scan ";".data 0 = some 0 from rfl]
      simp only [Option.some_bind]
      exact ihE v (by simp) hv
    · subst hts
      rw [toGeneric_tuple]
      refine scan_wrap (containerName_scan (Or.inr (Or.inr (Or.inr rfl)))) ?_
      refine scan_joinSep _ ?_
      intro p hp
      rw [toGenericList_eq_map] at hp
      obtain ⟨x, hx, rfl⟩ := List.mem_map.mp hp
      exact ihE x hx ((wfList_iff elems).mp hwfl x hx)

theorem mem_joinSep_data : ∀ (parts : List String) (c : Char),
    c ∈ (joinSep "|" parts).data → c = '|' ∨ ∃ p ∈ parts, c ∈ p.data := by
  intro parts
  induction parts with
  | nil => intro c hc; simp [joinSep] at hc
  | cons p rest ih =>
    intro c hc
    cases rest with
    | nil =>
      rw [joinSep] at hc
      exact Or.inr ⟨p, by simp, hc⟩
    | cons q rest2 =>
      rw [joinSep] at hc
      rw [str_data_append, str_data_append] at hc
      rcases List.mem_append.mp hc with hc1 | hc1
      · rcases List.mem_append.mp hc1 with hc2 | hc2
        · exact Or.inr ⟨p, by simp, hc2⟩
        · left
          simpa using hc2
      · rcases ih c hc1 with h | ⟨x, hx, hcx⟩
        · exact Or.inl h
        · exact Or.inr ⟨x, by simp [hx], hcx⟩
      · intro hq
        exact List.noConfusion hq

/-- No rendered well-formed `TypeExpr` contains `[`. -/
theorem render_noBracket : ∀ t, wfType t = true → '[' ∉ (toGeneric t).data := by
  intro t
  induction t using SchemaType.inductionOn with
  | h ts lt elems key ihE ihK =>
    intro hwf hmem
    rcases wfType_inv hwf with ⟨hp, rfl, rfl⟩ | ⟨hts, rfl, e, rfl, hwfe⟩ |
      ⟨hts, k, v, rfl, rfl, hk, hv⟩ | ⟨hts, rfl, hne, hwfl⟩
    · rw [toGeneric_leaf hp] at hmem
      exact (primLeafName_chars hp '[' hmem).2.2.2.2 rfl
    · have hcn : ts = "list" ∨ ts = "set" ∨ ts = "map" ∨ ts = "tuple" := by
        rcases hts with rfl | rfl
        · exact Or.inl rfl
        · exact Or.inr (Or.inl rfl)
      rw [toGeneric_listset hts] at hmem
      rw [str_data_append, str_data_append, str_data_append] at hmem
      rcases List.mem_append.mp hmem with h1 | h1
      · rcases List.mem_append.mp h1 with h2 | h2
        · rcases List.mem_append.mp h2 with h3 | h3
          · exact (containerName_chars hcn '[' h3).2.2.2.2 rfl
          · simp at h3
        · exact ihE e (by simp) hwfe h2
      · simp at h1
    · subst hts
      obtain ⟨kts, klt, rfl, hkn⟩ := wfKeyLeaf_inv hk
      rw [toGeneric_map] at hmem
      rw [toGeneric_leaf (mapKeyName_prim hkn)] at hmem
      rw [str_data_append, str_data_append, str_data_append] at hmem
      rcases List.mem_append.mp hmem with h1 | h1
      · rcases List.mem_append.mp h1 with h2 | h2
        · rcases List.mem_append.mp h2 with h3 | h3
          · rcases List.mem_append.mp h3 with h4 | h4
            · simp at h4
            · exact (primLeafName_chars (mapKeyName_prim hkn) '[' h4).2.2.2.2 rfl
          · simp at h3
        · exact ihE v (by simp) hv h2
      · simp at h1
    · subst hts
      rw [toGeneric_tuple] at hmem
      rw [str_data_append, str_data_append, str_data_append] at hmem
      rcases List.mem_append.mp hmem with h1 | h1
      · rcases List.mem_append.mp h1 with h2 | h2
        · rcases List.mem_append.mp h2 with h3 | h3
          · exact (containerName_chars (Or.inr (Or.inr (Or.inr rfl))) '[' h3).2.2.2.2 rfl
          · simp at h3
        · rcases mem_joinSep_data _ '[' h2 with h | ⟨p, hp, hcp⟩
          · exact absurd h (by decide)
          · rw [toGenericList_eq_map] at hp
            obtain ⟨x, hx, rfl⟩ := List.mem_map.mp hp
            exact ihE x hx ((wfList_iff elems).mp hwfl x hx) hcp
      · simp at h1

/-- Rendered well-formed `TypeExpr`s are non-empty strings. -/
theorem render_nonempty : ∀ t, wfType t = true → (toGeneric t).data ≠ [] := by
  intro t hwf
  cases t with
  | mk ts lt elems key =>
    rcases wfType_inv hwf with ⟨hp, rfl, rfl⟩ | ⟨hts, rfl, e, rfl, hwfe⟩ |
      ⟨hts, k, v, rfl, rfl, hk, hv⟩ | ⟨hts, rfl, hne, hwfl⟩
    · rw [toGeneric_leaf hp]
      rcases primLeafName_cases hp with rfl | rfl | rfl | rfl | rfl | rfl | rfl | rfl <;> decide
    · rw [toGeneric_listset hts]
      rw [str_data_append, str_data_append, str_data_append]
      intro h
      rcases List.append_eq_nil.mp h with ⟨-, h2⟩
      exact absurd h2 (by decide)
    · subst hts
      rw [toGeneric_map]
      rw [str_data_append, str_data_append, str_data_append]
      intro h
      rcases List.append_eq_nil.mp h with ⟨-, h2⟩
      exact absurd h2 (by decide)
    · subst hts
      rw [toGeneric_tuple]
      rw [str_data_append, str_data_append, str_data_append]
      intro h
      rcases List.append_eq_nil.mp h with ⟨-, h2⟩
      exact absurd h2 (by decide)

theorem stc_wrap {name : String} (hname : ∀ c ∈ name.data, c ≠ '|' ∧ c ≠ '<' ∧ c ≠ '>')
    {body : String} (hbody : scan body.data 0 = some 0) :
    ∀ (l cur : List Char),
      splitTupleChildrenAux ((name ++ "<" ++ body ++ ">").data ++ l) cur 0 =
        splitTupleChildrenAux l (cur ++ (name ++ "<" ++ body ++ ">").data) 0 := by
  intro l cur
  have hD : (name ++ "<" ++ body ++ ">").data =
      name.data ++ '<' :: (body.data ++ ['>']) := by
    rw [str_data_append, str_data_append, str_data_append]
    simp [List.append_assoc]
  rw [hD]
  rw [List.append_assoc, stc_plain name.data hname]
  rw [show ('<' :: (body.data ++ ['>'])) ++ l = '<' :: (body.data ++ '>' :: l) by
    simp [List.append_assoc]]
  rw [splitTupleChildrenAux]
  rw [if_neg (by simp), if_pos rfl]
  have hstep := stc_balanced body.data 0 0 hbody 1 (by omega) ('>' :: l)
    (cur ++ name.data ++ ['<'])
  simp only [Nat.zero_add] at hstep
  rw [hstep]
  rw [splitTupleChildrenAux]
  rw [if_neg (by simp), if_neg (by decide), if_pos rfl, if_neg (by decide)]
  congr 1
  simp [List.append_assoc]

/-- A rendered well-formed `TypeExpr` passes through the tuple splitter as a
single unit. -/
theorem render_selfContained : ∀ t, wfType t = true → ∀ (l cur : List Char),
    splitTupleChildrenAux ((toGeneric t).data ++ l) cur 0 =
      splitTupleChildrenAux l (cur ++ (toGeneric t).data) 0 := by
  intro t hwf l cur
  cases t with
  | mk ts lt elems key =>
    rcases wfType_inv hwf with ⟨hp, rfl, rfl⟩ | ⟨hts, rfl, e, rfl, hwfe⟩ |
      ⟨hts, k, v, rfl, rfl, hk, hv⟩ | ⟨hts, rfl, hne, hwfl⟩
    · rw [toGeneric_leaf hp]
      exact stc_plain ts.data (fun c hc =>
        ⟨(primLeafName_chars hp c hc).2.2.1, (primLeafName_chars hp c hc).1,
         (primLeafName_chars hp c hc).2.1⟩) l cur 0
    · have hcn : ts = "list" ∨ ts = "set" ∨ ts = "map" ∨ ts = "tuple" := by
        rcases hts with rfl | rfl
        · exact Or.inl rfl
        · exact Or.inr (Or.inl rfl)
      rw [toGeneric_listset hts]
      exact stc_wrap (fun c hc =>
        ⟨(containerName_chars hcn c hc).2.2.1, (containerName_chars hcn c hc).1,
         (containerName_chars hcn c hc).2.1⟩) (render_scan0 e hwfe) l cur
    · subst hts
      obtain ⟨kts, klt, rfl, hkn⟩ := wfKeyLeaf_inv hk
      rw [toGeneric_map]
      rw [show ("map<" ++ toGeneric (.mk kts klt [] none) ++ ";" ++ toGeneric v ++ ">") =
        ("map" ++ "<" ++ (toGeneric (.mk kts klt [] none) ++ ";" ++ toGeneric v) ++ ">") by
          simp [String.append_assoc]]
      refine stc_wrap (fun c hc => ?_) ?_ l cur
      · have hcn := containerName_chars (Or.inr (Or.inr (Or.inl rfl))) c hc
        exact ⟨hcn.2.2.1, hcn.1, hcn.2.1⟩
      · rw [str_data_append, str_data_append, scan_append, scan_append]
        rw [toGeneric_leaf (mapKeyName_prim hkn), primName_scan (mapKeyName_prim hkn) 0]
        simp only [Option.some_bind]
        rw [show scan ";".data 0 = some 0 from rfl]
        simp only [Option.some_bind]
        exact render_scan0 v hv
    · subst hts
      rw [toGeneric_tuple]
      refine stc_wrap (fun c hc => ?_) ?_ l cur
      · have hcn := containerName_chars (Or.inr (Or.inr (Or.inr rfl))) c hc
        exact ⟨hcn.2.2.1, hcn.1, hcn.2.1⟩
      · refine scan_joinSep _ ?_
        intro p hp
        rw [toGenericList_eq_map] at hp
        obtain ⟨x, hx, rfl⟩ := List.mem_map.mp hp
        exact render_scan0 x ((wfList_iff elems).mp hwfl x hx)

/-- The tuple splitter recovers exactly the rendered children. -/
theorem stc_join : ∀ elems : List SchemaType, elems ≠ [] →
    (∀ e ∈ elems, wfType e = true) →
    splitTupleChildrenAux (joinSep "|" (toGenericList elems)).data [] 0 =
      .ok ((toGenericList elems).map String.data) := by
  intro elems
  induction elems with
  | nil => intro h; exact absurd rfl h
  | cons e rest ih =>
    intro _ hwf
    cases rest with
    | nil =>
      rw [toGenericList, toGenericList]
      rw [joinSep]
      have hsc := render_selfContained e (hwf e (by simp)) [] []
      rw [List.append_nil, List.nil_append] at hsc
      rw [hsc]
      rw [splitTupleChildrenAux]
      rw [if_neg (by simp)]
      have hne := render_nonempty e (hwf e (by simp))
      simp only [List.map_cons, List.map_nil]
      rw [if_neg (by simpa [List.isEmpty_iff] using hne)]
    | cons f rest2 =>
      rw [toGenericList]
      rw [joinSep]
      have hD : ((toGeneric e ++ "|" ++ joinSep "|" (toGenericList (f :: rest2)))).data =
          (toGeneric e).data ++ '|' :: (joinSep "|" (toGenericList (f :: rest2))).data := by
        rw [str_data_append, str_data_append]
        simp [List.append_assoc]
      rw [hD]
      have hsc := render_selfContained e (hwf e (by simp))
        ('|' :: (joinSep "|" (toGenericList (f :: rest2))).data) []
      rw [List.nil_append] at hsc
      rw [hsc]
      rw [splitTupleChildrenAux]
      rw [if_pos ⟨rfl, rfl⟩]
      have hrec := ih (by simp) (fun x hx => hwf x (by simp [hx]))
      rw [toGenericList] at hrec ⊢
      rw [hrec]
      simp [Except.map]
      intro hemp
      rw [toGenericList] at hemp
      exact List.noConfusion hemp

theorem render_counts {t : SchemaType} (h : wfType t = true) :
    countChar '<' (toGeneric t).data = countChar '>' (toGeneric t).data := by
  have := scan_count (toGeneric t).data 0 0 (render_scan0 t h)
  omega

theorem allSame_map_data : ∀ parts : List String,
    allSame (parts.map String.data) = allSame parts := by
  intro parts
  cases parts with
  | nil => rfl
  | cons p rest =>
    simp only [List.map_cons, allSame]
    induction rest with
    | nil => rfl
    | cons q rest2 ih =>
      simp only [List.map_cons, List.all_cons, ih]
      congr 1
      simp only [decide_eq_decide]
      constructor
      · intro h
        cases q with
        | mk qd =>
          cases p with
          | mk pd =>
            have : qd = pd := by simpa using h
            rw [this]
      · intro h
        rw [h]

theorem countChar_ne_zero_of_mem {c : Char} {l : List Char} (h : c ∈ l) :
    ¬(countChar c l = 0) :=
  fun h0 => (List.count_eq_zero.mp h0) h

theorem containsBrackets_false_of {l : List Char} (h : '[' ∉ l) :
    ¬(containsBrackets l = true) := by
  rw [containsBrackets_eq_false l h]
  simp

theorem wfKeyLeaf_wfType {k : SchemaType} (h : wfKeyLeaf k = true) : wfType k = true := by
  obtain ⟨kts, klt, rfl, hkn⟩ := wfKeyLeaf_inv h
  rw [wfType]
  obtain ⟨h1, h2⟩ := primLeafName_not_container (mapKeyName_prim hkn)
  rw [if_neg (by tauto), if_neg h2, if_neg (by rcases mapKeyName_cases hkn with rfl | rfl | rfl | rfl <;> decide)]
  simp [mapKeyName_prim hkn]

theorem fromGenericList_renders : ∀ elems : List SchemaType,
    (∀ e ∈ elems, fromGenericChars (toGeneric e).data = .ok e) →
    fromGenericList ((toGenericList elems).map String.data) = .ok elems := by
  intro elems
  induction elems with
  | nil =>
    intro _
    rw [toGenericList]
    simp only [List.map_nil]
    rw [fromGenericList]
  | cons e rest ih =>
    intro h
    rw [toGenericList]
    simp only [List.map_cons]
    rw [fromGenericList]
    rw [h e (by simp), ih (fun x hx => h x (by simp [hx]))]

/-- **Round trip on the collapse-free fragment**: parsing the rendered
generic string of a well-formed, language-unbound `TypeExpr` whose tuple
nodes are not homogeneous gives back exactly the same tree. -/
theorem fromGeneric_toGeneric : ∀ t, wfType t = true → noLang t = true →
    noTupleCollapse t = true → fromGenericChars (toGeneric t).data = .ok t := by
  intro t
  induction t using SchemaType.inductionOn with
  | h ts lt elems key ihE ihK =>
    intro hwf hnl hntc
    obtain ⟨hlt, hnll, hnlk⟩ := noLang_inv hnl
    obtain ⟨hcol, hntcl, hntck⟩ := noTupleCollapse_inv hntc
    subst hlt
    have hcnt := render_counts hwf
    have hnb := render_noBracket _ hwf
    rcases wfType_inv hwf with ⟨hp, rfl, rfl⟩ | ⟨hts, rfl, e, rfl, hwfe⟩ |
      ⟨hts, k, v, rfl, rfl, hk, hv⟩ | ⟨hts, rfl, hne, hwfl⟩
    · -- leaf
      rw [toGeneric_leaf hp] at hcnt hnb ⊢
      have hlt0 : countChar '<' ts.data = 0 :=
        List.count_eq_zero.mpr (fun hmem => (primLeafName_chars hp '<' hmem).1 rfl)
      rw [fromGenericChars]
      rw [if_neg (by omega)]
      rw [dif_neg (containsBrackets_false_of hnb)]
      rw [if_pos hlt0]
      rw [str_mk_data]
      simp [SchemaType.make, primLeafName_not_ds hp]
    · -- list / set
      have hcn : ts = "list" ∨ ts = "set" ∨ ts = "map" ∨ ts = "tuple" := by
        rcases hts with rfl | rfl
        · exact Or.inl rfl
        · exact Or.inr (Or.inl rfl)
      have hnle : noLang e = true := (noLangList_iff _).mp hnll e (by simp)
      have hntce : noTupleCollapse e = true := (noTupleCollapseList_iff _).mp hntcl e (by simp)
      rw [toGeneric_listset hts] at hcnt hnb ⊢
      have hD : (ts ++ "<" ++ toGeneric e ++ ">").data =
          ts.data ++ '<' :: ((toGeneric e).data ++ ['>']) := by
        rw [str_data_append, str_data_append, str_data_append]
        simp [List.append_assoc]
      have hmem : '<' ∈ (ts ++ "<" ++ toGeneric e ++ ">").data := by
        rw [hD]; simp
      rw [fromGenericChars]
      rw [if_neg (by omega)]
      rw [dif_neg (containsBrackets_false_of hnb)]
      rw [if_neg (countChar_ne_zero_of_mem hmem)]
      rw [show splitFirst '<' (ts ++ "<" ++ toGeneric e ++ ">").data =
          (ts.data, some ((toGeneric e).data ++ ['>'])) by
        rw [hD]
        exact splitFirst_append _ _ (fun hm => (containerName_chars hcn '<' hm).1 rfl)]
      simp only []
      rw [List.getLast?_concat]
      simp only []
      rw [if_neg (by simp)]
      rw [str_mk_data]
      rcases hts with rfl | rfl
      · rw [if_neg (by decide), if_neg (by decide)]
        rw [List.dropLast_concat]
        rw [ihE e (by simp) hwfe hnle hntce]
        simp [SchemaType.make]
      · rw [if_neg (by decide), if_neg (by decide)]
        rw [List.dropLast_concat]
        rw [ihE e (by simp) hwfe hnle hntce]
        simp [SchemaType.make]
    · -- map
      subst hts
      obtain ⟨kts, klt, hkeq, hkn⟩ := wfKeyLeaf_inv hk
      have hnlv : noLang v = true := (noLangList_iff _).mp hnll v (by simp)
      have hntcv : noTupleCollapse v = true := (noTupleCollapseList_iff _).mp hntcl v (by simp)
      have hnlk' : noLang k = true := hnlk k rfl
      have hntck' : noTupleCollapse k = true := hntck k rfl
      rw [toGeneric_map] at hcnt hnb ⊢
      have hD : ("map<" ++ toGeneric k ++ ";" ++ toGeneric v ++ ">").data =
          "map".data ++ '<' ::
            (((toGeneric k).data ++ ';' :: (toGeneric v).data) ++ ['>']) := by
        rw [str_data_append, str_data_append, str_data_append]
        simp [List.append_assoc]
      have hmem : '<' ∈ ("map<" ++ toGeneric k ++ ";" ++ toGeneric v ++ ">").data := by
        rw [hD]; simp
      rw [fromGenericChars]
      rw [if_neg (by omega)]
      rw [dif_neg (containsBrackets_false_of hnb)]
      rw [if_neg (countChar_ne_zero_of_mem hmem)]
      rw [show splitFirst '<' ("map<" ++ toGeneric k ++ ";" ++ toGeneric v ++ ">").data =
          ("map".data, some (((toGeneric k).data ++ ';' :: (toGeneric v).data) ++ ['>'])) by
        rw [hD]
        exact splitFirst_append _ _ (by decide)]
      simp only []
      rw [List.getLast?_concat]
      simp only []
      rw [if_neg (by simp)]
      rw [str_mk_data]
      rw [if_pos (by trivial)]
      have hknot : ';' ∉ (toGeneric k).data := by
        rw [hkeq, toGeneric_leaf (mapKeyName_prim hkn)]
        intro hm
        exact (primLeafName_chars (mapKeyName_prim hkn) ';' hm).2.2.2.1 rfl
      rw [show splitFirst ';'
            ((((toGeneric k).data ++ ';' :: (toGeneric v).data) ++ ['>']).dropLast) =
          ((toGeneric k).data, some (toGeneric v).data) from by
        rw [List.dropLast_concat]
        exact splitFirst_append _ _ hknot]
      simp only []
      rw [ihK k rfl (wfKeyLeaf_wfType hk) hnlk' hntck']
      simp only []
      rw [ihE v (by simp) hv hnlv hntcv]
      simp [SchemaType.make]
    · -- tuple
      subst hts
      rw [toGeneric_tuple] at hcnt hnb ⊢
      have hD : ("tuple" ++ "<" ++ joinSep "|" (toGenericList elems) ++ ">").data =
          "tuple".data ++ '<' :: ((joinSep "|" (toGenericList elems)).data ++ ['>']) := by
        rw [str_data_append, str_data_append, str_data_append]
        simp [List.append_assoc]
      have hmem : '<' ∈ ("tuple" ++ "<" ++ joinSep "|" (toGenericList elems) ++ ">").data := by
        rw [hD]; simp
      rw [fromGenericChars]
      rw [if_neg (by omega)]
      rw [dif_neg (containsBrackets_false_of hnb)]
      rw [if_neg (countChar_ne_zero_of_mem hmem)]
      rw [show splitFirst '<' ("tuple" ++ "<" ++ joinSep "|" (toGenericList elems) ++ ">").data =
          ("tuple".data, some ((joinSep "|" (toGenericList elems)).data ++ ['>'])) by
        rw [hD]
        exact splitFirst_append _ _ (by decide)]
      simp only []
      rw [List.getLast?_concat]
      simp only []
      rw [if_neg (by simp)]
      rw [str_mk_data]
      rw [if_neg (by decide), if_pos (by trivial)]
      have hstc : splitTupleChildren
            (((joinSep "|" (toGenericList elems)).data ++ ['>']).dropLast) =
          .ok ((toGenericList elems).map String.data) := by
        rw [List.dropLast_concat]
        exact stc_join elems hne (wfList_iff elems |>.mp hwfl)
      split
      · rename_i e' heq
        rw [hstc] at heq
        exact Except.noConfusion heq
      · rename_i children heq
        rw [hstc] at heq
        injection heq with heq'
        subst heq'
        rw [if_neg (by
          rw [allSame_map_data]
          simp [hcol rfl])]
        rw [fromGenericList_renders elems (fun e he => ihE e he
          ((wfList_iff elems).mp hwfl e he)
          ((noLangList_iff _).mp hnll e he)
          ((noTupleCollapseList_iff _).mp hntcl e he))]
        simp [SchemaType.make, hne]

/-! ## Specification-side definitions for generic equality (claim C5)

`specGenEqClaim` follows the claim's words exactly: two TypeExprs are
generically equal iff identical in structure ignoring `lang_type`, except
that a `null` leaf on either side compares equal to any **leaf**.
`specGenEqAmended` extends the exception to any TypeExpr, which is what the
code implements. -/

mutual
def specGenEqClaim (a b : SchemaType) : Bool :=
  if a.is_leaf && b.is_leaf then
    if a.typeStr = "null" || b.typeStr = "null" then true
    else a.typeStr = b.typeStr
  else if a.is_leaf || b.is_leaf then false
  else
    a.typeStr = b.typeStr && specGenEqClaimKey a.keyType b.keyType &&
      a.elements.length = b.elements.length &&
      specGenEqClaimList a.elements b.elements
  termination_by (sizeOf a + sizeOf b, 1)
  decreasing_by
  · apply Prod.Lex.left
    have h1 := SchemaType.sizeOf_keyTypeOpt_lt a
    have h2 := SchemaType.sizeOf_keyTypeOpt_lt b
    omega
  · apply Prod.Lex.left
    have h1 := SchemaType.sizeOf_elements_lt a
    have h2 := SchemaType.sizeOf_elements_lt b
    omega

def specGenEqClaimKey : Option SchemaType → Option SchemaType → Bool
  | none, none => true
  | some x, some y => specGenEqClaim x y
  | _, _ => false
  termination_by o p => (sizeOf o + sizeOf p, 0)
  decreasing_by
  · apply Prod.Lex.left
    simp only [Option.some.sizeOf_spec]
    omega

def specGenEqClaimList : List SchemaType → List SchemaType → Bool
  | a :: as, b :: bs => specGenEqClaim a b && specGenEqClaimList as bs
  | [], [] => true
  | _, _ => false
  termination_by as bs => (sizeOf as + sizeOf bs, 0)
  decreasing_by
  · apply Prod.Lex.left
    simp only [List.cons.sizeOf_spec]
    omega
  · apply Prod.Lex.left
    simp only [List.cons.sizeOf_spec]
    omega
end

mutual
def specGenEqAmended (a b : SchemaType) : Bool :=
  if a.is_leaf || b.is_leaf then
    if a.typeStr = "null" || b.typeStr = "null" then true
    else if a.is_leaf && b.is_leaf then a.typeStr = b.typeStr
    else false
  else
    a.typeStr = b.typeStr && specGenEqAmendedKey a.keyType b.keyType &&
      a.elements.length = b.elements.length &&
      specGenEqAmendedList a.elements b.elements
  termination_by (sizeOf a + sizeOf b, 1)
  decreasing_by
  · apply Prod.Lex.left
    have h1 := SchemaType.sizeOf_keyTypeOpt_lt a
    have h2 := SchemaType.sizeOf_keyTypeOpt_lt b
    omega
  · apply Prod.Lex.left
    have h1 := SchemaType.sizeOf_elements_lt a
    have h2 := SchemaType.sizeOf_elements_lt b
    omega

def specGenEqAmendedKey : Option SchemaType → Option SchemaType → Bool
  | none, none => true
  | some x, some y => specGenEqAmended x y
  | _, _ => false
  termination_by o p => (sizeOf o + sizeOf p, 0)
  decreasing_by
  · apply Prod.Lex.left
    simp only [Option.some.sizeOf_spec]
    omega

def specGenEqAmendedList : List SchemaType → List SchemaType → Bool
  | a :: as, b :: bs => specGenEqAmended a b && specGenEqAmendedList as bs
  | [], [] => true
  | _, _ => false
  termination_by as bs => (sizeOf as + sizeOf bs, 0)
  decreasing_by
  · apply Prod.Lex.left
    simp only [List.cons.sizeOf_spec]
    omega
  · apply Prod.Lex.left
    simp only [List.cons.sizeOf_spec]
    omega
end

/-! ## Specification-side definitions for reconciliation (claims C3, C4) -/

/-- The claim's widening table applied to one aligned leaf pair. -/
def specTable (x y : String) : Option String :=
  if y ∈ RECONCILABLE_TYPES x then some y
  else if x ∈ RECONCILABLE_TYPES y then some x
  else none

/-- Characterisation of the widening table. -/
theorem mem_RECONCILABLE_TYPES {x y : String} :
    x ∈ RECONCILABLE_TYPES y ↔
      (y = "float" ∧ x = "double") ∨
      (y = "integer" ∧ (x = "long" ∨ x = "float" ∨ x = "double")) ∨
      (y = "long" ∧ x = "double") ∨
      (y = "character" ∧ x = "string") := by
  unfold RECONCILABLE_TYPES
  by_cases h1 : y = "float"
  · subst h1; simp
  · rw [if_neg h1]
    by_cases h2 : y = "integer"
    · subst h2; simp; try tauto
    · rw [if_neg h2]
      by_cases h3 : y = "long"
      · subst h3; simp
      · rw [if_neg h3]
        by_cases h4 : y = "character"
        · subst h4; simp
        · rw [if_neg h4]; simp; try tauto

/-- The widening table is asymmetric: no two names widen to each other. -/
theorem RECONCILABLE_TYPES_asymm {x y : String}
    (h1 : x ∈ RECONCILABLE_TYPES y) (h2 : y ∈ RECONCILABLE_TYPES x) : False := by
  rcases mem_RECONCILABLE_TYPES.mp h1 with ⟨rfl, rfl⟩ | ⟨rfl, rfl | rfl | rfl⟩ |
    ⟨rfl, rfl⟩ | ⟨rfl, rfl⟩ <;>
    exact absurd h2 (by decide)

/-- Table members are primitive leaf names. -/
theorem mem_RECONCILABLE_prim {x y : String} (h : x ∈ RECONCILABLE_TYPES y) :
    isPrimLeafName x = true ∧ isPrimLeafName y = true := by
  rcases mem_RECONCILABLE_TYPES.mp h with ⟨rfl, rfl⟩ | ⟨rfl, rfl | rfl | rfl⟩ |
    ⟨rfl, rfl⟩ | ⟨rfl, rfl⟩ <;> exact ⟨by decide, by decide⟩

/-! ## Shape facts about well-formed nodes -/

theorem wf_nonleaf_container {ts lt : String} {elems : List SchemaType}
    {key : Option SchemaType} (h : wfType (.mk ts lt elems key) = true)
    (hne : elems ≠ []) : ts = "list" ∨ ts = "set" ∨ ts = "map" ∨ ts = "tuple" := by
  rcases wfType_inv h with ⟨hp, rfl, rfl⟩ | ⟨hts, _, e, rfl, _⟩ |
    ⟨hts, k, v, _, rfl, _, _⟩ | ⟨hts, _, _, _⟩
  · exact absurd rfl hne
  · tauto
  · tauto
  · tauto

theorem wf_leaf_prim {ts lt : String} {elems : List SchemaType}
    {key : Option SchemaType} (h : wfType (.mk ts lt elems key) = true)
    (he : elems = []) : isPrimLeafName ts = true ∧ key = none := by
  rcases wfType_inv h with ⟨hp, _, rfl⟩ | ⟨_, _, e, rfl, _⟩ |
    ⟨_, k, v, _, rfl, _, _⟩ | ⟨_, _, hne, _⟩
  · exact ⟨hp, rfl⟩
  · simp at he
  · simp at he
  · exact absurd he hne

theorem wf_map_shape {ts lt : String} {elems : List SchemaType}
    {key : Option SchemaType} (h : wfType (.mk ts lt elems key) = true)
    (hts : ts = "map") :
    ∃ k v, key = some k ∧ elems = [v] ∧ wfKeyLeaf k = true ∧ wfType v = true := by
  subst hts
  rcases wfType_inv h with ⟨hp, _, _⟩ | ⟨hts, _, _, _, _⟩ |
    ⟨_, k, v, hk, hv, hkl, hwv⟩ | ⟨hts, _, _, _⟩
  · exact absurd hp (by decide)
  · rcases hts with h' | h' <;> exact absurd h' (by decide)
  · exact ⟨k, v, hk, hv, hkl, hwv⟩
  · exact absurd hts (by decide)

theorem wf_nonmap_key_none {ts lt : String} {elems : List SchemaType}
    {key : Option SchemaType} (h : wfType (.mk ts lt elems key) = true)
    (hts : ts ≠ "map") : key = none := by
  rcases wfType_inv h with ⟨_, _, rfl⟩ | ⟨_, rfl, _, _, _⟩ |
    ⟨h', _, _, _, _, _, _⟩ | ⟨_, rfl, _, _⟩
  · rfl
  · rfl
  · exact absurd h' hts
  · rfl

theorem wfList_elements {ts lt : String} {elems : List SchemaType}
    {key : Option SchemaType} (h : wfType (.mk ts lt elems key) = true) :
    wfList elems = true := by
  rcases wfType_inv h with ⟨_, rfl, _⟩ | ⟨_, _, e, rfl, he⟩ |
    ⟨_, k, v, _, rfl, _, hv⟩ | ⟨_, _, _, hl⟩
  · rw [wfList]
  · rw [wfList, wfList]; simp [he]
  · rw [wfList, wfList]; simp [hv]
  · exact hl

theorem prim_ne_container {p c : String} (hp : isPrimLeafName p = true)
    (hc : c = "list" ∨ c = "set" ∨ c = "map" ∨ c = "tuple") : p ≠ c := by
  simp only [isPrimLeafName, decide_eq_true_eq] at hp
  rcases hp with rfl | rfl | rfl | rfl | rfl | rfl | rfl | rfl <;>
    rcases hc with rfl | rfl | rfl | rfl <;> decide

/-! ## `is_generic_equal` agrees with the amended specification predicate -/

theorem igeList_spec : ∀ as bs : List SchemaType,
    (∀ e ∈ as, ∀ b, wfType e = true → wfType b = true →
      is_generic_equal e b = specGenEqAmended e b) →
    wfList as = true → wfList bs = true → as.length = bs.length →
    igeList as bs = specGenEqAmendedList as bs := by
  intro as
  induction as with
  | nil =>
    intro bs _ _ _ hlen
    cases bs with
    | nil =>
      rw [igeList, specGenEqAmendedList]
      intro a as b bs h1
      exact List.noConfusion h1
    | cons b bs => simp at hlen
  | cons a as ih =>
    intro bs hmem hwa hwb hlen
    cases bs with
    | nil => simp at hlen
    | cons b bs =>
      rw [igeList, specGenEqAmendedList]
      rw [wfList] at hwa hwb
      simp only [Bool.and_eq_true] at hwa hwb
      rw [hmem a (by simp) b hwa.1 hwb.1]
      rw [ih bs (fun e he b2 => hmem e (by simp [he]) b2) hwa.2 hwb.2
        (by simpa using hlen)]

theorem ige_eq_specAmended : ∀ a b : SchemaType, wfType a = true → wfType b = true →
    is_generic_equal a b = specGenEqAmended a b := by
  intro a
  induction a using SchemaType.inductionOn with
  | h ts lt elems key ihE ihK =>
    intro b hwa hwb
    cases b with
    | mk ts2 lt2 elems2 key2 =>
      rw [is_generic_equal, specGenEqAmended]
      simp only [SchemaType.is_leaf, SchemaType.typeStr_mk, SchemaType.elements_mk,
        SchemaType.keyType_mk]
      by_cases hOr : (decide (elems.length = 0) || decide (elems2.length = 0)) = true
      · rw [if_pos hOr, if_pos hOr]
        by_cases hnull : (decide (ts = "null") || decide (ts2 = "null")) = true
        · rw [if_pos hnull, if_pos hnull]
        · rw [if_neg hnull, if_neg hnull]
          by_cases hboth : (decide (elems.length = 0) && decide (elems2.length = 0)) = true
          · rw [if_pos hboth]
          · rw [if_neg hboth]
            simp only [Bool.or_eq_true, Bool.and_eq_true, decide_eq_true_eq] at hOr hboth
            rcases hOr with h0 | h0
            · have he : elems = [] := List.length_eq_zero.mp h0
              have hne2 : elems2 ≠ [] := by
                intro hh
                exact hboth ⟨h0, by simp [hh]⟩
              obtain ⟨hp, -⟩ := wf_leaf_prim hwa he
              have hc := wf_nonleaf_container hwb hne2
              simp [prim_ne_container hp hc]
            · have he2 : elems2 = [] := List.length_eq_zero.mp h0
              have hne : elems ≠ [] := by
                intro hh
                exact hboth ⟨by simp [hh], h0⟩
              obtain ⟨hp2, -⟩ := wf_leaf_prim hwb he2
              have hc := wf_nonleaf_container hwa hne
              exact decide_eq_false fun hh => prim_ne_container hp2 hc hh.symm
      · rw [if_neg hOr, if_neg hOr]
        simp only [Bool.or_eq_true, decide_eq_true_eq, not_or] at hOr
        obtain ⟨hne0, hne02⟩ := hOr
        have hne : elems ≠ [] := fun hh => hne0 (by simp [hh])
        have hne2 : elems2 ≠ [] := fun hh => hne02 (by simp [hh])
        by_cases hts : ts = ts2
        · subst hts
          rw [if_neg (fun h => h rfl)]
          by_cases hmap : ts = "map"
          · obtain ⟨k, v, hkey, hel, hkl, hwv⟩ := wf_map_shape hwa hmap
            obtain ⟨k2, v2, hkey2, hel2, hkl2, hwv2⟩ := wf_map_shape hwb hmap
            subst hkey hkey2 hel hel2
            rw [if_pos hmap]
            simp only []
            rw [ihK k rfl k2 (wfKeyLeaf_wfType hkl) (wfKeyLeaf_wfType hkl2)]
            rw [igeTail]
            simp only [SchemaType.elements_mk]
            rw [igeList]
            rw [ihE v (by simp) v2 hwv hwv2]
            rw [specGenEqAmendedKey, specGenEqAmendedList, specGenEqAmendedList]
            simp [igeList]
          · rw [if_neg hmap]
            have hk1 := wf_nonmap_key_none hwa hmap
            have hk2 := wf_nonmap_key_none hwb hmap
            subst hk1 hk2
            rw [igeTail]
            simp only [SchemaType.elements_mk]
            rw [specGenEqAmendedKey]
            by_cases hlen : elems.length = elems2.length
            · rw [igeList_spec elems elems2 (fun e he b2 hwe hwb2 => ihE e he b2 hwe hwb2)
                (wfList_elements hwa) (wfList_elements hwb) hlen]
              simp [hlen]
            · simp [hlen]
        · rw [if_pos hts]
          simp [hts]

/-! ## Builders for the universe predicates, used to discharge witnesses -/

theorem wfList_nil : wfList [] = true := by rw [wfList]

theorem wfList_cons {t : SchemaType} {rest : List SchemaType} (h1 : wfType t = true)
    (h2 : wfList rest = true) : wfList (t :: rest) = true := by
  rw [wfList]; simp [h1, h2]

theorem wfType_leaf {ts lt : String} (h : isPrimLeafName ts = true) :
    wfType (.mk ts lt [] none) = true := by
  obtain ⟨h1, h2⟩ := primLeafName_not_container h
  rw [wfType]
  rw [if_neg (by tauto), if_neg h2, if_neg (by rintro rfl; exact h1 (by tauto))]
  simp [h]

theorem wfType_listset {ts lt : String} {e : SchemaType} (hts : ts = "list" ∨ ts = "set")
    (h : wfType e = true) : wfType (.mk ts lt [e] none) = true := by
  rw [wfType, if_pos hts]
  simp [wfList_cons h wfList_nil]

theorem wfType_map {lt kts klt : String} {v : SchemaType} (hk : isMapKeyName kts = true)
    (hv : wfType v = true) :
    wfType (.mk "map" lt [v] (some (.mk kts klt [] none))) = true := by
  rw [wfType]
  rw [if_neg (by decide), if_pos rfl]
  rw [wfKeyOpt, wfKeyLeaf]
  simp [hk, wfList_cons hv wfList_nil]

theorem wfType_tuple {lt : String} {elems : List SchemaType} (hne : elems ≠ [])
    (h : wfList elems = true) : wfType (.mk "tuple" lt elems none) = true := by
  rw [wfType]
  rw [if_neg (by decide), if_neg (by decide), if_pos rfl]
  simp [hne, h]

theorem noLangList_nil : noLangList [] = true := by rw [noLangList]

theorem noLangList_cons {t : SchemaType} {rest : List SchemaType} (h1 : noLang t = true)
    (h2 : noLangList rest = true) : noLangList (t :: rest) = true := by
  rw [noLangList]; simp [h1, h2]

theorem noLangOpt_none : noLangOpt none = true := by rw [noLangOpt]

theorem noLangOpt_some {k : SchemaType} (h : noLang k = true) :
    noLangOpt (some k) = true := by
  rw [noLangOpt]; exact h

theorem noLang_mk {ts : String} {elems : List SchemaType} {key : Option SchemaType}
    (h1 : noLangList elems = true) (h2 : noLangOpt key = true) :
    noLang (.mk ts "NOT_SET" elems key) = true := by
  rw [noLang]; simp [h1, h2]

theorem ntcList_nil : noTupleCollapseList [] = true := by rw [noTupleCollapseList]

theorem ntcList_cons {t : SchemaType} {rest : List SchemaType}
    (h1 : noTupleCollapse t = true) (h2 : noTupleCollapseList rest = true) :
    noTupleCollapseList (t :: rest) = true := by
  rw [noTupleCollapseList]; simp [h1, h2]

theorem ntcOpt_none : noTupleCollapseOpt none = true := by rw [noTupleCollapseOpt]

theorem ntcOpt_some {k : SchemaType} (h : noTupleCollapse k = true) :
    noTupleCollapseOpt (some k) = true := by
  rw [noTupleCollapseOpt]; exact h

theorem ntc_mk_nontuple {ts lt : String} {elems : List SchemaType} {key : Option SchemaType}
    (hts : ts ≠ "tuple") (h1 : noTupleCollapseList elems = true)
    (h2 : noTupleCollapseOpt key = true) :
    noTupleCollapse (.mk ts lt elems key) = true := by
  rw [noTupleCollapse]; simp [hts, h1, h2]

theorem ntc_mk_tuple {lt : String} {elems : List SchemaType} {key : Option SchemaType}
    (hs : allSame (toGenericList elems) = false) (h1 : noTupleCollapseList elems = true)
    (h2 : noTupleCollapseOpt key = true) :
    noTupleCollapse (.mk "tuple" lt elems key) = true := by
  rw [noTupleCollapse]; simp [hs, h1, h2]

/-- The amended generic-equality predicate is reflexive on all trees. -/
theorem specGenEqAmended_refl : ∀ t : SchemaType, specGenEqAmended t t = true := by
  intro t
  induction t using SchemaType.inductionOn with
  | h ts lt elems key ihE ihK =>
    rw [specGenEqAmended]
    simp only [SchemaType.is_leaf, SchemaType.typeStr_mk, SchemaType.elements_mk,
      SchemaType.keyType_mk]
    by_cases hL : (decide (elems.length = 0) || decide (elems.length = 0)) = true
    · rw [if_pos hL]
      by_cases hnull : (decide (ts = "null") || decide (ts = "null")) = true
      · rw [if_pos hnull]
      · rw [if_neg hnull]
        simp only [Bool.or_eq_true, decide_eq_true_eq] at hL
        rw [if_pos (by simp only [Bool.and_eq_true, decide_eq_true_eq]; tauto)]
        simp
    · rw [if_neg hL]
      have hkey : specGenEqAmendedKey key key = true := by
        cases key with
        | none => rw [specGenEqAmendedKey]
        | some k => rw [specGenEqAmendedKey]; exact ihK k rfl
      have hlist : ∀ l : List SchemaType, (∀ e ∈ l, specGenEqAmended e e = true) →
          specGenEqAmendedList l l = true := by
        intro l
        induction l with
        | nil => intro _; rw [specGenEqAmendedList]
        | cons x xs ihl =>
          intro hm
          rw [specGenEqAmendedList]
          simp [hm x (by simp), ihl (fun e he => hm e (by simp [he]))]
      simp [hkey, hlist elems ihE]

/-! ## Claim C2 -/

/-- Parsing the render of a **homogeneous** tuple node (all children render to
the same string) collapses it to `list` of the first child: the branch of the
parser the round-trip theorem excludes. -/
theorem parse_render_homtuple (lt : String) (e0 : SchemaType) (rest : List SchemaType)
    (hwfl : wfList (e0 :: rest) = true)
    (hall : allSame (toGenericList (e0 :: rest)) = true)
    (h0 : fromGenericChars (toGeneric e0).data = .ok e0) :
    fromGenericChars (toGeneric (.mk "tuple" lt (e0 :: rest) none)).data =
      .ok (.mk "list" "NOT_SET" [e0] none) := by
  have hwf : wfType (.mk "tuple" lt (e0 :: rest) none) = true :=
    wfType_tuple (by simp) hwfl
  have hne : (e0 :: rest) ≠ [] := by simp
  have hcnt := render_counts hwf
  have hnb := render_noBracket _ hwf
  rw [toGeneric_tuple] at hcnt hnb ⊢
  have hD : ("tuple" ++ "<" ++ joinSep "|" (toGenericList (e0 :: rest)) ++ ">").data =
      "tuple".data ++ '<' :: ((joinSep "|" (toGenericList (e0 :: rest))).data ++ ['>']) := by
    rw [str_data_append, str_data_append, str_data_append]
    simp [List.append_assoc]
  have hmem : '<' ∈ ("tuple" ++ "<" ++ joinSep "|" (toGenericList (e0 :: rest)) ++ ">").data := by
    rw [hD]; simp
  rw [fromGenericChars]
  rw [if_neg (by omega)]
  rw [dif_neg (containsBrackets_false_of hnb)]
  rw [if_neg (countChar_ne_zero_of_mem hmem)]
  rw [show splitFirst '<'
        ("tuple" ++ "<" ++ joinSep "|" (toGenericList (e0 :: rest)) ++ ">").data =
      ("tuple".data, some ((joinSep "|" (toGenericList (e0 :: rest))).data ++ ['>'])) by
    rw [hD]
    exact splitFirst_append _ _ (by decide)]
  simp only []
  rw [List.getLast?_concat]
  simp only []
  rw [if_neg (by simp)]
  rw [str_mk_data]
  rw [if_neg (by decide), if_pos (by trivial)]
  have hstc : splitTupleChildren
        (((joinSep "|" (toGenericList (e0 :: rest))).data ++ ['>']).dropLast) =
      .ok ((toGenericList (e0 :: rest)).map String.data) := by
    rw [List.dropLast_concat]
    exact stc_join (e0 :: rest) hne (wfList_iff (e0 :: rest) |>.mp hwfl)
  split
  · rename_i e' heq
    rw [hstc] at heq
    exact Except.noConfusion heq
  · rename_i children heq
    rw [hstc] at heq
    injection heq with heq'
    subst heq'
    rw [if_pos (by rw [allSame_map_data]; exact hall)]
    have hmap : (toGenericList (e0 :: rest)).map String.data =
        (toGeneric e0).data :: (toGenericList rest).map String.data := by
      rw [toGenericList]; rfl
    split
    · rename_i heqc heqh
      rw [hmap] at heqc
      simp at heqc
    · rename_i c0 tail hch2 heqc heqh
      rw [hmap] at heqc
      simp only [List.cons.injEq] at heqc
      rw [← heqc.1, h0]
      simp [SchemaType.make]

theorem render_tupII : toGeneric (SchemaType.mk "tuple" "NOT_SET"
    [SchemaType.mk "integer" "NOT_SET" [] none,
     SchemaType.mk "integer" "NOT_SET" [] none] none) = "tuple<integer|integer>" := by
  rw [toGeneric_tuple]
  rw [toGenericList, toGenericList, toGenericList]
  rw [toGeneric_leaf (by decide)]
  rfl

/-- Concrete evaluation: the rendered string of `tuple<integer|integer>`
parses back as `list<integer>` — the parser collapses homogeneous tuples. -/
theorem parse_tupII : fromGenericTypeString "tuple<integer|integer>" =
    .ok (SchemaType.mk "list" "NOT_SET" [SchemaType.mk "integer" "NOT_SET" [] none] none) := by
  have h := parse_render_homtuple "NOT_SET" (SchemaType.mk "integer" "NOT_SET" [] none)
    [SchemaType.mk "integer" "NOT_SET" [] none]
    (wfList_cons (wfType_leaf (by decide)) (wfList_cons (wfType_leaf (by decide)) wfList_nil))
    (by rw [toGenericList, toGenericList, toGenericList, toGeneric_leaf (by decide)]; decide)
    (fromGeneric_toGeneric _ (wfType_leaf (by decide))
      (noLang_mk noLangList_nil noLangOpt_none)
      (ntc_mk_nontuple (by decide) ntcList_nil ntcOpt_none))
  rw [render_tupII] at h
  exact h

/-- **C2 counterexample.** The TypeExpr `tuple<integer|integer>` is in the
spec's universe (well-formed, no `lang_type`), renders to the string
`tuple<integer|integer>`, yet parsing that string yields `list<integer>`,
which is not structurally equal to the original tuple (not even ignoring
`lang_type`), so `parse(render_generic(t)) == t` fails for it. -/
theorem claim_C2_counterexample :
    toGeneric (SchemaType.mk "tuple" "NOT_SET"
      [SchemaType.mk "integer" "NOT_SET" [] none,
       SchemaType.mk "integer" "NOT_SET" [] none] none) = "tuple<integer|integer>" ∧
    fromGenericTypeString "tuple<integer|integer>" =
      .ok (SchemaType.mk "list" "NOT_SET" [SchemaType.mk "integer" "NOT_SET" [] none] none) ∧
    (SchemaType.mk "list" "NOT_SET" [SchemaType.mk "integer" "NOT_SET" [] none] none ≠
     SchemaType.mk "tuple" "NOT_SET"
      [SchemaType.mk "integer" "NOT_SET" [] none,
       SchemaType.mk "integer" "NOT_SET" [] none] none) ∧
    wfType (SchemaType.mk "tuple" "NOT_SET"
      [SchemaType.mk "integer" "NOT_SET" [] none,
       SchemaType.mk "integer" "NOT_SET" [] none] none) = true ∧
    noLang (SchemaType.mk "tuple" "NOT_SET"
      [SchemaType.mk "integer" "NOT_SET" [] none,
       SchemaType.mk "integer" "NOT_SET" [] none] none) = true := by
  refine ⟨render_tupII, parse_tupII, by simp, ?_, ?_⟩
  · exact wfType_tuple (by simp) (wfList_cons (wfType_leaf (by decide))
      (wfList_cons (wfType_leaf (by decide)) wfList_nil))
  · exact noLang_mk (noLangList_cons (noLang_mk noLangList_nil noLangOpt_none)
      (noLangList_cons (noLang_mk noLangList_nil noLangOpt_none) noLangList_nil))
      noLangOpt_none

/-- **C2** (corrected). The round trip `parse(render_generic(t)) == t` holds
exactly (including `lang_type`, which both sides leave unset) for every
TypeExpr `t` in the spec's universe (`wfType`) whose `lang_type`s are unset
(`noLang`) and in which no tuple node has identically-rendered children
(`noTupleCollapse`); the excluded homogeneous tuples are real exceptions, as
the counterexample shows. -/
theorem claim_C2 (t : SchemaType) (h1 : wfType t = true) (h2 : noLang t = true)
    (h3 : noTupleCollapse t = true) :
    fromGenericTypeString (toGeneric t) = .ok t :=
  fromGeneric_toGeneric t h1 h2 h3

/-- Witness for C2 at `map<string;tuple<integer|string>>`. -/
theorem claim_C2_witness :
    fromGenericTypeString (toGeneric (SchemaType.mk "map" "NOT_SET"
      [SchemaType.mk "tuple" "NOT_SET"
        [SchemaType.mk "integer" "NOT_SET" [] none,
         SchemaType.mk "string" "NOT_SET" [] none] none]
      (some (SchemaType.mk "string" "NOT_SET" [] none)))) =
    .ok (SchemaType.mk "map" "NOT_SET"
      [SchemaType.mk "tuple" "NOT_SET"
        [SchemaType.mk "integer" "NOT_SET" [] none,
         SchemaType.mk "string" "NOT_SET" [] none] none]
      (some (SchemaType.mk "string" "NOT_SET" [] none))) := by
  apply claim_C2
  · exact wfType_map (by decide) (wfType_tuple (by simp)
      (wfList_cons (wfType_leaf (by decide))
        (wfList_cons (wfType_leaf (by decide)) wfList_nil)))
  · exact noLang_mk
      (noLangList_cons (noLang_mk
        (noLangList_cons (noLang_mk noLangList_nil noLangOpt_none)
          (noLangList_cons (noLang_mk noLangList_nil noLangOpt_none) noLangList_nil))
        noLangOpt_none) noLangList_nil)
      (noLangOpt_some (noLang_mk noLangList_nil noLangOpt_none))
  · refine ntc_mk_nontuple (by decide) (ntcList_cons ?_ ntcList_nil)
      (ntcOpt_some (ntc_mk_nontuple (by decide) ntcList_nil ntcOpt_none))
    refine ntc_mk_tuple ?_
      (ntcList_cons (ntc_mk_nontuple (by decide) ntcList_nil ntcOpt_none)
        (ntcList_cons (ntc_mk_nontuple (by decide) ntcList_nil ntcOpt_none) ntcList_nil))
      ntcOpt_none
    rw [toGenericList, toGenericList, toGenericList]
    rw [toGeneric_leaf (by decide), toGeneric_leaf (by decide)]
    decide

/-! ## Claim C5 -/

/-- **C5 counterexample.** A `null` leaf and `list<integer>` are both in the
spec's universe; the code's `is_generic_equal` deems them equal (the `null`
exception fires against a non-leaf), while the claim's predicate — `null`
equal only to any **leaf** — does not. -/
theorem claim_C5_counterexample :
    is_generic_equal (SchemaType.mk "null" "NOT_SET" [] none)
      (SchemaType.mk "list" "NOT_SET" [SchemaType.mk "integer" "NOT_SET" [] none] none)
      = true ∧
    specGenEqClaim (SchemaType.mk "null" "NOT_SET" [] none)
      (SchemaType.mk "list" "NOT_SET" [SchemaType.mk "integer" "NOT_SET" [] none] none)
      = false ∧
    wfType (SchemaType.mk "null" "NOT_SET" [] none) = true ∧
    wfType (SchemaType.mk "list" "NOT_SET"
      [SchemaType.mk "integer" "NOT_SET" [] none] none) = true := by
  refine ⟨?_, ?_, wfType_leaf (by decide),
    wfType_listset (Or.inl rfl) (wfType_leaf (by decide))⟩
  · rw [is_generic_equal]
    simp [SchemaType.is_leaf]
  · rw [specGenEqClaim]
    simp [SchemaType.is_leaf]

/-- **C5** (corrected). On the spec's universe, `is_generic_equal` coincides
with structural equality ignoring `lang_type` in which a `null` leaf on either
side compares equal to **any** TypeExpr (not only to leaves); in particular it
is reflexive on the universe and accepts `null` against every primitive
leaf. -/
theorem claim_C5 :
    (∀ a b : SchemaType, wfType a = true → wfType b = true →
      is_generic_equal a b = specGenEqAmended a b) ∧
    (∀ t : SchemaType, wfType t = true → is_generic_equal t t = true) ∧
    (∀ ts lt lt2 : String,
      is_generic_equal (.mk "null" lt [] none) (.mk ts lt2 [] none) = true) := by
  refine ⟨ige_eq_specAmended, fun t ht => ?_, fun ts lt lt2 => ?_⟩
  · rw [ige_eq_specAmended t t ht ht]
    exact specGenEqAmended_refl t
  · rw [is_generic_equal]
    simp [SchemaType.is_leaf]

/-- Witness for C5: instantiates all three conjuncts at concrete inputs. -/
theorem claim_C5_witness :
    is_generic_equal (SchemaType.mk "integer" "NOT_SET" [] none)
        (SchemaType.mk "long" "NOT_SET" [] none) =
      specGenEqAmended (SchemaType.mk "integer" "NOT_SET" [] none)
        (SchemaType.mk "long" "NOT_SET" [] none) ∧
    is_generic_equal (SchemaType.mk "list" "NOT_SET"
        [SchemaType.mk "integer" "NOT_SET" [] none] none)
      (SchemaType.mk "list" "NOT_SET"
        [SchemaType.mk "integer" "NOT_SET" [] none] none) = true ∧
    is_generic_equal (SchemaType.mk "null" "x" [] none)
      (SchemaType.mk "string" "y" [] none) = true := by
  refine ⟨claim_C5.1 _ _ (wfType_leaf (by decide)) (wfType_leaf (by decide)),
    claim_C5.2.1 _ (wfType_listset (Or.inl rfl) (wfType_leaf (by decide))),
    claim_C5.2.2 "string" "x" "y"⟩

/-! ## Claim C4: `reconcile_type` is commutative on the spec's universe -/

/-- `SchemaType.copy` is the identity (and raises nothing) on well-formed
trees: every node re-passes the constructor validation. -/
theorem copyList_wf : ∀ l : List SchemaType,
    (∀ e ∈ l, SchemaType.copy e = .ok e) → SchemaType.copyList l = .ok l := by
  intro l
  induction l with
  | nil => intro _; rw [SchemaType.copyList]
  | cons t ts ih =>
    intro h
    rw [SchemaType.copyList]
    rw [h t (by simp)]
    simp only []
    rw [ih (fun e he => h e (by simp [he]))]

theorem copy_wf : ∀ t : SchemaType, wfType t = true → SchemaType.copy t = .ok t := by
  intro t
  induction t using SchemaType.inductionOn with
  | h ts lt elems key ihE ihK =>
    intro hw
    have hel : SchemaType.copyList elems = .ok elems :=
      copyList_wf elems
        (fun e he => ihE e he ((wfList_iff elems).mp (wfList_elements hw) e he))
    cases key with
    | none =>
      rw [SchemaType.copy]
      rw [hel]
      simp only []
      by_cases he : elems = []
      · obtain ⟨hp, -⟩ := wf_leaf_prim hw he
        simp [SchemaType.make, he, primLeafName_not_ds hp]
      · simp [SchemaType.make, he]
    | some k =>
      have hts : ts = "map" := by
        by_contra hne
        have := wf_nonmap_key_none hw hne
        simp at this
      obtain ⟨k', v, hk, hv, hkl, hwv⟩ := wf_map_shape hw hts
      injection hk with hk'
      subst hk'
      rw [SchemaType.copy]
      rw [hel]
      simp only []
      rw [ihK k rfl (wfKeyLeaf_wfType hkl)]
      simp only []
      subst hv
      simp [SchemaType.make]

theorem reconcileElems_comm : ∀ as bs : List SchemaType,
    (∀ a ∈ as, ∀ b ∈ bs, reconcile_type a b = reconcile_type b a) →
    reconcileElems as bs = reconcileElems bs as := by
  intro as
  induction as with
  | nil =>
    intro bs _
    cases bs with
    | nil => rfl
    | cons b bs =>
      rw [reconcileElems, reconcileElems]
      all_goals
        intro a' as' b' bs' h1 h2
        first
        | exact List.noConfusion h1
        | exact List.noConfusion h2
  | cons a as ih =>
    intro bs hcomm
    cases bs with
    | nil =>
      rw [reconcileElems, reconcileElems]
      all_goals
        intro a' as' b' bs' h1 h2
        first
        | exact List.noConfusion h1
        | exact List.noConfusion h2
    | cons b bs =>
      rw [reconcileElems, reconcileElems]
      rw [hcomm a (by simp) b (by simp)]
      rw [ih bs (fun x hx y hy => hcomm x (by simp [hx]) y (by simp [hy]))]

theorem reconcile_comm : ∀ a b : SchemaType, wfType a = true → wfType b = true →
    noLang a = true → noLang b = true →
    reconcile_type a b = reconcile_type b a := by
  intro a
  induction a using SchemaType.inductionOn with
  | h ts lt elems key ihE ihK =>
    intro b hwa hwb hnla hnlb
    cases b with
    | mk ts2 lt2 elems2 key2 =>
      obtain ⟨hlt, hnll, hnlk⟩ := noLang_inv hnla
      obtain ⟨hlt2, hnll2, hnlk2⟩ := noLang_inv hnlb
      subst hlt hlt2
      rw [reconcile_type, reconcile_type]
      simp only [SchemaType.langType_mk, SchemaType.typeStr_mk, SchemaType.elements_mk,
        SchemaType.keyType_mk, SchemaType.is_leaf]
      conv_lhs => rw [if_neg (by simp)]
      conv_rhs => rw [if_neg (by simp)]
      by_cases hA : elems = [] <;> by_cases hB : elems2 = []
      · -- both leaves: the widening table decides both directions
        subst hA hB
        by_cases hT1 : ts2 ∈ RECONCILABLE_TYPES ts <;>
          by_cases hT2 : ts ∈ RECONCILABLE_TYPES ts2
        · exact absurd hT1 (fun hh => RECONCILABLE_TYPES_asymm hh hT2)
        · have hra : RECONCILABLE_TYPES ts ≠ [] := List.ne_nil_of_mem hT1
          simp [is_reconcilable, hra, hT1, hT2]
        · have hrb : RECONCILABLE_TYPES ts2 ≠ [] := List.ne_nil_of_mem hT2
          simp [is_reconcilable, hrb, hT1, hT2]
        · simp [is_reconcilable, hT1, hT2]
      · -- one leaf: unreconcilable both ways
        subst hA
        have hB' : elems2.length ≠ 0 := fun h => hB (List.length_eq_zero.mp h)
        simp [hB']
      · subst hB
        have hA' : elems.length ≠ 0 := fun h => hA (List.length_eq_zero.mp h)
        simp [hA']
      · -- neither leaf: structural comparison
        have hA' : elems.length ≠ 0 := fun h => hA (List.length_eq_zero.mp h)
        have hB' : elems2.length ≠ 0 := fun h => hB (List.length_eq_zero.mp h)
        conv_lhs => rw [if_neg (by simp [hA', hB'])]
        conv_rhs => rw [if_neg (by simp [hA', hB'])]
        by_cases hts : ts = ts2
        · subst hts
          conv_lhs => rw [if_neg (fun h => h rfl)]
          conv_rhs => rw [if_neg (fun h => h rfl)]
          by_cases hlen : elems.length = elems2.length
          · conv_lhs => rw [if_neg (by omega)]
            conv_rhs => rw [if_neg (by omega)]
            by_cases hkey : key = key2
            · subst hkey
              conv_lhs => rw [if_neg (fun h => h rfl)]
              conv_rhs => rw [if_neg (fun h => h rfl)]
              rw [reconcileElems_comm elems elems2 (fun x hx y hy =>
                ihE x hx y
                  ((wfList_iff elems).mp (wfList_elements hwa) x hx)
                  ((wfList_iff elems2).mp (wfList_elements hwb) y hy)
                  ((noLangList_iff elems).mp hnll x hx)
                  ((noLangList_iff elems2).mp hnll2 y hy))]
              rw [copy_wf _ hwa, copy_wf _ hwb]
            · conv_lhs => rw [if_pos hkey]
              conv_rhs => rw [if_pos (fun h => hkey h.symm)]
          · conv_lhs => rw [if_pos hlen]
            conv_rhs => rw [if_pos (fun h => hlen h.symm)]
        · conv_lhs => rw [if_pos hts]
          conv_rhs => rw [if_pos (fun h => hts h.symm)]

/-- **C4** (confirmed). On the spec's TypeExpr universe with no `lang_type`
set, reconciliation is commutative: both directions give the same reconciled
type, or both are unreconcilable, or both raise the same error. -/
theorem claim_C4 (a b : SchemaType) (h1 : wfType a = true) (h2 : wfType b = true)
    (h3 : noLang a = true) (h4 : noLang b = true) :
    reconcile_type a b = reconcile_type b a :=
  reconcile_comm a b h1 h2 h3 h4

/-- Witness for C4 at the pair `(integer, float)`. -/
theorem claim_C4_witness :
    reconcile_type (SchemaType.mk "integer" "NOT_SET" [] none)
      (SchemaType.mk "float" "NOT_SET" [] none) =
    reconcile_type (SchemaType.mk "float" "NOT_SET" [] none)
      (SchemaType.mk "integer" "NOT_SET" [] none) :=
  claim_C4 _ _ (wfType_leaf (by decide)) (wfType_leaf (by decide))
    (noLang_mk noLangList_nil noLangOpt_none) (noLang_mk noLangList_nil noLangOpt_none)

/-! ## Claim C3: specification-side reconciliation

`specReconcileClaim` is the claim's words verbatim: reconciliation applied
point-wise to aligned subtrees **including the key subtrees of maps**, with
each aligned leaf pair widened by the table.  `specReconcileAmended` is what
the code computes on the spec's universe: map keys must be exactly equal
(they are never widened), and the re-parse of the assembled result collapses
a homogeneous tuple into a list of its first child. -/

mutual
def specReconcileClaim (a b : SchemaType) : Option SchemaType :=
  match a, b with
  | .mk ts _ elems key, .mk ts2 _ elems2 key2 =>
    if elems.isEmpty && elems2.isEmpty then
      (specTable ts ts2).map (fun w => .mk w "NOT_SET" [] none)
    else if elems.isEmpty || elems2.isEmpty then none
    else if ts ≠ ts2 then none
    else if elems.length ≠ elems2.length then none
    else
      match key, key2 with
      | none, none =>
        (specReconcileClaimList elems elems2).map (fun ns => .mk ts "NOT_SET" ns none)
      | some k, some k2 =>
        match specReconcileClaim k k2 with
        | none => none
        | some nk =>
          (specReconcileClaimList elems elems2).map (fun ns => .mk ts "NOT_SET" ns (some nk))
      | _, _ => none
  termination_by (sizeOf a + sizeOf b, 1)
  decreasing_by
  all_goals
    apply Prod.Lex.left
    simp only [SchemaType.mk.sizeOf_spec, Option.some.sizeOf_spec, List.cons.sizeOf_spec]
    omega

def specReconcileClaimList : List SchemaType → List SchemaType → Option (List SchemaType)
  | a :: as, b :: bs =>
    match specReconcileClaim a b with
    | none => none
    | some n =>
      match specReconcileClaimList as bs with
      | none => none
      | some ns => some (n :: ns)
  | [], [] => some []
  | _, _ => none
  termination_by as bs => (sizeOf as + sizeOf bs, 2)
  decreasing_by
  · apply Prod.Lex.left
    simp only [List.cons.sizeOf_spec]
    omega
  · apply Prod.Lex.left
    simp only [List.cons.sizeOf_spec]
    omega
end

mutual
def specReconcileAmended (a b : SchemaType) : Option SchemaType :=
  match a, b with
  | .mk ts _ elems key, .mk ts2 _ elems2 key2 =>
    if elems.isEmpty && elems2.isEmpty then
      (specTable ts ts2).map (fun w => .mk w "NOT_SET" [] none)
    else if elems.isEmpty || elems2.isEmpty then none
    else if ts ≠ ts2 then none
    else if elems.length ≠ elems2.length then none
    else if key ≠ key2 then none
    else
      match specReconcileAmendedList elems elems2 with
      | none => none
      | some newElems =>
        if ts = "tuple" && allSame (toGenericList newElems) then
          match newElems with
          | n0 :: _ => some (.mk "list" "NOT_SET" [n0] none)
          | [] => none
        else some (.mk ts "NOT_SET" newElems key)
  termination_by (sizeOf a + sizeOf b, 1)
  decreasing_by
  · apply Prod.Lex.left
    simp only [SchemaType.mk.sizeOf_spec]
    omega

def specReconcileAmendedList : List SchemaType → List SchemaType → Option (List SchemaType)
  | a :: as, b :: bs =>
    match specReconcileAmended a b with
    | none => none
    | some n =>
      match specReconcileAmendedList as bs with
      | none => none
      | some ns => some (n :: ns)
  | [], [] => some []
  | _, _ => none
  termination_by as bs => (sizeOf as + sizeOf bs, 2)
  decreasing_by
  · apply Prod.Lex.left
    simp only [List.cons.sizeOf_spec]
    omega
  · apply Prod.Lex.left
    simp only [List.cons.sizeOf_spec]
    omega
end

theorem wfKeyLeaf_ntc {k : SchemaType} (h : wfKeyLeaf k = true) :
    noTupleCollapse k = true := by
  obtain ⟨kts, klt, rfl, hkn⟩ := wfKeyLeaf_inv h
  exact ntc_mk_nontuple (prim_ne_container (mapKeyName_prim hkn) (by tauto))
    ntcList_nil ntcOpt_none

theorem wfKeyLeaf_noLang {k : SchemaType} (hk : wfKeyLeaf k = true)
    (h : noLang k = true) : k.langType = "NOT_SET" := by
  obtain ⟨kts, klt, rfl, -⟩ := wfKeyLeaf_inv hk
  obtain ⟨h1, -, -⟩ := noLang_inv h
  simpa using h1

theorem specTable_some_prim {x y w : String} (h : specTable x y = some w) :
    isPrimLeafName w = true := by
  unfold specTable at h
  by_cases h1 : y ∈ RECONCILABLE_TYPES x
  · rw [if_pos h1] at h
    injection h with h'
    subst h'
    exact (mem_RECONCILABLE_prim h1).1
  · rw [if_neg h1] at h
    by_cases h2 : x ∈ RECONCILABLE_TYPES y
    · rw [if_pos h2] at h
      injection h with h'
      subst h'
      exact (mem_RECONCILABLE_prim h2).1
    · rw [if_neg h2] at h
      exact Option.noConfusion h

theorem specAList_nil_nil : specReconcileAmendedList [] [] = some [] := by
  rw [specReconcileAmendedList]

theorem specAList_nil_cons {b : SchemaType} {bs : List SchemaType} :
    specReconcileAmendedList [] (b :: bs) = none := by
  rw [specReconcileAmendedList]
  all_goals intros; simp_all

theorem specAList_cons_nil {a : SchemaType} {as : List SchemaType} :
    specReconcileAmendedList (a :: as) [] = none := by
  rw [specReconcileAmendedList]
  all_goals intros; simp_all

theorem specAList_props : ∀ as bs ns : List SchemaType,
    (∀ x ∈ as, ∀ y r : SchemaType, wfType x = true → wfType y = true → noLang x = true →
      noLang y = true → specReconcileAmended x y = some r →
      wfType r = true ∧ noLang r = true ∧ noTupleCollapse r = true) →
    wfList as = true → wfList bs = true → noLangList as = true → noLangList bs = true →
    specReconcileAmendedList as bs = some ns →
    wfList ns = true ∧ noLangList ns = true ∧ noTupleCollapseList ns = true ∧
      ns.length = as.length ∧ as.length = bs.length := by
  intro as
  induction as with
  | nil =>
    intro bs ns _ _ _ _ _ h
    cases bs with
    | nil =>
      rw [specAList_nil_nil] at h
      injection h with h'
      subst h'
      exact ⟨wfList_nil, noLangList_nil, ntcList_nil, rfl, rfl⟩
    | cons b bs =>
      rw [specAList_nil_cons] at h
      exact Option.noConfusion h
  | cons a as ih =>
    intro bs ns hmem hwa hwb hnla hnlb h
    cases bs with
    | nil =>
      rw [specAList_cons_nil] at h
      exact Option.noConfusion h
    | cons b bs =>
      rw [specReconcileAmendedList] at h
      rw [wfList] at hwa hwb
      rw [noLangList] at hnla hnlb
      simp only [Bool.and_eq_true] at hwa hwb hnla hnlb
      rcases hsp : specReconcileAmended a b with _ | n
      · rw [hsp] at h
        simp at h
      · rw [hsp] at h
        rcases hsl : specReconcileAmendedList as bs with _ | ns'
        · rw [hsl] at h
          simp at h
        · rw [hsl] at h
          simp only [Option.some.injEq] at h
          obtain ⟨hwn, hnln, hntcn⟩ := hmem a (by simp) b n hwa.1 hwb.1 hnla.1 hnlb.1 hsp
          obtain ⟨hwns, hnlns, hntcns, hlen1, hlen2⟩ :=
            ih bs ns' (fun x hx => hmem x (by simp [hx])) hwa.2 hwb.2 hnla.2 hnlb.2 hsl
          subst h
          exact ⟨wfList_cons hwn hwns, noLangList_cons hnln hnlns,
            ntcList_cons hntcn hntcns, by simp [hlen1], by simp [hlen2]⟩

theorem wfType_mapk {lt : String} {v k : SchemaType} (hk : wfKeyLeaf k = true)
    (hv : wfType v = true) : wfType (.mk "map" lt [v] (some k)) = true := by
  rw [wfType]
  rw [if_neg (by decide), if_pos rfl]
  rw [wfKeyOpt]
  simp [hk, wfList_cons hv wfList_nil]

/-- The amended reconciliation stays inside the spec's universe: a defined
result is well-formed, has no `lang_type`, and contains no collapsible
tuple. -/
theorem specA_props : ∀ a b r : SchemaType, wfType a = true → wfType b = true →
    noLang a = true → noLang b = true → specReconcileAmended a b = some r →
    wfType r = true ∧ noLang r = true ∧ noTupleCollapse r = true := by
  intro a
  induction a using SchemaType.inductionOn with
  | h ts lt elems key ihE ihK =>
    intro b r hwa hwb hnla hnlb hspec
    cases b with
    | mk ts2 lt2 elems2 key2 =>
      rw [specReconcileAmended] at hspec
      by_cases hE : (elems.isEmpty && elems2.isEmpty) = true
      · rw [if_pos hE] at hspec
        rcases hw : specTable ts ts2 with _ | w
        · rw [hw] at hspec
          simp at hspec
        · rw [hw] at hspec
          simp only [Option.map_some', Option.some.injEq] at hspec
          subst hspec
          have hp := specTable_some_prim hw
          exact ⟨wfType_leaf hp, noLang_mk noLangList_nil noLangOpt_none,
            ntc_mk_nontuple (prim_ne_container hp (by tauto)) ntcList_nil ntcOpt_none⟩
      · rw [if_neg hE] at hspec
        by_cases hE2 : (elems.isEmpty || elems2.isEmpty) = true
        · rw [if_pos hE2] at hspec
          exact Option.noConfusion hspec
        · rw [if_neg hE2] at hspec
          have hne : elems ≠ [] ∧ elems2 ≠ [] := by
            simpa [not_or, List.isEmpty_iff] using hE2
          by_cases hts : ts = ts2
          · subst hts
            rw [if_neg (fun h => h rfl)] at hspec
            by_cases hlen : elems.length = elems2.length
            · rw [if_neg (by omega)] at hspec
              by_cases hkey : key = key2
              · subst hkey
                rw [if_neg (fun h => h rfl)] at hspec
                rcases hsl : specReconcileAmendedList elems elems2 with _ | newElems
                · rw [hsl] at hspec
                  simp at hspec
                · rw [hsl] at hspec
                  simp only [] at hspec
                  obtain ⟨hwns, hnlns, hntcns, hlen1, hlen2⟩ :=
                    specAList_props elems elems2 newElems
                      (fun x hx y r' => ihE x hx y r')
                      (wfList_elements hwa) (wfList_elements hwb)
                      ((noLang_inv hnla).2.1) ((noLang_inv hnlb).2.1) hsl
                  by_cases hcond :
                      (decide (ts = "tuple") && allSame (toGenericList newElems)) = true
                  · rw [if_pos hcond] at hspec
                    obtain ⟨n0, rest', rfl⟩ : ∃ n0 rest', newElems = n0 :: rest' := by
                      cases newElems with
                      | nil =>
                        exfalso
                        apply hne.1
                        have : elems.length = 0 := by simpa using hlen1.symm
                        exact List.length_eq_zero.mp this
                      | cons x xs => exact ⟨x, xs, rfl⟩
                    simp only [Option.some.injEq] at hspec
                    subst hspec
                    rw [wfList] at hwns
                    rw [noLangList] at hnlns
                    rw [noTupleCollapseList] at hntcns
                    simp only [Bool.and_eq_true] at hwns hnlns hntcns
                    exact ⟨wfType_listset (Or.inl rfl) hwns.1,
                      noLang_mk (noLangList_cons hnlns.1 noLangList_nil) noLangOpt_none,
                      ntc_mk_nontuple (by decide) (ntcList_cons hntcns.1 ntcList_nil)
                        ntcOpt_none⟩
                  · rw [if_neg hcond] at hspec
                    simp only [Option.some.injEq] at hspec
                    subst hspec
                    rcases wfType_inv hwa with ⟨hp, he, rfl⟩ | ⟨hts', rfl, e, he, hwfe⟩ |
                      ⟨hts', k, v, hkeq, he, hk, hv⟩ | ⟨hts', rfl, hneT, hwflT⟩
                    · exact absurd he hne.1
                    · -- list / set node
                      subst he
                      obtain ⟨n, rfl⟩ : ∃ n, newElems = [n] :=
                        List.length_eq_one.mp (by simpa using hlen1)
                      rw [wfList] at hwns
                      simp only [Bool.and_eq_true] at hwns
                      refine ⟨wfType_listset hts' hwns.1, noLang_mk hnlns noLangOpt_none,
                        ntc_mk_nontuple ?_ hntcns ntcOpt_none⟩
                      rcases hts' with rfl | rfl <;> decide
                    · -- map node
                      subst hts' hkeq he
                      obtain ⟨n, rfl⟩ : ∃ n, newElems = [n] :=
                        List.length_eq_one.mp (by simpa using hlen1)
                      rw [wfList] at hwns
                      simp only [Bool.and_eq_true] at hwns
                      refine ⟨wfType_mapk hk hwns.1,
                        noLang_mk hnlns (noLangOpt_some ((noLang_inv hnla).2.2 k rfl)),
                        ntc_mk_nontuple (by decide) hntcns
                          (ntcOpt_some (wfKeyLeaf_ntc hk))⟩
                    · -- tuple node
                      subst hts'
                      have hnewne : newElems ≠ [] := by
                        intro hh
                        subst hh
                        exact hne.1 (List.length_eq_zero.mp (by simpa using hlen1.symm))
                      have hall : allSame (toGenericList newElems) = false := by
                        rcases Bool.eq_false_or_eq_true (allSame (toGenericList newElems))
                          with h' | h'
                        · exact absurd (by simp [h']) hcond
                        · exact h'
                      exact ⟨wfType_tuple hnewne hwns, noLang_mk hnlns noLangOpt_none,
                        ntc_mk_tuple hall hntcns ntcOpt_none⟩
              · rw [if_pos hkey] at hspec
                exact Option.noConfusion hspec
            · rw [if_pos hlen] at hspec
              exact Option.noConfusion hspec
          · rw [if_pos hts] at hspec
            exact Option.noConfusion hspec

/-- Parse-of-render is the identity on the round-trippable universe (wrapper
of the round-trip theorem at `String` level, used by the reconciliation
proofs). -/
theorem parse_render_id {t : SchemaType} (h1 : wfType t = true) (h2 : noLang t = true)
    (h3 : noTupleCollapse t = true) : fromGenericTypeString (toGeneric t) = .ok t :=
  fromGeneric_toGeneric t h1 h2 h3

theorem leafOr_nil :
    (decide ((([] : List SchemaType)).length = 0) ||
     decide ((([] : List SchemaType)).length = 0)) = true := by decide

theorem notLeaf_nil :
    ¬((decide (¬(decide ((([] : List SchemaType)).length = 0) = true)) ||
       decide (¬(decide ((([] : List SchemaType)).length = 0) = true))) = true) := by decide

theorem reconcileElems_spec : ∀ as bs : List SchemaType,
    (∀ x ∈ as, ∀ y, wfType x = true → wfType y = true → noLang x = true → noLang y = true →
      reconcile_type x y = .ok (specReconcileAmended x y)) →
    wfList as = true → wfList bs = true → noLangList as = true → noLangList bs = true →
    as.length = bs.length →
    reconcileElems as bs = .ok (specReconcileAmendedList as bs) := by
  intro as
  induction as with
  | nil =>
    intro bs _ _ _ _ _ hlen
    cases bs with
    | nil =>
      rw [specAList_nil_nil]
      rw [reconcileElems]
      all_goals intros; simp_all
    | cons b bs => simp at hlen
  | cons a as ih =>
    intro bs hmem hwa hwb hnla hnlb hlen
    cases bs with
    | nil => simp at hlen
    | cons b bs =>
      rw [reconcileElems, specReconcileAmendedList]
      rw [wfList] at hwa hwb
      rw [noLangList] at hnla hnlb
      simp only [Bool.and_eq_true] at hwa hwb hnla hnlb
      rw [hmem a (by simp) b hwa.1 hwb.1 hnla.1 hnlb.1]
      rcases hsp : specReconcileAmended a b with _ | n
      · rfl
      · simp only []
        rw [ih bs (fun x hx => hmem x (by simp [hx])) hwa.2 hwb.2 hnla.2 hnlb.2
          (by simpa using hlen)]
        rcases hsl2 : specReconcileAmendedList as bs with _ | ns
        · rfl
        · rfl

/-- The code's `reconcile_type` computes exactly the amended specification
function on the spec's universe (and never raises there). -/
theorem reconcile_eq_specAmended : ∀ a b : SchemaType,
    wfType a = true → wfType b = true → noLang a = true → noLang b = true →
    reconcile_type a b = .ok (specReconcileAmended a b) := by
  intro a
  induction a using SchemaType.inductionOn with
  | h ts lt elems key ihE ihK =>
    intro b hwa hwb hnla hnlb
    cases b with
    | mk ts2 lt2 elems2 key2 =>
      obtain ⟨hlt, hnll, hnlk⟩ := noLang_inv hnla
      obtain ⟨hlt2, hnll2, hnlk2⟩ := noLang_inv hnlb
      subst hlt hlt2
      by_cases hA : elems = [] <;> by_cases hB : elems2 = []
      · -- both leaves
        subst hA hB
        obtain ⟨hp, hk⟩ := wf_leaf_prim hwa rfl
        obtain ⟨hp2, hk2⟩ := wf_leaf_prim hwb rfl
        subst hk hk2
        by_cases hT1 : ts2 ∈ RECONCILABLE_TYPES ts <;>
          by_cases hT2 : ts ∈ RECONCILABLE_TYPES ts2
        · exact absurd hT1 (fun hh => RECONCILABLE_TYPES_asymm hh hT2)
        · have hspec : specReconcileAmended (SchemaType.mk ts "NOT_SET" [] none)
              (SchemaType.mk ts2 "NOT_SET" [] none) =
              some (SchemaType.mk ts2 "NOT_SET" [] none) := by
            rw [specReconcileAmended, if_pos (by decide), specTable, if_pos hT1]
            rfl
          rw [hspec]
          have hra : RECONCILABLE_TYPES ts ≠ [] := List.ne_nil_of_mem hT1
          rw [reconcile_type]
          simp only [SchemaType.langType_mk, SchemaType.typeStr_mk,
            SchemaType.elements_mk, SchemaType.keyType_mk, SchemaType.is_leaf]
          rw [if_neg (by simp), if_pos leafOr_nil, if_neg notLeaf_nil]
          rw [if_pos (by simp [is_reconcilable, hra]), if_pos hT1]
          rw [parse_render_id (wfType_leaf hp2) (noLang_mk noLangList_nil noLangOpt_none)
            (ntc_mk_nontuple (prim_ne_container hp2 (by tauto)) ntcList_nil ntcOpt_none)]
          rfl
        · have hspec : specReconcileAmended (SchemaType.mk ts "NOT_SET" [] none)
              (SchemaType.mk ts2 "NOT_SET" [] none) =
              some (SchemaType.mk ts "NOT_SET" [] none) := by
            rw [specReconcileAmended, if_pos (by decide), specTable, if_neg hT1,
              if_pos hT2]
            rfl
          rw [hspec]
          have hrb : RECONCILABLE_TYPES ts2 ≠ [] := List.ne_nil_of_mem hT2
          rw [reconcile_type]
          simp only [SchemaType.langType_mk, SchemaType.typeStr_mk,
            SchemaType.elements_mk, SchemaType.keyType_mk, SchemaType.is_leaf]
          rw [if_neg (by simp), if_pos leafOr_nil, if_neg notLeaf_nil]
          rw [if_pos (by simp [is_reconcilable, hrb]), if_neg hT1, if_pos hT2]
          rw [parse_render_id (wfType_leaf hp) (noLang_mk noLangList_nil noLangOpt_none)
            (ntc_mk_nontuple (prim_ne_container hp (by tauto)) ntcList_nil ntcOpt_none)]
          rfl
        · have hspec : specReconcileAmended (SchemaType.mk ts "NOT_SET" [] none)
              (SchemaType.mk ts2 "NOT_SET" [] none) = none := by
            rw [specReconcileAmended, if_pos (by decide), specTable, if_neg hT1,
              if_neg hT2]
            rfl
          rw [hspec]
          rw [reconcile_type]
          simp only [SchemaType.langType_mk, SchemaType.typeStr_mk,
            SchemaType.elements_mk, SchemaType.keyType_mk, SchemaType.is_leaf]
          rw [if_neg (by simp), if_pos leafOr_nil, if_neg notLeaf_nil]
          by_cases hrec : (is_reconcilable (SchemaType.mk ts "NOT_SET" [] none) ||
              is_reconcilable (SchemaType.mk ts2 "NOT_SET" [] none)) = true
          · rw [if_pos hrec, if_neg hT1, if_neg hT2]
          · rw [if_neg hrec]
      · -- a leaf, b not
        subst hA
        have hB' : elems2.length ≠ 0 := fun h => hB (List.length_eq_zero.mp h)
        have hspec : specReconcileAmended (SchemaType.mk ts "NOT_SET" [] key)
            (SchemaType.mk ts2 "NOT_SET" elems2 key2) = none := by
          rw [specReconcileAmended, if_neg (by simp [hB]), if_pos (by simp)]
        rw [hspec]
        rw [reconcile_type]
        simp only [SchemaType.langType_mk, SchemaType.typeStr_mk,
          SchemaType.elements_mk, SchemaType.keyType_mk, SchemaType.is_leaf]
        rw [if_neg (by simp), if_pos (by simp), if_pos (by simp [hB'])]
      · -- b leaf, a not
        subst hB
        have hA' : elems.length ≠ 0 := fun h => hA (List.length_eq_zero.mp h)
        have hspec : specReconcileAmended (SchemaType.mk ts "NOT_SET" elems key)
            (SchemaType.mk ts2 "NOT_SET" [] key2) = none := by
          rw [specReconcileAmended, if_neg (by simp [hA]), if_pos (by simp)]
        rw [hspec]
        rw [reconcile_type]
        simp only [SchemaType.langType_mk, SchemaType.typeStr_mk,
          SchemaType.elements_mk, SchemaType.keyType_mk, SchemaType.is_leaf]
        rw [if_neg (by simp), if_pos (by simp), if_pos (by simp [hA'])]
      · -- neither leaf
        have hA' : elems.length ≠ 0 := fun h => hA (List.length_eq_zero.mp h)
        have hB' : elems2.length ≠ 0 := fun h => hB (List.length_eq_zero.mp h)
        by_cases hts : ts = ts2
        · subst hts
          by_cases hlen : elems.length = elems2.length
          · by_cases hkey : key = key2
            · subst hkey
              have hre := reconcileElems_spec elems elems2
                (fun x hx y hwx hwy hnx hny => ihE x hx y hwx hwy hnx hny)
                (wfList_elements hwa) (wfList_elements hwb) hnll hnll2 hlen
              rcases hsl : specReconcileAmendedList elems elems2 with _ | newElems
              · have hspec : specReconcileAmended (SchemaType.mk ts "NOT_SET" elems key)
                    (SchemaType.mk ts "NOT_SET" elems2 key) = none := by
                  rw [specReconcileAmended, if_neg (by simp [hA, hB]),
                    if_neg (by simp [hA, hB]), if_neg (fun h => h rfl),
                    if_neg (by omega), if_neg (fun h => h rfl), hsl]
                rw [hspec]
                rw [reconcile_type]
                simp only [SchemaType.langType_mk, SchemaType.typeStr_mk,
                  SchemaType.elements_mk, SchemaType.keyType_mk, SchemaType.is_leaf]
                rw [if_neg (by simp), if_neg (by simp [hA', hB']),
                  if_neg (fun h => h rfl), if_neg (by omega), if_neg (fun h => h rfl)]
                rw [hre, hsl]
              · obtain ⟨hwns, hnlns, hntcns, hlen1, hlen2⟩ :=
                  specAList_props elems elems2 newElems
                    (fun x hx y r' hwx hwy hnx hny hs =>
                      specA_props x y r' hwx hwy hnx hny hs)
                    (wfList_elements hwa) (wfList_elements hwb) hnll hnll2 hsl
                by_cases hcond :
                    (decide (ts = "tuple") && allSame (toGenericList newElems)) = true
                · have htst : ts = "tuple" := by
                    simp only [Bool.and_eq_true, decide_eq_true_eq] at hcond
                    exact hcond.1
                  subst htst
                  have hkn : key = none := wf_nonmap_key_none hwa (by decide)
                  subst hkn
                  obtain ⟨n0, rest', rfl⟩ : ∃ n0 rest', newElems = n0 :: rest' := by
                    cases newElems with
                    | nil =>
                      exfalso
                      exact hA (List.length_eq_zero.mp (by simpa using hlen1.symm))
                    | cons x xs => exact ⟨x, xs, rfl⟩
                  have hspec : specReconcileAmended
                      (SchemaType.mk "tuple" "NOT_SET" elems none)
                      (SchemaType.mk "tuple" "NOT_SET" elems2 none) =
                      some (SchemaType.mk "list" "NOT_SET" [n0] none) := by
                    rw [specReconcileAmended, if_neg (by simp [hA, hB]),
                      if_neg (by simp [hA, hB]), if_neg (fun h => h rfl),
                      if_neg (by omega), if_neg (fun h => h rfl), hsl]
                    simp only []
                    have hall : allSame (toGenericList (n0 :: rest')) = true := by
                      simp only [Bool.and_eq_true] at hcond
                      exact hcond.2
                    simp [hall]
                  rw [hspec]
                  rw [reconcile_type]
                  simp only [SchemaType.langType_mk, SchemaType.typeStr_mk,
                    SchemaType.elements_mk, SchemaType.keyType_mk, SchemaType.is_leaf]
                  rw [if_neg (by simp), if_neg (by simp [hA', hB']),
                    if_neg (fun h => h rfl), if_neg (by omega), if_neg (fun h => h rfl)]
                  rw [hre, hsl]
                  simp only []
                  rw [copy_wf _ hwa]
                  simp only []
                  rw [wfList] at hwns
                  rw [noLangList] at hnlns
                  rw [noTupleCollapseList] at hntcns
                  simp only [Bool.and_eq_true] at hwns hnlns hntcns
                  rw [show fromGenericTypeString
                        (toGeneric (SchemaType.mk "tuple" "NOT_SET" (n0 :: rest') none)) =
                      .ok (SchemaType.mk "list" "NOT_SET" [n0] none) from
                    parse_render_homtuple "NOT_SET" n0 rest'
                      (wfList_cons hwns.1 hwns.2)
                      (by simp only [Bool.and_eq_true] at hcond; exact hcond.2)
                      (parse_render_id hwns.1 hnlns.1 hntcns.1)]
                  rfl
                · have hspec : specReconcileAmended
                      (SchemaType.mk ts "NOT_SET" elems key)
                      (SchemaType.mk ts "NOT_SET" elems2 key) =
                      some (SchemaType.mk ts "NOT_SET" newElems key) := by
                    rw [specReconcileAmended, if_neg (by simp [hA, hB]),
                      if_neg (by simp [hA, hB]), if_neg (fun h => h rfl),
                      if_neg (by omega), if_neg (fun h => h rfl), hsl]
                    simp only []
                    rw [if_neg hcond]
                  obtain ⟨hwN, hnlN, hntcN⟩ :=
                    specA_props _ _ _ hwa hwb hnla hnlb hspec
                  rw [hspec]
                  rw [reconcile_type]
                  simp only [SchemaType.langType_mk, SchemaType.typeStr_mk,
                    SchemaType.elements_mk, SchemaType.keyType_mk, SchemaType.is_leaf]
                  rw [if_neg (by simp), if_neg (by simp [hA', hB']),
                    if_neg (fun h => h rfl), if_neg (by omega), if_neg (fun h => h rfl)]
                  rw [hre, hsl]
                  simp only []
                  rw [copy_wf _ hwa]
                  simp only []
                  rw [parse_render_id hwN hnlN hntcN]
                  rfl
            · have hspec : specReconcileAmended (SchemaType.mk ts "NOT_SET" elems key)
                  (SchemaType.mk ts "NOT_SET" elems2 key2) = none := by
                rw [specReconcileAmended, if_neg (by simp [hA, hB]),
                  if_neg (by simp [hA, hB]), if_neg (fun h => h rfl),
                  if_neg (by omega), if_pos hkey]
              rw [hspec]
              rw [reconcile_type]
              simp only [SchemaType.langType_mk, SchemaType.typeStr_mk,
                SchemaType.elements_mk, SchemaType.keyType_mk, SchemaType.is_leaf]
              rw [if_neg (by simp), if_neg (by simp [hA', hB']),
                if_neg (fun h => h rfl), if_neg (by omega), if_pos hkey]
          · have hspec : specReconcileAmended (SchemaType.mk ts "NOT_SET" elems key)
                (SchemaType.mk ts "NOT_SET" elems2 key2) = none := by
              rw [specReconcileAmended, if_neg (by simp [hA, hB]),
                if_neg (by simp [hA, hB]), if_neg (fun h => h rfl), if_pos hlen]
            rw [hspec]
            rw [reconcile_type]
            simp only [SchemaType.langType_mk, SchemaType.typeStr_mk,
              SchemaType.elements_mk, SchemaType.keyType_mk, SchemaType.is_leaf]
            rw [if_neg (by simp), if_neg (by simp [hA', hB']),
              if_neg (fun h => h rfl), if_pos hlen]
        · have hspec : specReconcileAmended (SchemaType.mk ts "NOT_SET" elems key)
              (SchemaType.mk ts2 "NOT_SET" elems2 key2) = none := by
            rw [specReconcileAmended, if_neg (by simp [hA, hB]),
              if_neg (by simp [hA, hB]), if_pos hts]
          rw [hspec]
          rw [reconcile_type]
          simp only [SchemaType.langType_mk, SchemaType.typeStr_mk,
            SchemaType.elements_mk, SchemaType.keyType_mk, SchemaType.is_leaf]
          rw [if_neg (by simp), if_neg (by simp [hA', hB']), if_pos hts]

theorem specClaim_intint : specReconcileClaim (SchemaType.mk "integer" "NOT_SET" [] none)
    (SchemaType.mk "integer" "NOT_SET" [] none) = none := by
  rw [specReconcileClaim]
  simp [specTable, RECONCILABLE_TYPES]

theorem specAmended_intfloat :
    specReconcileAmended (SchemaType.mk "integer" "NOT_SET" [] none)
      (SchemaType.mk "float" "NOT_SET" [] none) =
    some (SchemaType.mk "float" "NOT_SET" [] none) := by
  rw [specReconcileAmended]
  simp [specTable, RECONCILABLE_TYPES]

/-- **C3 counterexample.** For `a = map<integer;integer>` and
`b = map<integer;float>` — both in the spec's universe with no `lang_type` —
the code reconciles them to `map<integer;float>` because map keys are only
checked for equality, while the claim's point-wise rule (which reconciles the
aligned key pair `integer, integer` through the table, where it is not
covered) makes them unreconcilable. -/
theorem claim_C3_counterexample :
    reconcile_type
      (SchemaType.mk "map" "NOT_SET" [SchemaType.mk "integer" "NOT_SET" [] none]
        (some (SchemaType.mk "integer" "NOT_SET" [] none)))
      (SchemaType.mk "map" "NOT_SET" [SchemaType.mk "float" "NOT_SET" [] none]
        (some (SchemaType.mk "integer" "NOT_SET" [] none))) =
      .ok (some (SchemaType.mk "map" "NOT_SET" [SchemaType.mk "float" "NOT_SET" [] none]
        (some (SchemaType.mk "integer" "NOT_SET" [] none)))) ∧
    specReconcileClaim
      (SchemaType.mk "map" "NOT_SET" [SchemaType.mk "integer" "NOT_SET" [] none]
        (some (SchemaType.mk "integer" "NOT_SET" [] none)))
      (SchemaType.mk "map" "NOT_SET" [SchemaType.mk "float" "NOT_SET" [] none]
        (some (SchemaType.mk "integer" "NOT_SET" [] none))) = none ∧
    wfType (SchemaType.mk "map" "NOT_SET" [SchemaType.mk "integer" "NOT_SET" [] none]
      (some (SchemaType.mk "integer" "NOT_SET" [] none))) = true ∧
    wfType (SchemaType.mk "map" "NOT_SET" [SchemaType.mk "float" "NOT_SET" [] none]
      (some (SchemaType.mk "integer" "NOT_SET" [] none))) = true ∧
    noLang (SchemaType.mk "map" "NOT_SET" [SchemaType.mk "integer" "NOT_SET" [] none]
      (some (SchemaType.mk "integer" "NOT_SET" [] none))) = true ∧
    noLang (SchemaType.mk "map" "NOT_SET" [SchemaType.mk "float" "NOT_SET" [] none]
      (some (SchemaType.mk "integer" "NOT_SET" [] none))) = true := by
  have hwA : wfType (SchemaType.mk "map" "NOT_SET"
      [SchemaType.mk "integer" "NOT_SET" [] none]
      (some (SchemaType.mk "integer" "NOT_SET" [] none))) = true :=
    wfType_map (by decide) (wfType_leaf (by decide))
  have hwB : wfType (SchemaType.mk "map" "NOT_SET"
      [SchemaType.mk "float" "NOT_SET" [] none]
      (some (SchemaType.mk "integer" "NOT_SET" [] none))) = true :=
    wfType_map (by decide) (wfType_leaf (by decide))
  have hnA : noLang (SchemaType.mk "map" "NOT_SET"
      [SchemaType.mk "integer" "NOT_SET" [] none]
      (some (SchemaType.mk "integer" "NOT_SET" [] none))) = true :=
    noLang_mk (noLangList_cons (noLang_mk noLangList_nil noLangOpt_none) noLangList_nil)
      (noLangOpt_some (noLang_mk noLangList_nil noLangOpt_none))
  have hnB : noLang (SchemaType.mk "map" "NOT_SET"
      [SchemaType.mk "float" "NOT_SET" [] none]
      (some (SchemaType.mk "integer" "NOT_SET" [] none))) = true :=
    noLang_mk (noLangList_cons (noLang_mk noLangList_nil noLangOpt_none) noLangList_nil)
      (noLangOpt_some (noLang_mk noLangList_nil noLangOpt_none))
  refine ⟨?_, ?_, hwA, hwB, hnA, hnB⟩
  · rw [reconcile_eq_specAmended _ _ hwA hwB hnA hnB]
    rw [specReconcileAmended]
    rw [specReconcileAmendedList]
    simp [specAmended_intfloat, specAList_nil_nil]
  · rw [specReconcileClaim]
    simp [specClaim_intint]

/-- **C3** (corrected). On the spec's universe with no `lang_type` set,
`reconcile_type(a, b)` never raises and equals the point-wise reconciliation
in which (1) aligned leaf pairs are widened per the table, (2) structural
divergence is unreconcilable, (3) the key subtrees of maps are **not**
reconciled but must be exactly equal, and (4) a reconciled tuple whose
children all render identically is collapsed to a `list` of its first child
by the final re-parse. -/
theorem claim_C3 (a b : SchemaType) (h1 : wfType a = true) (h2 : wfType b = true)
    (h3 : noLang a = true) (h4 : noLang b = true) :
    reconcile_type a b = .ok (specReconcileAmended a b) :=
  reconcile_eq_specAmended a b h1 h2 h3 h4

/-- Witness for C3 at the pair `(list<integer>, list<float>)`. -/
theorem claim_C3_witness :
    reconcile_type
      (SchemaType.mk "list" "NOT_SET" [SchemaType.mk "integer" "NOT_SET" [] none] none)
      (SchemaType.mk "list" "NOT_SET" [SchemaType.mk "float" "NOT_SET" [] none] none) =
    .ok (specReconcileAmended
      (SchemaType.mk "list" "NOT_SET" [SchemaType.mk "integer" "NOT_SET" [] none] none)
      (SchemaType.mk "list" "NOT_SET" [SchemaType.mk "float" "NOT_SET" [] none] none)) :=
  claim_C3 _ _
    (wfType_listset (Or.inl rfl) (wfType_leaf (by decide)))
    (wfType_listset (Or.inl rfl) (wfType_leaf (by decide)))
    (noLang_mk (noLangList_cons (noLang_mk noLangList_nil noLangOpt_none) noLangList_nil)
      noLangOpt_none)
    (noLang_mk (noLangList_cons (noLang_mk noLangList_nil noLangOpt_none) noLangList_nil)
      noLangOpt_none)

/-! # Execution harness (`execution.py`) and result assembly (`result_types.py`)

`Command` carries the per-command timeout (milliseconds here; the conversion
`convert_timedelta_to_milliseconds` is the identity in this model).  A
`ProcessBehavior` is the oracle for one subprocess: whether it finishes
before the interval timer fires (`command.timeout` plus the buffer), and its
observable outputs when it does.  `safe_execute` transcribes
`execution.py` lines 75–121: on expiry the `PredTimeoutError` is caught
inside and surfaces only as `timed_out := true` with `return_code = -1`,
zero-value outputs and `runtime = command.timeout`. -/

structure Command where
  args : List String
  timeout : Nat

structure CommandResult where
  return_code : Int
  runtime : Nat
  max_memory_used : Nat
  stdout : String
  stderr : String
  timed_out : Bool

structure ProcessBehavior where
  finishesWithin : Bool
  return_code : Int
  runtime : Nat
  memory : Nat
  stdout : String
  stderr : String

def safe_execute (command : Command) (p : ProcessBehavior) : CommandResult :=
  if p.finishesWithin then
    { return_code := p.return_code, runtime := p.runtime, max_memory_used := p.memory,
      stdout := p.stdout, stderr := p.stderr, timed_out := false }
  else
    { return_code := -1, runtime := command.timeout, max_memory_used := p.memory,
      stdout := "", stderr := "", timed_out := true }

/-- `ExecutionResult` with its `__post_init__` (`result_types.py` lines
109–110): `all_commands_ran` is always overwritten with
`last_ran_command_idx + 1 == len(commands)`, whatever was passed. -/
structure ExecutionResult where
  commands : List Command
  stdout : String
  stderr : String
  return_code : Int
  net_runtime : Option Nat
  last_ran_command_idx : Int
  command_runtimes : List (Option Nat)
  command_memory : List (Option Nat)
  had_error : Bool
  timed_out : Bool
  all_commands_ran : Bool

def ExecutionResult.make (commands : List Command) (stdout stderr : String)
    (return_code : Int) (net_runtime : Option Nat) (last_ran_command_idx : Int)
    (command_runtimes command_memory : List (Option Nat))
    (had_error timed_out : Bool) : ExecutionResult :=
  { commands := commands, stdout := stdout, stderr := stderr,
    return_code := return_code, net_runtime := net_runtime,
    last_ran_command_idx := last_ran_command_idx,
    command_runtimes := command_runtimes, command_memory := command_memory,
    had_error := had_error, timed_out := timed_out,
    all_commands_ran := last_ran_command_idx + 1 = (commands.length : Int) }

/-- `sum(filter(lambda t: t, command_runtimes))`: `None` and `0` entries are
both falsy, so only non-zero recorded runtimes are summed. -/
def sumTruthy (l : List (Option Nat)) : Nat :=
  l.foldl (fun acc x => match x with
    | some v => if v = 0 then acc else acc + v
    | none => acc) 0

/-- The loop of `execute_code` (`execution.py` lines 142–199).  `i` is the
index of the head of `remaining`; the accumulator `last` holds the
stdout/stderr/return-code of the last completed command (Python's local
variables, unbound — `none` — until the first iteration completes, which is
why `execute_code` crashes on an empty command list: the model returns
`none` there). -/
def execLoop (behaviors : Nat → ProcessBehavior) (commands : List Command) (wall : Nat) :
    List Command → Nat → List (Option Nat) → List (Option Nat) →
    Option (String × String × Int) → Option ExecutionResult
  | [], i, runtimes, memory, last =>
    match last with
    | none => none
    | some (sout, serr, rc) =>
      some (ExecutionResult.make commands sout serr rc (some wall)
        ((i : Int) - 1) runtimes memory false false)
  | c :: rest, i, runtimes, memory, _ =>
    let r := safe_execute c (behaviors i)
    let memory' := memory.set i (some r.max_memory_used)
    let runtimes' := runtimes.set i (some r.runtime)
    if r.timed_out then
      some (ExecutionResult.make commands "" "" 0 (some (sumTruthy runtimes'))
        (i : Int) runtimes' memory' false true)
    else if r.return_code ≠ 0 then
      some (ExecutionResult.make commands r.stdout r.stderr r.return_code (some wall)
        (i : Int) runtimes' memory' true false)
    else
      execLoop behaviors commands wall rest (i + 1) runtimes' memory'
        (some (r.stdout, r.stderr, r.return_code))

def execute_code (commands : List Command) (behaviors : Nat → ProcessBehavior)
    (wall : Nat) : Option ExecutionResult :=
  execLoop behaviors commands wall commands 0
    (List.replicate commands.length none) (List.replicate commands.length none) none

/-! ## `PredictionResult.from_execution_result` (`result_types.py` 189–268)

`GET_TC_REGEX = r'^TEST-(.+)\.\.\.(.+)$'` with `re.MULTILINE`: a line
matches when it starts with `TEST-` and the rest splits as
`group1 ++ "..." ++ group2` with both groups non-empty; both `(.+)` are
greedy, so backtracking picks the **largest** split point. -/

def splitOnChar (c : Char) : List Char → List (List Char)
  | [] => [[]]
  | x :: xs =>
    match splitOnChar c xs with
    | cur :: rest => if x = c then [] :: cur :: rest else (x :: cur) :: rest
    | [] => [[x]]

def validSplit (body : List Char) (k : Nat) : Bool :=
  decide (1 ≤ k) && decide (k + 4 ≤ body.length) &&
    decide ((body.drop k).take 3 = ['.', '.', '.'])

def matchTCLine (line : List Char) : Option (String × String) :=
  if line.take 5 = "TEST-".data then
    let body := line.drop 5
    match (List.range body.length).reverse.find? (validSplit body) with
    | some k => some (String.mk (body.take k), String.mk (body.drop (k + 3)))
    | none => none
  else none

/-- `GET_TC_REGEX.findall(stdout)`, in stdout order. -/
def tcMatches (stdout : String) : List (String × String) :=
  (splitOnChar '\n' stdout.data).filterMap matchTCLine

/-- Python `dict` update: an existing key keeps its position and gets the new
value, a new key is appended. -/
def dictUpsert : List (String × String) → String → String → List (String × String)
  | [], k, v => [(k, v)]
  | (k', v') :: rest, k, v =>
    if k' = k then (k', v) :: rest else (k', v') :: dictUpsert rest k v

def dictGet : List (String × String) → String → Option String
  | [], _ => none
  | (k', v') :: rest, k => if k' = k then some v' else dictGet rest k

inductive POutcome where
  | PASSED | TIMED_OUT | HAD_ERROR | HAD_RUNTIME_ERROR | FAILED_TEST
  deriving DecidableEq

structure PredictionResult where
  outcome : POutcome
  test_case_results : List (String × String)
  num_tc_passed : Nat
  num_tc : Nat
  all_commands_ran : Bool
  final_command_runtime : Option Nat
  final_command_memory : Option Nat
  net_runtime : Option Nat
  stderr : String

/-- Python list indexing (negative indices wrap once; out of range raises,
here `none`). -/
def pyIndex (l : List (Option Nat)) (i : Int) : Option (Option Nat) :=
  let j := if 0 ≤ i then i else i + l.length
  if h : 0 ≤ j ∧ j < l.length then some (l.get ⟨j.toNat, by omega⟩) else none

/-- State of the second pass: the results dict and the four accumulators. -/
structure TCState where
  d : List (String × String)
  missing : Bool
  failedTc : Bool
  hadRt : Bool
  numPassed : Nat

def tcStep (st : TCState) (tid : String) : TCState :=
  let tc := (dictGet st.d tid).getD "MISSING"
  if tc = "MISSING" then
    { st with d := dictUpsert st.d tid "MISSING", missing := true }
  else if tc = "FAILED" then { st with failedTc := true }
  else if tc ≠ "PASSED" then { st with hadRt := true }
  else { st with numPassed := st.numPassed + 1 }

def from_execution_result (er : ExecutionResult) (test_case_ids : List String) :
    Option PredictionResult :=
  let outcome0 : POutcome :=
    if er.return_code ≠ 0 then .HAD_ERROR
    else if er.had_error then .HAD_ERROR
    else if er.timed_out then .TIMED_OUT
    else if er.stdout = "" then .HAD_ERROR
    else .PASSED
  let d0 := (tcMatches er.stdout).foldl
    (fun d m => if m.1 ∈ test_case_ids then dictUpsert d m.1 m.2 else d) []
  let st := test_case_ids.foldl tcStep
    { d := d0, missing := false, failedTc := false, hadRt := false, numPassed := 0 }
  let outcome :=
    if outcome0 = .PASSED then
      if st.missing then .HAD_ERROR
      else if st.hadRt then .HAD_RUNTIME_ERROR
      else if st.failedTc then .FAILED_TEST
      else .PASSED
    else outcome0
  match pyIndex er.command_runtimes er.last_ran_command_idx,
      pyIndex er.command_memory er.last_ran_command_idx with
  | some rt, some mem =>
    some { outcome := outcome, test_case_results := st.d,
           num_tc_passed := st.numPassed, num_tc := st.d.length,
           all_commands_ran := er.all_commands_ran,
           final_command_runtime := rt, final_command_memory := mem,
           net_runtime := er.net_runtime, stderr := er.stderr }
  | _, _ => none

/-! ## Specification-side outcome functions (claims C1, C9)

`specToken stdout tid` is the token the spec associates with a declared id:
the **last** regex match for that id in stdout, if any. -/

def specToken (stdout : String) (tid : String) : Option String :=
  (tcMatches stdout).foldl (fun acc m => if m.1 = tid then some m.2 else acc) none

/-- The claim's outcome cascade, verbatim: a declared test is "missing" iff
it has **no parsed token**. -/
def specOutcomeClaim (er : ExecutionResult) (ids : List String) : POutcome :=
  if er.return_code ≠ 0 then .HAD_ERROR
  else if er.had_error then .HAD_ERROR
  else if er.timed_out then .TIMED_OUT
  else if er.stdout = "" then .HAD_ERROR
  else if ids.any (fun tid => (specToken er.stdout tid).isNone) then .HAD_ERROR
  else if ids.any (fun tid =>
      match specToken er.stdout tid with
      | some t => decide (t ≠ "PASSED") && decide (t ≠ "FAILED")
      | none => false) then .HAD_RUNTIME_ERROR
  else if ids.any (fun tid => specToken er.stdout tid = some "FAILED") then .FAILED_TEST
  else .PASSED

/-- The amended cascade: "missing" additionally covers a parsed token that is
literally the string `MISSING`, and the runtime-error check consequently
excludes it. -/
def specOutcomeAmended (er : ExecutionResult) (ids : List String) : POutcome :=
  if er.return_code ≠ 0 then .HAD_ERROR
  else if er.had_error then .HAD_ERROR
  else if er.timed_out then .TIMED_OUT
  else if er.stdout = "" then .HAD_ERROR
  else if ids.any (fun tid => (specToken er.stdout tid).getD "MISSING" = "MISSING") then
    .HAD_ERROR
  else if ids.any (fun tid =>
      let t := (specToken er.stdout tid).getD "MISSING"
      decide (t ≠ "MISSING") && decide (t ≠ "FAILED") && decide (t ≠ "PASSED")) then
    .HAD_RUNTIME_ERROR
  else if ids.any (fun tid => (specToken er.stdout tid).getD "MISSING" = "FAILED") then
    .FAILED_TEST
  else .PASSED

/-! ## Dictionary lemmas -/

theorem dictGet_upsert : ∀ (d : List (String × String)) (k v q),
    dictGet (dictUpsert d k v) q = if k = q then some v else dictGet d q := by
  intro d k v q
  induction d with
  | nil => simp [dictUpsert, dictGet]
  | cons p rest ih =>
    obtain ⟨k', v'⟩ := p
    rw [dictUpsert]
    by_cases hk : k' = k
    · subst hk
      by_cases hq : k' = q <;> simp [dictGet, hq]
    · rw [if_neg hk]
      have hk' : ¬(k = k') := fun h => hk h.symm
      by_cases hq : k' = q
      · subst hq
        simp [dictGet, hk']
      · simp [dictGet, hq, ih]

theorem dictUpsert_keys : ∀ (d : List (String × String)) (k v),
    (dictUpsert d k v).map Prod.fst =
      if k ∈ d.map Prod.fst then d.map Prod.fst else d.map Prod.fst ++ [k] := by
  intro d k v
  induction d with
  | nil => rw [dictUpsert]; simp
  | cons p rest ih =>
    obtain ⟨k', v'⟩ := p
    rw [dictUpsert]
    by_cases hk : k' = k
    · subst hk
      rw [if_pos rfl]
      simp
    · rw [if_neg hk]
      simp only [List.map_cons, List.mem_cons]
      rw [ih]
      by_cases hm : k ∈ rest.map Prod.fst
      · rw [if_pos hm, if_pos (Or.inr hm)]
      · rw [if_neg hm, if_neg (by rintro (h | h); exact hk h.symm; exact hm h)]
        simp

theorem dictUpsert_nodup : ∀ (d : List (String × String)) (k v),
    (d.map Prod.fst).Nodup → ((dictUpsert d k v).map Prod.fst).Nodup := by
  intro d k v h
  rw [dictUpsert_keys]
  by_cases hm : k ∈ d.map Prod.fst
  · rw [if_pos hm]; exact h
  · rw [if_neg hm]
    simp only [List.nodup_append, List.nodup_cons, List.nodup_nil]
    refine ⟨h, by simp, ?_⟩
    intro a ha
    simp only [List.mem_singleton]
    intro hak
    subst hak
    exact hm ha

theorem dictGet_isSome_iff : ∀ (d : List (String × String)) (q : String),
    (dictGet d q).isSome = true ↔ q ∈ d.map Prod.fst := by
  intro d q
  induction d with
  | nil => rw [dictGet]; simp
  | cons p rest ih =>
    obtain ⟨k', v'⟩ := p
    rw [dictGet]
    by_cases hq : k' = q
    · subst hq
      rw [if_pos rfl]
      simp
    · rw [if_neg hq]
      simp only [List.map_cons, List.mem_cons]
      rw [ih]
      constructor
      · exact fun h => Or.inr h
      · rintro (h | h)
        · exact absurd h.symm hq
        · exact h

/-! ## The first pass: `GET_TC_REGEX.findall` filtered to declared ids -/

theorem firstPass_get_mem : ∀ (ms : List (String × String)) (ids : List String)
    (d : List (String × String)) (q : String), q ∈ ids →
    dictGet (ms.foldl (fun d m => if m.1 ∈ ids then dictUpsert d m.1 m.2 else d) d) q =
      ms.foldl (fun acc m => if m.1 = q then some m.2 else acc) (dictGet d q) := by
  intro ms ids
  induction ms with
  | nil => intro d q _; rfl
  | cons m rest ih =>
    intro d q hq
    simp only [List.foldl_cons]
    rw [ih _ q hq]
    congr 1
    by_cases hm : m.1 ∈ ids
    · rw [if_pos hm, dictGet_upsert]
    · rw [if_neg hm]
      rw [if_neg (by intro h; subst h; exact hm hq)]

theorem firstPass_get_out : ∀ (ms : List (String × String)) (ids : List String)
    (d : List (String × String)) (q : String), q ∉ ids →
    dictGet (ms.foldl (fun d m => if m.1 ∈ ids then dictUpsert d m.1 m.2 else d) d) q =
      dictGet d q := by
  intro ms ids
  induction ms with
  | nil => intro d q _; rfl
  | cons m rest ih =>
    intro d q hq
    simp only [List.foldl_cons]
    rw [ih _ q hq]
    by_cases hm : m.1 ∈ ids
    · rw [if_pos hm, dictGet_upsert]
      rw [if_neg (by intro h; subst h; exact hq hm)]
    · rw [if_neg hm]

theorem firstPass_nodup : ∀ (ms : List (String × String)) (ids : List String)
    (d : List (String × String)),
    (d.map Prod.fst).Nodup →
    (((ms.foldl (fun d m => if m.1 ∈ ids then dictUpsert d m.1 m.2 else d) d)).map
      Prod.fst).Nodup := by
  intro ms ids
  induction ms with
  | nil => intro d h; exact h
  | cons m rest ih =>
    intro d h
    simp only [List.foldl_cons]
    apply ih
    by_cases hm : m.1 ∈ ids
    · rw [if_pos hm]; exact dictUpsert_nodup _ _ _ h
    · rw [if_neg hm]; exact h

/-! ## The second pass over the declared ids -/

theorem tcStep_missing {st : TCState} {tid : String}
    (h : (dictGet st.d tid).getD "MISSING" = "MISSING") :
    tcStep st tid = { st with d := dictUpsert st.d tid "MISSING", missing := true } := by
  simp [tcStep, h]

theorem tcStep_failed {st : TCState} {tid : String}
    (h1 : (dictGet st.d tid).getD "MISSING" ≠ "MISSING")
    (h2 : (dictGet st.d tid).getD "MISSING" = "FAILED") :
    tcStep st tid = { st with failedTc := true } := by
  simp [tcStep, h1, h2]

theorem tcStep_rt {st : TCState} {tid : String}
    (h1 : (dictGet st.d tid).getD "MISSING" ≠ "MISSING")
    (h2 : (dictGet st.d tid).getD "MISSING" ≠ "FAILED")
    (h3 : (dictGet st.d tid).getD "MISSING" ≠ "PASSED") :
    tcStep st tid = { st with hadRt := true } := by
  simp [tcStep, h1, h2, h3]

theorem tcStep_passed {st : TCState} {tid : String}
    (h1 : (dictGet st.d tid).getD "MISSING" ≠ "MISSING")
    (h2 : (dictGet st.d tid).getD "MISSING" ≠ "FAILED")
    (h3 : (dictGet st.d tid).getD "MISSING" = "PASSED") :
    tcStep st tid = { st with numPassed := st.numPassed + 1 } := by
  simp [tcStep, h1, h2, h3]

theorem secondPass_spec : ∀ (ids : List String) (st : TCState) (tok : String → Option String),
    ids.Nodup →
    (∀ tid ∈ ids, dictGet st.d tid = tok tid) →
    (ids.foldl tcStep st).missing =
      (st.missing || ids.any (fun tid => (tok tid).getD "MISSING" = "MISSING")) ∧
    (ids.foldl tcStep st).failedTc =
      (st.failedTc || ids.any (fun tid => (tok tid).getD "MISSING" = "FAILED")) ∧
    (ids.foldl tcStep st).hadRt =
      (st.hadRt || ids.any (fun tid =>
        decide ((tok tid).getD "MISSING" ≠ "MISSING") &&
        (decide ((tok tid).getD "MISSING" ≠ "FAILED") &&
         decide ((tok tid).getD "MISSING" ≠ "PASSED")))) ∧
    (ids.foldl tcStep st).numPassed =
      st.numPassed + ids.countP (fun tid => (tok tid).getD "MISSING" = "PASSED") ∧
    (∀ q, dictGet (ids.foldl tcStep st).d q =
      if q ∈ ids then some ((tok q).getD "MISSING") else dictGet st.d q) ∧
    ((st.d.map Prod.fst).Nodup → (((ids.foldl tcStep st).d).map Prod.fst).Nodup) := by
  intro ids
  induction ids with
  | nil =>
    intro st tok _ _
    refine ⟨by simp, by simp, by simp, by simp, fun q => by simp, fun h => h⟩
  | cons tid rest ih =>
    intro st tok hnd hmem
    obtain ⟨hni, hndr⟩ := List.nodup_cons.mp hnd
    have htid0 : dictGet st.d tid = tok tid := hmem tid (by simp)
    simp only [List.foldl_cons]
    by_cases h1 : (tok tid).getD "MISSING" = "MISSING"
    · rw [tcStep_missing (by rw [htid0]; exact h1)]
      obtain ⟨i1, i2, i3, i4, i5, i6⟩ := ih
        { st with d := dictUpsert st.d tid "MISSING", missing := true } tok hndr
        (by
          intro tid' h'
          simp only [dictGet_upsert]
          rw [if_neg (by intro hh; subst hh; exact hni h')]
          exact hmem tid' (by simp [h']))
      refine ⟨?_, ?_, ?_, ?_, ?_, ?_⟩
      · rw [i1]; simp [h1]
      · rw [i2]; simp [h1]
      · rw [i3]; simp [h1]
      · rw [i4]; simp [h1]
      · intro q
        rw [i5 q]
        by_cases hq : q ∈ rest
        · rw [if_pos hq, if_pos (by simp [hq])]
        · rw [if_neg hq]
          simp only [dictGet_upsert]
          by_cases hqt : q = tid
          · subst hqt
            rw [if_pos rfl, if_pos (by simp), h1]
          · rw [if_neg (fun hh => hqt hh.symm), if_neg (by simp [hq, hqt])]
      · intro hdn
        exact i6 (dictUpsert_nodup _ _ _ hdn)
    · have htok : tok tid = some ((tok tid).getD "MISSING") := by
        cases htk : tok tid with
        | none => rw [htk] at h1; simp at h1
        | some t => simp
      have hrest : ∀ tid' ∈ rest, dictGet st.d tid' = tok tid' :=
        fun tid' h' => hmem tid' (by simp [h'])
      by_cases h2 : (tok tid).getD "MISSING" = "FAILED"
      · rw [tcStep_failed (by rw [htid0]; exact h1) (by rw [htid0]; exact h2)]
        obtain ⟨i1, i2, i3, i4, i5, i6⟩ := ih { st with failedTc := true } tok hndr hrest
        refine ⟨?_, ?_, ?_, ?_, ?_, ?_⟩
        · rw [i1]; simp [h1]
        · rw [i2]; simp [h2]
        · rw [i3]; simp [h1, h2]
        · rw [i4]; simp [show ¬((tok tid).getD "MISSING" = "PASSED") by simp [h2]]
        · intro q
          rw [i5 q]
          by_cases hq : q ∈ rest
          · rw [if_pos hq, if_pos (by simp [hq])]
          · rw [if_neg hq]
            by_cases hqt : q = tid
            · subst hqt
              rw [if_pos (by simp), htid0, htok]
              simp
            · rw [if_neg (by simp [hq, hqt])]
        · exact i6
      · by_cases h3 : (tok tid).getD "MISSING" = "PASSED"
        · rw [tcStep_passed (by rw [htid0]; exact h1) (by rw [htid0]; exact h2)
            (by rw [htid0]; exact h3)]
          obtain ⟨i1, i2, i3, i4, i5, i6⟩ :=
            ih { st with numPassed := st.numPassed + 1 } tok hndr hrest
          refine ⟨?_, ?_, ?_, ?_, ?_, ?_⟩
          · rw [i1]; simp [h1]
          · rw [i2]; simp [h2]
          · rw [i3]; simp [h3]
          · rw [i4]; simp [h3]; omega
          · intro q
            rw [i5 q]
            by_cases hq : q ∈ rest
            · rw [if_pos hq, if_pos (by simp [hq])]
            · rw [if_neg hq]
              by_cases hqt : q = tid
              · subst hqt
                rw [if_pos (by simp), htid0, htok]
                simp
              · rw [if_neg (by simp [hq, hqt])]
          · exact i6
        · rw [tcStep_rt (by rw [htid0]; exact h1) (by rw [htid0]; exact h2)
            (by rw [htid0]; exact h3)]
          obtain ⟨i1, i2, i3, i4, i5, i6⟩ := ih { st with hadRt := true } tok hndr hrest
          refine ⟨?_, ?_, ?_, ?_, ?_, ?_⟩
          · rw [i1]; simp [h1]
          · rw [i2]; simp [h2]
          · rw [i3]; simp [h1, h2, h3]
          · rw [i4]; simp [h3]
          · intro q
            rw [i5 q]
            by_cases hq : q ∈ rest
            · rw [if_pos hq, if_pos (by simp [hq])]
            · rw [if_neg hq]
              by_cases hqt : q = tid
              · subst hqt
                rw [if_pos (by simp), htid0, htok]
                simp
              · rw [if_neg (by simp [hq, hqt])]
          · exact i6

theorem list_any_congr {α : Type} : ∀ (l : List α) (f g : α → Bool),
    (∀ x ∈ l, f x = g x) → l.any f = l.any g := by
  intro l f g h
  induction l with
  | nil => rfl
  | cons x xs ih =>
    simp only [List.any_cons]
    rw [h x (by simp), ih (fun y hy => h y (by simp [hy]))]

theorem list_countP_congr {α : Type} : ∀ (l : List α) (f g : α → Bool),
    (∀ x ∈ l, f x = g x) → l.countP f = l.countP g := by
  intro l f g h
  induction l with
  | nil => rfl
  | cons x xs ih =>
    simp only [List.countP_cons]
    rw [h x (by simp), ih (fun y hy => h y (by simp [hy]))]

/-- Everything `from_execution_result` guarantees about its parsing result,
on a duplicate-free declared-id list. -/
theorem fromER_spec (er : ExecutionResult) (ids : List String) (hnd : ids.Nodup)
    (pr : PredictionResult) (h : from_execution_result er ids = some pr) :
    pr.outcome = specOutcomeAmended er ids ∧
    (∀ q, (dictGet pr.test_case_results q).isSome = true ↔ q ∈ ids) ∧
    (∀ tid ∈ ids, dictGet pr.test_case_results tid =
      some ((specToken er.stdout tid).getD "MISSING")) ∧
    pr.num_tc = ids.length ∧
    pr.num_tc_passed =
      ids.countP (fun tid => (specToken er.stdout tid).getD "MISSING" = "PASSED") := by
  have hd0mem : ∀ tid ∈ ids,
      dictGet ((tcMatches er.stdout).foldl
        (fun d m => if m.1 ∈ ids then dictUpsert d m.1 m.2 else d) []) tid =
        specToken er.stdout tid := by
    intro tid ht
    rw [firstPass_get_mem _ _ _ _ ht]
    rfl
  have hd0out : ∀ q, q ∉ ids →
      dictGet ((tcMatches er.stdout).foldl
        (fun d m => if m.1 ∈ ids then dictUpsert d m.1 m.2 else d) []) q = none := by
    intro q hq
    rw [firstPass_get_out _ _ _ _ hq]
    rfl
  have hd0nodup := firstPass_nodup (tcMatches er.stdout) ids [] (by simp)
  obtain ⟨s1, s2, s3, s4, s5, s6⟩ := secondPass_spec ids
    { d := (tcMatches er.stdout).foldl
        (fun d m => if m.1 ∈ ids then dictUpsert d m.1 m.2 else d) [],
      missing := false, failedTc := false, hadRt := false, numPassed := 0 }
    (specToken er.stdout) hnd hd0mem
  simp only [from_execution_result] at h
  rcases hrt : pyIndex er.command_runtimes er.last_ran_command_idx with _ | rt
  · rw [hrt] at h
    simp at h
  rcases hmm : pyIndex er.command_memory er.last_ran_command_idx with _ | mem
  · rw [hrt, hmm] at h
    simp at h
  rw [hrt, hmm] at h
  simp only [Option.some.injEq] at h
  subst h
  have hkeys : ∀ q, (dictGet (List.foldl tcStep
      { d := (tcMatches er.stdout).foldl
          (fun d m => if m.1 ∈ ids then dictUpsert d m.1 m.2 else d) [],
        missing := false, failedTc := false, hadRt := false, numPassed := 0 } ids).d q).isSome
        = true ↔ q ∈ ids := by
    intro q
    rw [s5 q]
    by_cases hq : q ∈ ids
    · simp [hq]
    · rw [if_neg hq]
      simp only [hd0out q hq]
      simp [hq]
  refine ⟨?_, hkeys, ?_, ?_, ?_⟩
  · -- outcome
    rw [specOutcomeAmended]
    by_cases h1 : er.return_code ≠ 0
    · simp [h1]
    · by_cases h2 : er.had_error = true
      · simp [h1, h2]
      · by_cases h3 : er.timed_out = true
        · simp [h1, h2, h3]
        · by_cases h4 : er.stdout = ""
          · simp [h1, h2, h3, h4]
          · simp [h1, h2, h3, h4, s1, s2, s3, Bool.and_assoc]
  · intro tid ht
    rw [s5 tid, if_pos ht]
  · -- num_tc
    have hdn' := s6 hd0nodup
    have hperm : ((List.foldl tcStep
        { d := (tcMatches er.stdout).foldl
            (fun d m => if m.1 ∈ ids then dictUpsert d m.1 m.2 else d) [],
          missing := false, failedTc := false, hadRt := false, numPassed := 0 }
        ids).d.map Prod.fst).Perm ids := by
      rw [List.perm_ext_iff_of_nodup hdn' hnd]
      intro a
      rw [← hkeys a, dictGet_isSome_iff]
    have hlen := hperm.length_eq
    rw [List.length_map] at hlen
    exact hlen
  · rw [s4]
    simp

theorem specToken_empty (tid : String) : specToken "" tid = none := rfl

theorem specOutcomeAmended_ext (er er' : ExecutionResult) (ids : List String)
    (hne : ids ≠ [])
    (h1 : er'.return_code = er.return_code) (h2 : er'.had_error = er.had_error)
    (h3 : er'.timed_out = er.timed_out)
    (h4 : ∀ tid ∈ ids, specToken er'.stdout tid = specToken er.stdout tid) :
    specOutcomeAmended er' ids = specOutcomeAmended er ids := by
  obtain ⟨tid0, rest0, rfl⟩ : ∃ t r, ids = t :: r := by
    cases ids with
    | nil => exact absurd rfl hne
    | cons t r => exact ⟨t, r, rfl⟩
  rw [specOutcomeAmended, specOutcomeAmended, h1, h2, h3]
  by_cases e1 : er.return_code ≠ 0
  · rw [if_pos e1, if_pos e1]
  · rw [if_neg e1, if_neg e1]
    by_cases e2 : er.had_error = true
    · rw [if_pos e2, if_pos e2]
    · rw [if_neg e2, if_neg e2]
      by_cases e3 : er.timed_out = true
      · rw [if_pos e3, if_pos e3]
      · rw [if_neg e3, if_neg e3]
        by_cases e4 : er.stdout = "" <;> by_cases e4' : er'.stdout = ""
        · rw [if_pos e4', if_pos e4]
        · -- er empty, er' not: every declared token of er' is `none` too
          rw [if_neg e4', if_pos e4]
          rw [if_pos (by
            simp only [List.any_eq_true]
            refine ⟨tid0, by simp, ?_⟩
            rw [h4 tid0 (by simp), e4, specToken_empty]
            simp)]
        · rw [if_pos e4', if_neg e4]
          rw [if_pos (by
            simp only [List.any_eq_true]
            refine ⟨tid0, by simp, ?_⟩
            rw [← h4 tid0 (by simp), e4', specToken_empty]
            simp)]
        · rw [if_neg e4', if_neg e4]
          rw [list_any_congr (tid0 :: rest0)
            (fun tid => decide ((specToken er'.stdout tid).getD "MISSING" = "MISSING"))
            (fun tid => decide ((specToken er.stdout tid).getD "MISSING" = "MISSING"))
            (fun x hx => by simp only [h4 x hx])]
          rw [list_any_congr (tid0 :: rest0)
            (fun tid =>
              let t := (specToken er'.stdout tid).getD "MISSING"
              decide (t ≠ "MISSING") && decide (t ≠ "FAILED") && decide (t ≠ "PASSED"))
            (fun tid =>
              let t := (specToken er.stdout tid).getD "MISSING"
              decide (t ≠ "MISSING") && decide (t ≠ "FAILED") && decide (t ≠ "PASSED"))
            (fun x hx => by simp only [h4 x hx])]
          rw [list_any_congr (tid0 :: rest0)
            (fun tid => decide ((specToken er'.stdout tid).getD "MISSING" = "FAILED"))
            (fun tid => decide ((specToken er.stdout tid).getD "MISSING" = "FAILED"))
            (fun x hx => by simp only [h4 x hx])]

/-! ## Claim C1 -/

/-- **C1** (corrected). For a duplicate-free declared-id list, the outcome
follows the claimed priority with one correction: a declared test counts as
*missing* (`HAD_ERROR`) not only when it has no parsed token but also when
its parsed token is literally the string `MISSING`; the runtime-error check
consequently excludes that token. -/
theorem claim_C1 (er : ExecutionResult) (ids : List String) (hnd : ids.Nodup)
    (pr : PredictionResult) (h : from_execution_result er ids = some pr) :
    pr.outcome = specOutcomeAmended er ids :=
  (fromER_spec er ids hnd pr h).1

def erC1w : ExecutionResult := ExecutionResult.make [⟨[], 10⟩]
  "TEST-1...PASSED\nTEST-2...FAILED" "" 0 (some 1) 0 [some 1] [some 1] false false

def prC1w : PredictionResult :=
  (from_execution_result erC1w ["1", "2"]).getD
    ⟨.PASSED, [], 0, 0, false, none, none, none, ""⟩

/-- Witness for C1 at stdout `TEST-1...PASSED\nTEST-2...FAILED`. -/
theorem claim_C1_witness :
    prC1w.outcome = specOutcomeAmended erC1w ["1", "2"] ∧
    prC1w.outcome = POutcome.FAILED_TEST :=
  ⟨claim_C1 erC1w ["1", "2"] (by decide) prC1w rfl, rfl⟩

def erC1c : ExecutionResult := ExecutionResult.make [⟨[], 10⟩]
  "TEST-0...MISSING" "" 0 (some 1) 0 [some 1] [some 1] false false

/-- **C1 counterexample.** With exit status 0, no flags, non-empty stdout,
and the single declared test `0` carrying the parsed token `MISSING` —
neither `PASSED` nor `FAILED` — the claim's priority list assigns
`HAD_RUNTIME_ERROR`, but the code treats the literal token `MISSING` as a
missing test and assigns `HAD_ERROR`. -/
theorem claim_C1_counterexample :
    (from_execution_result erC1c ["0"]).map PredictionResult.outcome =
      some POutcome.HAD_ERROR ∧
    specOutcomeClaim erC1c ["0"] = POutcome.HAD_RUNTIME_ERROR ∧
    specToken erC1c.stdout "0" = some "MISSING" ∧
    erC1c.return_code = 0 ∧ erC1c.had_error = false ∧ erC1c.timed_out = false ∧
    erC1c.stdout ≠ "" :=
  ⟨rfl, rfl, rfl, rfl, rfl, rfl, by decide⟩

/-! ## Claim C9 -/

/-- **C9** (corrected). For a duplicate-free declared-id list: the key set of
`test_case_results` is exactly the declared ids, every declared id's entry is
its last parsed token (`MISSING` when absent), `num_tc` equals the number of
declared ids, and `num_tc_passed` counts the declared `PASSED` tokens; and —
provided at least one id is declared — the outcome is invariant under any
change of stdout that preserves the declared ids' parsed tokens, so discarded
undeclared lines never influence it.  The non-emptiness proviso is needed:
with zero declared ids an undeclared line still flips the outcome through the
stdout-emptiness check, as the counterexample shows. -/
theorem claim_C9 (er : ExecutionResult) (ids : List String) (hnd : ids.Nodup)
    (pr : PredictionResult) (h : from_execution_result er ids = some pr) :
    pr.num_tc = ids.length ∧
    (∀ q, (dictGet pr.test_case_results q).isSome = true ↔ q ∈ ids) ∧
    (∀ tid ∈ ids, specToken er.stdout tid = none →
      dictGet pr.test_case_results tid = some "MISSING") ∧
    (∀ tid ∈ ids, dictGet pr.test_case_results tid =
      some ((specToken er.stdout tid).getD "MISSING")) ∧
    pr.num_tc_passed = ids.countP
      (fun tid => (specToken er.stdout tid).getD "MISSING" = "PASSED") ∧
    (ids ≠ [] → ∀ er' pr', er'.return_code = er.return_code →
      er'.had_error = er.had_error → er'.timed_out = er.timed_out →
      (∀ tid ∈ ids, specToken er'.stdout tid = specToken er.stdout tid) →
      from_execution_result er' ids = some pr' → pr'.outcome = pr.outcome) := by
  obtain ⟨o1, o2, o3, o4, o5⟩ := fromER_spec er ids hnd pr h
  refine ⟨o4, o2, ?_, o3, o5, ?_⟩
  · intro tid ht hnone
    rw [o3 tid ht, hnone]
    rfl
  · intro hne er' pr' e1 e2 e3 e4 h'
    obtain ⟨o1', -, -, -, -⟩ := fromER_spec er' ids hnd pr' h'
    rw [o1, o1']
    exact specOutcomeAmended_ext er er' ids hne e1 e2 e3 e4

def erC9w : ExecutionResult := ExecutionResult.make [⟨[], 10⟩]
  "TEST-junk...PASSED\nTEST-1...PASSED" "" 0 (some 1) 0 [some 1] [some 1] false false

def prC9w : PredictionResult :=
  (from_execution_result erC9w ["1", "2"]).getD
    ⟨.PASSED, [], 0, 0, false, none, none, none, ""⟩

/-- Witness for C9: one declared id present, one absent, one undeclared line. -/
theorem claim_C9_witness :
    prC9w.num_tc = 2 ∧
    dictGet prC9w.test_case_results "2" = some "MISSING" ∧
    ((dictGet prC9w.test_case_results "junk").isSome = true ↔ "junk" ∈ ["1", "2"]) := by
  refine ⟨(claim_C9 erC9w ["1", "2"] (by decide) prC9w rfl).1,
    (claim_C9 erC9w ["1", "2"] (by decide) prC9w rfl).2.2.1 "2" (by decide) rfl,
    (claim_C9 erC9w ["1", "2"] (by decide) prC9w rfl).2.1 "junk"⟩

def erC9a : ExecutionResult := ExecutionResult.make [⟨[], 10⟩]
  "TEST-0...PASSED" "" 0 (some 1) 0 [some 1] [some 1] false false

def erC9b : ExecutionResult := ExecutionResult.make [⟨[], 10⟩]
  "" "" 0 (some 1) 0 [some 1] [some 1] false false

/-- **C9 counterexample.** With zero declared ids, two executions that differ
only in stdout — one holding a single `TEST` line whose id `0` is not
declared (and is discarded), the other empty — get different outcomes
(`PASSED` vs `HAD_ERROR`), so a discarded line *can* influence the outcome
through the stdout-emptiness check. -/
theorem claim_C9_counterexample :
    (from_execution_result erC9a []).map PredictionResult.outcome =
      some POutcome.PASSED ∧
    (from_execution_result erC9b []).map PredictionResult.outcome =
      some POutcome.HAD_ERROR ∧
    tcMatches erC9a.stdout = [("0", "PASSED")] ∧
    ("0" : String) ∉ ([] : List String) ∧
    erC9a.return_code = erC9b.return_code ∧ erC9a.had_error = erC9b.had_error ∧
    erC9a.timed_out = erC9b.timed_out ∧ erC9a.commands = erC9b.commands :=
  ⟨rfl, rfl, rfl, by simp, rfl, rfl, rfl, rfl⟩

/-! ## Claims C6 and C8: invariants of `execute_code` -/

theorem execLoop_props (behaviors : Nat → ProcessBehavior) (commands : List Command)
    (wall : Nat) : ∀ (rem : List Command) (i : Nat)
    (runtimes memory : List (Option Nat)) (last : Option (String × String × Int))
    (r : ExecutionResult),
    runtimes.length = commands.length → memory.length = commands.length →
    i + rem.length = commands.length →
    (∀ j, i ≤ j → j < commands.length →
      runtimes[j]? = some none ∧ memory[j]? = some none) →
    execLoop behaviors commands wall rem i runtimes memory last = some r →
    r.commands = commands ∧
    (r.all_commands_ran = true ↔ r.last_ran_command_idx + 1 = (commands.length : Int)) ∧
    r.command_runtimes.length = commands.length ∧
    r.command_memory.length = commands.length ∧
    (∀ j : Nat, r.last_ran_command_idx < (j : Int) → j < commands.length →
      r.command_runtimes[j]? = some none ∧ r.command_memory[j]? = some none) := by
  intro rem
  induction rem with
  | nil =>
    intro i runtimes memory last r hlr hlm hilen hnone h
    rw [execLoop.eq_def] at h
    simp only [] at h
    cases last with
    | none => exact Option.noConfusion h
    | some t =>
      obtain ⟨sout, serr, rc⟩ := t
      simp only [Option.some.injEq] at h
      subst h
      refine ⟨rfl, by simp [ExecutionResult.make], hlr, hlm, ?_⟩
      intro j hj1 hj2
      simp only [List.length_nil] at hilen
      exfalso
      simp only [ExecutionResult.make] at hj1
      omega
  | cons c rest ih =>
    intro i runtimes memory last r hlr hlm hilen hnone h
    rw [execLoop] at h
    by_cases hto : (safe_execute c (behaviors i)).timed_out = true
    · rw [if_pos hto] at h
      simp only [Option.some.injEq] at h
      subst h
      refine ⟨rfl, by simp [ExecutionResult.make],
        by simp [ExecutionResult.make, hlr], by simp [ExecutionResult.make, hlm], ?_⟩
      intro j hj1 hj2
      simp only [ExecutionResult.make] at hj1 ⊢
      have hij : i ≠ j := by omega
      have hij' : i ≤ j := by omega
      constructor
      · rw [List.getElem?_set_ne hij]
        exact (hnone j hij' hj2).1
      · rw [List.getElem?_set_ne hij]
        exact (hnone j hij' hj2).2
    · rw [if_neg hto] at h
      by_cases hrc : (safe_execute c (behaviors i)).return_code ≠ 0
      · rw [if_pos hrc] at h
        simp only [Option.some.injEq] at h
        subst h
        refine ⟨rfl, by simp [ExecutionResult.make],
        by simp [ExecutionResult.make, hlr], by simp [ExecutionResult.make, hlm], ?_⟩
        intro j hj1 hj2
        simp only [ExecutionResult.make] at hj1 ⊢
        have hij : i ≠ j := by omega
        have hij' : i ≤ j := by omega
        constructor
        · rw [List.getElem?_set_ne hij]
          exact (hnone j hij' hj2).1
        · rw [List.getElem?_set_ne hij]
          exact (hnone j hij' hj2).2
      · rw [if_neg hrc] at h
        refine ih (i + 1) _ _ _ r (by simp [hlr]) (by simp [hlm])
          (by simp only [List.length_cons] at hilen; omega) ?_ h
        intro j hj1 hj2
        have hij : i ≠ j := by omega
        have hij' : i ≤ j := by omega
        constructor
        · rw [List.getElem?_set_ne hij]
          exact (hnone j hij' hj2).1
        · rw [List.getElem?_set_ne hij]
          exact (hnone j hij' hj2).2

/-- **C6** (confirmed). `__post_init__` forces
`all_commands_ran ⇔ last_ran_command_idx + 1 = len(commands)` on every
constructed `ExecutionResult`; and every result `execute_code` returns keeps
`command_runtimes`/`command_memory` at the length of the command list, with
`None` entries exactly at the commands that never ran. -/
theorem claim_C6 :
    (∀ (commands : List Command) (sout serr : String) (rc : Int)
      (net : Option Nat) (last : Int) (rts mem : List (Option Nat)) (he two : Bool),
      ((ExecutionResult.make commands sout serr rc net last rts mem he two).all_commands_ran
        = true) ↔ last + 1 = (commands.length : Int)) ∧
    (∀ (commands : List Command) (behaviors : Nat → ProcessBehavior) (wall : Nat)
      (r : ExecutionResult), execute_code commands behaviors wall = some r →
      r.commands = commands ∧
      (r.all_commands_ran = true ↔ r.last_ran_command_idx + 1 = (commands.length : Int)) ∧
      r.command_runtimes.length = commands.length ∧
      r.command_memory.length = commands.length ∧
      (∀ j : Nat, r.last_ran_command_idx < (j : Int) → j < commands.length →
        r.command_runtimes[j]? = some none ∧ r.command_memory[j]? = some none)) := by
  constructor
  · intro commands sout serr rc net last rts mem he two
    simp [ExecutionResult.make]
  · intro commands behaviors wall r h
    exact execLoop_props behaviors commands wall commands 0
      (List.replicate commands.length none) (List.replicate commands.length none)
      none r (by simp) (by simp) (by simp)
      (fun j _ hj => by simp [List.getElem?_replicate, hj]) h

def c6Cmds : List Command := [⟨[], 10⟩, ⟨[], 20⟩, ⟨[], 30⟩]

def c6Beh : Nat → ProcessBehavior :=
  fun i => if i = 1 then ⟨false, 0, 99, 7, "o", "e"⟩ else ⟨true, 0, 5, 7, "out", "err"⟩

def c6Res : ExecutionResult := ExecutionResult.make c6Cmds "" "" 0 (some 25) 1
  [some 5, some 20, none] [some 7, some 7, none] false true

/-- Witness for C6: a three-command run whose second command times out. -/
theorem claim_C6_witness :
    ((ExecutionResult.make c6Cmds "x" "y" 2 none 2 [] [] false false).all_commands_ran = true ↔
      (2 : Int) + 1 = (c6Cmds.length : Int)) ∧
    execute_code c6Cmds c6Beh 42 = some c6Res ∧
    c6Res.command_runtimes.length = c6Cmds.length ∧
    (c6Res.all_commands_ran = true ↔ c6Res.last_ran_command_idx + 1 = (c6Cmds.length : Int)) ∧
    c6Res.command_runtimes[2]? = some none :=
  ⟨claim_C6.1 c6Cmds "x" "y" 2 none 2 [] [] false false, rfl,
   (claim_C6.2 c6Cmds c6Beh 42 c6Res rfl).2.2.1,
   (claim_C6.2 c6Cmds c6Beh 42 c6Res rfl).2.1,
   ((claim_C6.2 c6Cmds c6Beh 42 c6Res rfl).2.2.2.2 2 (by decide) (by decide)).1⟩

theorem pyIndex_some {l : List (Option Nat)} {i : Int} (h1 : 0 ≤ i) (h2 : i < l.length) :
    ∃ x, pyIndex l i = some x := by
  refine ⟨l.get ⟨i.toNat, by omega⟩, ?_⟩
  simp only [pyIndex, if_pos h1]
  rw [dif_pos ⟨h1, h2⟩]

theorem fromER_timeout_outcome (er : ExecutionResult) (ids : List String)
    (h1 : er.return_code = 0) (h2 : er.had_error = false) (h3 : er.timed_out = true)
    (h4 : ∃ x, pyIndex er.command_runtimes er.last_ran_command_idx = some x)
    (h5 : ∃ y, pyIndex er.command_memory er.last_ran_command_idx = some y) :
    ∃ pr, from_execution_result er ids = some pr ∧ pr.outcome = POutcome.TIMED_OUT := by
  obtain ⟨x, hx⟩ := h4
  obtain ⟨y, hy⟩ := h5
  simp only [from_execution_result]
  rw [hx, hy]
  refine ⟨_, rfl, ?_⟩
  simp [h1, h2, h3]

theorem execLoop_timeout (behaviors : Nat → ProcessBehavior) (commands : List Command)
    (wall : Nat) (j : Nat) (hj : j < commands.length)
    (htoJ : (behaviors j).finishesWithin = false) :
    ∀ (rem : List Command) (i : Nat) (runtimes memory : List (Option Nat))
    (last : Option (String × String × Int)),
    runtimes.length = commands.length → memory.length = commands.length →
    i + rem.length = commands.length → i ≤ j →
    (∀ k, i ≤ k → k < j →
      (behaviors k).finishesWithin = true ∧ (behaviors k).return_code = 0) →
    (∀ k, i ≤ k → k < commands.length →
      runtimes[k]? = some none ∧ memory[k]? = some none) →
    ∃ r, execLoop behaviors commands wall rem i runtimes memory last = some r ∧
      r.timed_out = true ∧ r.last_ran_command_idx = (j : Int) ∧
      r.return_code = 0 ∧ r.had_error = false ∧
      r.command_runtimes.length = commands.length ∧
      r.command_memory.length = commands.length ∧
      (∀ k : Nat, j < k → k < commands.length → r.command_runtimes[k]? = some none) := by
  intro rem
  induction rem with
  | nil =>
    intro i runtimes memory last hlr hlm hilen hij _ _
    exfalso
    simp only [List.length_nil] at hilen
    omega
  | cons c rest ih =>
    intro i runtimes memory last hlr hlm hilen hij hbefore hnone
    rw [execLoop]
    by_cases he : i = j
    · subst he
      have hsto : (safe_execute c (behaviors i)).timed_out = true := by
        simp [safe_execute, htoJ]
      rw [if_pos hsto]
      refine ⟨_, rfl, rfl, rfl, rfl, rfl, by simp [ExecutionResult.make, hlr],
        by simp [ExecutionResult.make, hlm], ?_⟩
      intro k hk1 hk2
      simp only [ExecutionResult.make]
      rw [List.getElem?_set_ne (by omega)]
      exact (hnone k (by omega) hk2).1
    · have hlt : i < j := by omega
      obtain ⟨hfin, hrc⟩ := hbefore i (le_refl i) hlt
      have hsto : (safe_execute c (behaviors i)).timed_out = false := by
        simp [safe_execute, hfin]
      have hsrc : (safe_execute c (behaviors i)).return_code = 0 := by
        simp [safe_execute, hfin, hrc]
      rw [if_neg (by simp [hsto]), if_neg (by simp [hsrc])]
      refine ih (i + 1) _ _ _ (by simp [hlr]) (by simp [hlm])
        (by simp only [List.length_cons] at hilen; omega) (by omega)
        (fun k hk1 hk2 => hbefore k (by omega) hk2) ?_
      intro k hk1 hk2
      constructor
      · rw [List.getElem?_set_ne (by omega)]
        exact (hnone k (by omega) hk2).1
      · rw [List.getElem?_set_ne (by omega)]
        exact (hnone k (by omega) hk2).2

/-- **C8** (confirmed). If every command before index `j` finishes in time
with exit status 0 and command `j` outlives its wall-clock timer, then
`execute_code` **returns** (no timeout exception escapes) an
`ExecutionResult` with `timed_out = true`, `last_ran_command_idx = j`, exit
status 0, no error flag, and the commands after `j` never run; the
`PredictionResult` derived from it has outcome `TIMED_OUT`. -/
theorem claim_C8 (commands : List Command) (behaviors : Nat → ProcessBehavior)
    (wall : Nat) (ids : List String) (j : Nat) (hj : j < commands.length)
    (hbefore : ∀ i, i < j →
      (behaviors i).finishesWithin = true ∧ (behaviors i).return_code = 0)
    (hto : (behaviors j).finishesWithin = false) :
    ∃ r pr, execute_code commands behaviors wall = some r ∧
      r.timed_out = true ∧ r.last_ran_command_idx = (j : Int) ∧
      r.return_code = 0 ∧ r.had_error = false ∧
      (∀ k : Nat, j < k → k < commands.length → r.command_runtimes[k]? = some none) ∧
      from_execution_result r ids = some pr ∧ pr.outcome = POutcome.TIMED_OUT := by
  obtain ⟨r, hr, p1, p2, p3, p4, p5, p6, p7⟩ :=
    execLoop_timeout behaviors commands wall j hj hto commands 0
      (List.replicate commands.length none) (List.replicate commands.length none) none
      (by simp) (by simp) (by simp) (by omega)
      (fun k _ hk => hbefore k hk)
      (fun k _ hk => by simp [List.getElem?_replicate, hk])
  obtain ⟨pr, hpr, hout⟩ := fromER_timeout_outcome r ids p3 p4 p1
    (by
      rw [p2]
      exact pyIndex_some (by omega) (by rw [p5]; exact_mod_cast hj))
    (by
      rw [p2]
      exact pyIndex_some (by omega) (by rw [p6]; exact_mod_cast hj))
  exact ⟨r, pr, hr, p1, p2, p3, p4, p7, hpr, hout⟩

def c8Cmds : List Command := [⟨[], 10⟩, ⟨[], 20⟩, ⟨[], 30⟩]

def c8Beh : Nat → ProcessBehavior :=
  fun i => if i = 1 then ⟨false, 0, 99, 7, "o", "e"⟩ else ⟨true, 0, 5, 7, "out", "err"⟩

/-- Witness for C8: three commands, the second times out. -/
theorem claim_C8_witness :
    ∃ r pr, execute_code c8Cmds c8Beh 42 = some r ∧
      r.timed_out = true ∧ r.last_ran_command_idx = ((1 : Nat) : Int) ∧
      r.return_code = 0 ∧ r.had_error = false ∧
      (∀ k : Nat, 1 < k → k < c8Cmds.length → r.command_runtimes[k]? = some none) ∧
      from_execution_result r ["1"] = some pr ∧ pr.outcome = POutcome.TIMED_OUT :=
  claim_C8 c8Cmds c8Beh 42 ["1"] 1 (by decide)
    (fun i hi => by
      have h0 : i = 0 := by omega
      subst h0
      exact ⟨rfl, rfl⟩)
    rfl

/-! # `validate_correct_type` (`schema_type.py` lines 243–357), claim C10

Python values as parsed from JSON (plus the `tuple` the validator can
produce for a null tuple).  Floats are modelled as integral-valued
(`float (v : Int)`): the claims never depend on fractional values, only on
the runtime type tags, `float(int)` conversion, and equality. -/

inductive PyVal where
  | none
  | bool (b : Bool)
  | int (n : Int)
  | float (v : Int)
  | str (s : String)
  | list (xs : List PyVal)
  | tuple (xs : List PyVal)
  | dict (entries : List (PyVal × PyVal))

/-- `value is None`. -/
def PyVal.isNone : PyVal → Bool
  | .none => true
  | _ => false

inductive PyType where
  | int | bool | str | float | list | dict | tuple
  deriving DecidableEq

/-- `utils.GENERIC_TO_PYTHON_TYPE` (`utils.py` lines 32–49). -/
def GENERIC_TO_PYTHON_TYPE (ts : String) : Option PyType :=
  if ts = "list" then some .list
  else if ts = "integer" then some .int
  else if ts = "long" then some .int
  else if ts = "float" then some .float
  else if ts = "double" then some .float
  else if ts = "boolean" then some .bool
  else if ts = "string" then some .str
  else if ts = "set" then some .list
  else if ts = "map" then some .dict
  else if ts = "tuple" then some .tuple
  else if ts = "character" then some .str
  else none

/-- `expected_type()`: the empty value of each Python type. -/
def pyEmpty : PyType → PyVal
  | .int => .int 0
  | .bool => .bool false
  | .str => .str ""
  | .float => .float 0
  | .list => .list []
  | .dict => .dict []
  | .tuple => .tuple []

/-- `isinstance`, with `bool` a subclass of `int`. -/
def pyIsInstance (v : PyVal) : PyType → Bool
  | .int => match v with | .int _ => true | .bool _ => true | _ => false
  | .bool => match v with | .bool _ => true | _ => false
  | .float => match v with | .float _ => true | _ => false
  | .str => match v with | .str _ => true | _ => false
  | .list => match v with | .list _ => true | _ => false
  | .dict => match v with | .dict _ => true | _ => false
  | .tuple => match v with | .tuple _ => true | _ => false

/-- `type(v).__name__`. -/
def pyTypeName : PyVal → String
  | .none => "NoneType"
  | .bool _ => "bool"
  | .int _ => "int"
  | .float _ => "float"
  | .str _ => "str"
  | .list _ => "list"
  | .tuple _ => "tuple"
  | .dict _ => "dict"

/-- `float(value)` for an `int`-instance value (`bool` included). -/
def pyToFloat : PyVal → PyVal
  | .int n => .float n
  | .bool b => .float (if b then 1 else 0)
  | v => v

-- Python `==` (used for dict-key membership): numeric values compare across
-- `bool`/`int`/`float`.
mutual
def pyEq : PyVal → PyVal → Bool
  | .none, .none => true
  | .bool a, .bool b => a = b
  | .bool a, .int n => (if a then (1 : Int) else 0) = n
  | .int n, .bool a => n = (if a then (1 : Int) else 0)
  | .bool a, .float q => (if a then (1 : Int) else 0) = q
  | .float q, .bool a => q = (if a then (1 : Int) else 0)
  | .int n, .int m => n = m
  | .int n, .float q => n = q
  | .float q, .int n => q = n
  | .float q, .float r => q = r
  | .str s, .str t => s = t
  | .list xs, .list ys => pyEqList xs ys
  | .tuple xs, .tuple ys => pyEqList xs ys
  | .dict xs, .dict ys => pyEqPairs xs ys
  | _, _ => false
  termination_by a b => sizeOf a + sizeOf b
  decreasing_by
  all_goals
    simp only [PyVal.list.sizeOf_spec, PyVal.tuple.sizeOf_spec, PyVal.dict.sizeOf_spec]
    omega

def pyEqList : List PyVal → List PyVal → Bool
  | [], [] => true
  | x :: xs, y :: ys => pyEq x y && pyEqList xs ys
  | _, _ => false
  termination_by a b => sizeOf a + sizeOf b
  decreasing_by
  all_goals
    simp only [List.cons.sizeOf_spec]
    omega

def pyEqPairs : List (PyVal × PyVal) → List (PyVal × PyVal) → Bool
  | [], [] => true
  | (k, v) :: xs, (k', v') :: ys => pyEq k k' && (pyEq v v' && pyEqPairs xs ys)
  | _, _ => false
  termination_by a b => sizeOf a + sizeOf b
  decreasing_by
  all_goals
    simp only [List.cons.sizeOf_spec, Prod.mk.sizeOf_spec]
    omega
end

/-- Python whitespace stripped by `int(str)`. -/
def isPySpace (c : Char) : Bool :=
  c = ' ' ∨ c = '\t' ∨ c = '\n' ∨ c = '\r' ∨ c = Char.ofNat 11 ∨ c = Char.ofNat 12

def digitsValGo : List Char → Int → Option Int
  | [], acc => some acc
  | '_' :: d :: rest, acc =>
    if d.isDigit then digitsValGo rest (acc * 10 + ((d.toNat - '0'.toNat : Nat) : Int))
    else Option.none
  | [c], acc =>
    if c.isDigit then some (acc * 10 + ((c.toNat - '0'.toNat : Nat) : Int))
    else Option.none
  | c :: rest, acc =>
    if c.isDigit then digitsValGo rest (acc * 10 + ((c.toNat - '0'.toNat : Nat) : Int))
    else Option.none

/-- Digit run with single underscores allowed between digits. -/
def digitsVal : List Char → Option Int
  | [] => Option.none
  | c :: rest =>
    if c.isDigit then digitsValGo rest ((c.toNat - '0'.toNat : Nat) : Int)
    else Option.none

/-- Python `int(s)` on a string: strip whitespace, optional sign, digits with
underscores between digits; anything else raises `ValueError` (`none`). -/
def pyIntOfString (s : String) : Option Int :=
  let l := s.data.dropWhile isPySpace
  let l := (l.reverse.dropWhile isPySpace).reverse
  match l with
  | '+' :: rest => digitsVal rest
  | '-' :: rest => (digitsVal rest).map Neg.neg
  | _ => digitsVal l

/-- Python `int(k)` for dict keys that passed the `(str, int)` isinstance
check. -/
def pyInt : PyVal → Option Int
  | .int n => some n
  | .bool b => some (if b then 1 else 0)
  | .str s => pyIntOfString s
  | .float v => some v
  | _ => Option.none

/-- Python `str(k)`. -/
def pyStr : PyVal → String
  | .str s => s
  | .int n => toString n
  | .bool b => if b then "True" else "False"
  | _ => ""

def pyDictPop : List (PyVal × PyVal) → PyVal → Option (PyVal × List (PyVal × PyVal))
  | [], _ => Option.none
  | (k', v') :: rest, k =>
    if pyEq k' k then some (v', rest)
    else (pyDictPop rest k).map (fun p => (p.1, (k', v') :: p.2))

def pyDictSet : List (PyVal × PyVal) → PyVal → PyVal → List (PyVal × PyVal)
  | [], k, v => [(k, v)]
  | (k', v') :: rest, k, v =>
    if pyEq k' k then (k', v) :: rest else (k', v') :: pyDictSet rest k v

/-- `len(set(type(v).__name__ for v in value)) <= 1`. -/
def singleTypeCheck : List String → Bool
  | [] => true
  | n :: rest => rest.all (fun m => m = n)

/-- The key loop of the map branch: isinstance check, cast (to `int` when the
declared key type maps to Python `int`, else `str`), duplicate detection, and
the insertion-ordered `new_key_map`. -/
def buildKeyMap (ekt : PyType) : List PyVal → List (PyVal × PyVal) →
    Except String (List (PyVal × PyVal))
  | [], acc => .ok acc
  | k :: rest, acc =>
    if ¬(pyIsInstance k .str = true ∨ pyIsInstance k .int = true) then
      .error "Raw key is not a string or int"
    else
      match (if ekt = .int then (pyInt k).map PyVal.int else some (.str (pyStr k))) with
      | Option.none =>
        .error "Key is expected to be an int, but could not convert the string to int."
      | some nk =>
        if acc.any (fun p => pyEq p.1 nk) then .error "Duplicate key found in value"
        else buildKeyMap ekt rest (acc ++ [(nk, k)])

/-- `for new_key, old_key in new_key_map.items(): value[new_key] = value.pop(old_key)`.
A failing `pop` is Python's `KeyError` (unreachable on real dicts). -/
def rekeyLoop : List (PyVal × PyVal) → List (PyVal × PyVal) →
    Except String (List (PyVal × PyVal))
  | [], value => .ok value
  | (nk, ok') :: rest, value =>
    match pyDictPop value ok' with
    | Option.none => .error "KeyError"
    | some (v, value') => rekeyLoop rest (pyDictSet value' nk v)

theorem SchemaType.sizeOf_elem_lt_self {e st : SchemaType} (h : e ∈ st.elements) :
    sizeOf e < sizeOf st := by
  cases st with
  | mk ts lt l k => exact SchemaType.sizeOf_elem_lt h ts lt k

theorem sizeOf_listPayload_le {value : PyVal} {expected : PyType} {vs : List PyVal}
    (hv : (if PyVal.isNone value then pyEmpty expected else value) = .list vs) :
    sizeOf vs ≤ sizeOf value := by
  by_cases h : PyVal.isNone value = true
  · rw [if_pos h] at hv
    have hval : value = PyVal.none := by
      cases value
      case none => rfl
      all_goals simp [PyVal.isNone] at h
    subst hval
    cases expected <;> simp only [pyEmpty] at hv <;> try cases hv
    all_goals simp
  · rw [if_neg h] at hv
    subst hv
    simp only [PyVal.list.sizeOf_spec]
    omega

theorem sizeOf_dictPayload_le {value : PyVal} {expected : PyType}
    {es : List (PyVal × PyVal)}
    (hv : (if PyVal.isNone value then pyEmpty expected else value) = .dict es) :
    sizeOf es ≤ sizeOf value := by
  by_cases h : PyVal.isNone value = true
  · rw [if_pos h] at hv
    have hval : value = PyVal.none := by
      cases value
      case none => rfl
      all_goals simp [PyVal.isNone] at h
    subst hval
    cases expected <;> simp only [pyEmpty] at hv <;> try cases hv
    all_goals simp
  · rw [if_neg h] at hv
    subst hv
    simp only [PyVal.dict.sizeOf_spec]
    omega

/-! The validator itself.  The Python body normalises `None` to the empty
value, checks `isinstance` (coercing an `int` to `float` when a float is
expected — in which case `type_str` is `float`/`double`, so the container
branches below are skipped), then recurses into list/set elements or map
values, and for maps casts and re-keys the keys.  `elements[0]` is only
evaluated when the container is non-empty (so the `IndexError` arm fires only
then), and `schema_type.key_type.type_str` / the `GENERIC_TO_PYTHON_TYPE`
subscript raise `AttributeError` / `KeyError` when the key type is absent or
unknown. -/
mutual
def validate_correct_type (st : SchemaType) (value : PyVal) (chain : List String) :
    Except String PyVal :=
  match GENERIC_TO_PYTHON_TYPE st.typeStr with
  | Option.none => .error ("Unknown type " ++ st.typeStr)
  | some expected =>
    if !allows_null st.typeStr && PyVal.isNone value then
      .error (st.typeStr ++ " does not support null")
    else
      if hinst : pyIsInstance (if PyVal.isNone value then pyEmpty expected else value)
          expected = true then
        if st.typeStr = "list" ∨ st.typeStr = "set" then
          match hv : (if PyVal.isNone value then pyEmpty expected else value) with
          | .list vs =>
            match validateList st vs (chain ++ [st.typeStr]) with
            | .error e => .error e
            | .ok nvs =>
              if singleTypeCheck (nvs.map pyTypeName) then .ok (.list nvs)
              else .error (st.typeStr ++ " does not support multiple element types.")
          | _ => .error "unreachable: isinstance list"
        else if st.typeStr = "map" then
          match hv : (if PyVal.isNone value then pyEmpty expected else value) with
          | .dict entries =>
            match validateDictVals st entries (chain ++ [st.typeStr]) with
            | .error e => .error e
            | .ok entries1 =>
              match st.keyType with
              | Option.none => .error "AttributeError"
              | some kt =>
                match GENERIC_TO_PYTHON_TYPE kt.typeStr with
                | Option.none => .error "KeyError"
                | some ekt =>
                  match buildKeyMap ekt (entries1.map Prod.fst) [] with
                  | .error e => .error e
                  | .ok km =>
                    match rekeyLoop km entries1 with
                    | .error e => .error e
                    | .ok entries2 =>
                      if singleTypeCheck (entries2.map (fun p => pyTypeName p.2)) then
                        if singleTypeCheck (entries2.map (fun p => pyTypeName p.1)) then
                          .ok (.dict entries2)
                        else
                          .error (st.typeStr ++ " does not support multiple element types.")
                      else
                        .error (st.typeStr ++ " does not support multiple element types.")
          | _ => .error "unreachable: isinstance dict"
        else .ok (if PyVal.isNone value then pyEmpty expected else value)
      else
        if expected = .float ∧
            pyIsInstance (if PyVal.isNone value then pyEmpty expected else value)
              .int = true then
          .ok (pyToFloat (if PyVal.isNone value then pyEmpty expected else value))
        else .error "Value is not of type"
  termination_by 2 * (sizeOf st + sizeOf value) + 1
  decreasing_by
  · have h1 := sizeOf_listPayload_le hv
    omega
  · have h1 := sizeOf_dictPayload_le hv
    omega

def validateList (st : SchemaType) (vs : List PyVal) (chain : List String) :
    Except String (List PyVal) :=
  match vs with
  | [] => .ok []
  | v :: rest =>
    match hel : st.elements with
    | [] => .error "IndexError: list index out of range"
    | e0 :: _ =>
      match validate_correct_type e0 v chain with
      | .error e => .error e
      | .ok nv =>
        match validateList st rest chain with
        | .error e => .error e
        | .ok nrest => .ok (nv :: nrest)
  termination_by 2 * (sizeOf st + sizeOf vs)
  decreasing_by
  · have h1 : sizeOf e0 < sizeOf st :=
      SchemaType.sizeOf_elem_lt_self (hel ▸ List.mem_cons_self _ _)
    simp only [List.cons.sizeOf_spec]
    omega
  · simp only [List.cons.sizeOf_spec]
    omega

def validateDictVals (st : SchemaType) (entries : List (PyVal × PyVal))
    (chain : List String) : Except String (List (PyVal × PyVal)) :=
  match entries with
  | [] => .ok []
  | (k, v) :: rest =>
    match hel : st.elements with
    | [] => .error "IndexError: list index out of range"
    | e0 :: _ =>
      match validate_correct_type e0 v chain with
      | .error e => .error e
      | .ok nv =>
        match validateDictVals st rest chain with
        | .error e => .error e
        | .ok nrest => .ok ((k, nv) :: nrest)
  termination_by 2 * (sizeOf st + sizeOf entries)
  decreasing_by
  · have h1 : sizeOf e0 < sizeOf st :=
      SchemaType.sizeOf_elem_lt_self (hel ▸ List.mem_cons_self _ _)
    simp only [List.cons.sizeOf_spec, Prod.mk.sizeOf_spec]
    omega
  · simp only [List.cons.sizeOf_spec, Prod.mk.sizeOf_spec]
    omega
end

/-! # Claim C7: bracket sugar and bracket/angle mixing in the parser -/

theorem containsBrackets_append_brackets :
    ∀ base : List Char, containsBrackets (base ++ ['[', ']']) = true := by
  intro base
  induction base with
  | nil => rfl
  | cons a base2 ih =>
    cases base2 with
    | nil => simp [containsBrackets]
    | cons b rest2 =>
      simp only [List.cons_append] at ih ⊢
      simp [containsBrackets, ih]

theorem removeBrackets_append_brackets :
    ∀ base : List Char, '[' ∉ base → removeBrackets (base ++ ['[', ']']) = base := by
  intro base
  induction base with
  | nil => intro _; rfl
  | cons a base2 ih =>
    intro h
    simp only [List.mem_cons, not_or] at h
    have ha : ¬(a = '[') := fun hh => h.1 hh.symm
    cases base2 with
    | nil =>
      simp only [List.nil_append, List.cons_append]
      rw [removeBrackets, if_neg (fun hc => ha hc.1)]
      rfl
    | cons b rest2 =>
      have hmem : '[' ∉ b :: rest2 := h.2
      simp only [List.cons_append] at ih ⊢
      rw [removeBrackets, if_neg (fun hc => ha hc.1), ih hmem]

/-- C7: the generic-type-string parser rejects strings in which the counts of
the two angle brackets differ, interprets a trailing `[]` on a bracket- and
angle-free string as `list<...>` sugar, and — contrary to the claim — applies
the `[]`/`<>` mixing check to the whole remaining string at every call, so ANY
string containing both `[]` and an angle bracket is rejected, even when the
bracket sugar and the angle syntax occur at different nodes. -/
theorem claim_C7 (l base : List Char)
    (hnb : '[' ∉ base) (hna : '<' ∉ base) (hnc : '>' ∉ base) :
    (countChar '<' l ≠ countChar '>' l →
      fromGenericChars l =
        .error (quoteStr (String.mk l) ++ " does not have same number of <>")) ∧
    (containsBrackets l = true → countChar '<' l = countChar '>' l →
      countChar '<' l ≠ 0 →
      fromGenericChars l = .error (quoteStr (String.mk l) ++ " has both [] and <>")) ∧
    (fromGenericChars (base ++ ['[', ']']) =
      match fromGenericChars base with
      | .error e => .error e
      | .ok inner => SchemaType.make "list" "NOT_SET" [inner] Option.none) := by
  refine ⟨fun hne => ?_, fun hbr heq hnz => ?_, ?_⟩
  · rw [fromGenericChars, if_pos hne]
  · rw [fromGenericChars, if_neg (fun hc => hc heq), dif_pos hbr, if_pos hnz]
  · have hlt : countChar '<' (base ++ ['[', ']']) = 0 := by
      simp only [countChar, List.count_append]
      rw [List.count_eq_zero.mpr hna]
      rfl
    have hgt : countChar '>' (base ++ ['[', ']']) = 0 := by
      simp only [countChar, List.count_append]
      rw [List.count_eq_zero.mpr hnc]
      rfl
    rw [fromGenericChars, if_neg (by rw [hlt, hgt]; exact fun h => h rfl),
      dif_pos (containsBrackets_append_brackets base), if_neg (by rw [hlt]; exact fun h => h rfl),
      removeBrackets_append_brackets base hnb]

theorem claim_C7_witness :
    (fromGenericChars ("integer[]".data) =
      match fromGenericChars ("integer".data) with
      | .error e => .error e
      | .ok inner => SchemaType.make "list" "NOT_SET" [inner] Option.none) ∧
    fromGenericChars ("list<integer".data) =
      .error (quoteStr (String.mk ("list<integer".data)) ++
        " does not have same number of <>") := by
  have h := claim_C7 ("list<integer".data) ("integer".data)
    (by decide) (by decide) (by decide)
  exact ⟨h.2.2, h.1 (by decide)⟩

/-- C7 counterexample: the claim's own example `map<string;integer[]>`, with
bracket sugar and angle syntax at different nodes, is rejected by the parser
rather than accepted. -/
theorem claim_C7_counterexample :
    fromGenericTypeString "map<string;integer[]>" =
      .error "\x22map<string;integer[]>\x22 has both [] and <>" := by
  rw [fromGenericTypeString, fromGenericChars,
    if_neg (by decide), dif_pos (by decide), if_pos (by decide)]
  rfl

/-! # Claim C10: key casting in the `map` branch of `validate_correct_type` -/

theorem pyEq_refl_scalar (k : PyVal)
    (hk : pyIsInstance k .str = true ∨ pyIsInstance k .int = true) :
    pyEq k k = true := by
  cases k <;> simp [pyIsInstance] at hk <;> simp [pyEq]

theorem pyEq_scalar_int {k : PyVal} {n : Int}
    (hk : pyIsInstance k .str = true ∨ pyIsInstance k .int = true)
    (h : pyEq k (.int n) = true) : pyInt k = some n := by
  cases k <;> simp [pyIsInstance] at hk <;> simp [pyEq] at h <;> simp [pyInt, h]

theorem pyDictSet_append (l : List (PyVal × PyVal)) (k v : PyVal)
    (h : ∀ q ∈ l, pyEq q.1 k = false) : pyDictSet l k v = l ++ [(k, v)] := by
  induction l with
  | nil => rfl
  | cons q rest ih =>
    cases q with
    | mk qk qv =>
      have hq : pyEq qk k = false := h (qk, qv) (List.mem_cons_self _ _)
      rw [pyDictSet, if_neg (by simp [hq]),
        ih (fun q hq2 => h q (List.mem_cons_of_mem _ hq2))]
      rfl

theorem validateDictVals_keys (st : SchemaType) :
    ∀ (entries out : List (PyVal × PyVal)) (chain : List String),
      validateDictVals st entries chain = .ok out →
      out.map Prod.fst = entries.map Prod.fst := by
  intro entries
  induction entries with
  | nil =>
    intro out chain h
    rw [validateDictVals] at h
    injection h with h2
    rw [← h2]
  | cons p rest ih =>
    intro out chain h
    cases p with
    | mk k v =>
      rw [validateDictVals] at h
      rcases hel : st.elements with _ | ⟨e0, es⟩ <;> rw [hel] at h <;>
        simp only [] at h
      · exact Except.noConfusion h
      · rcases hvc : validate_correct_type e0 v chain with e | nv <;>
          rw [hvc] at h <;> simp only [] at h
        · exact Except.noConfusion h
        · rcases hrec : validateDictVals st rest chain with e | nrest <;>
            rw [hrec] at h <;> simp only [] at h
          · exact Except.noConfusion h
          · injection h with h2
            rw [← h2]
            simp only [List.map_cons]
            rw [ih nrest chain hrec]

theorem buildKeyMap_ok :
    ∀ (ks : List PyVal) (acc km : List (PyVal × PyVal)),
      buildKeyMap .int ks acc = .ok km →
      km = acc ++ ks.map (fun k => (PyVal.int ((pyInt k).getD 0), k)) ∧
      (∀ k ∈ ks, (pyIsInstance k .str = true ∨ pyIsInstance k .int = true) ∧
        (pyInt k).isSome = true) ∧
      (List.Pairwise (fun a b : PyVal × PyVal => pyEq a.1 b.1 = false) acc →
       List.Pairwise (fun a b : PyVal × PyVal => pyEq a.1 b.1 = false) km) := by
  intro ks
  induction ks with
  | nil =>
    intro acc km h
    rw [buildKeyMap] at h
    injection h with h2
    subst h2
    refine ⟨by simp, by simp, fun hacc => hacc⟩
  | cons k rest ih =>
    intro acc km h
    rw [buildKeyMap] at h
    by_cases hraw : pyIsInstance k .str = true ∨ pyIsInstance k .int = true
    · rw [if_neg (not_not_intro hraw), if_pos rfl] at h
      rcases hpi : pyInt k with _ | n <;> rw [hpi] at h <;>
        simp only [Option.map_none', Option.map_some'] at h <;> try simp only [] at h
      · exact Except.noConfusion h
      · by_cases hdup : acc.any (fun p => pyEq p.1 (PyVal.int n)) = true
        · rw [if_pos hdup] at h
          exact Except.noConfusion h
        · rw [if_neg hdup] at h
          obtain ⟨hkm, hmem, hpw⟩ := ih (acc ++ [(PyVal.int n, k)]) km h
          refine ⟨?_, ?_, ?_⟩
          · rw [hkm, List.append_assoc]
            simp [hpi]
          · intro k2 hk2
            rcases List.mem_cons.mp hk2 with hh | hh
            · subst hh
              exact ⟨hraw, by rw [hpi]; rfl⟩
            · exact hmem k2 hh
          · intro hacc
            apply hpw
            rw [List.pairwise_append]
            refine ⟨hacc, by simp, ?_⟩
            intro a ha b hb
            rw [List.mem_singleton] at hb
            subst hb
            simp only [Bool.not_eq_true, List.any_eq_false] at hdup
            have := hdup a ha
            simpa using this
    · rw [if_pos hraw] at h
      exact Except.noConfusion h

theorem rekeyLoop_spec :
    ∀ (km value : List (PyVal × PyVal)) (post : List PyVal),
      value.map Prod.fst = km.map Prod.snd ++ post →
      (∀ k ∈ km.map Prod.snd, pyEq k k = true) →
      (∀ p ∈ post, ∀ nk ∈ km.map Prod.fst, pyEq p nk = false) →
      List.Pairwise (fun a b : PyVal × PyVal => pyEq b.2 a.1 = false) km →
      List.Pairwise (fun a b : PyVal × PyVal => pyEq a.1 b.1 = false) km →
      ∃ out, rekeyLoop km value = .ok out ∧
        out.map Prod.fst = post ++ km.map Prod.fst := by
  intro km
  induction km with
  | nil =>
    intro value post hv _ _ _ _
    refine ⟨value, rfl, ?_⟩
    simp only [List.map_nil, List.nil_append] at hv
    simp [hv]
  | cons pr rest ih =>
    rcases pr with ⟨nk0, old0⟩
    intro value post hv hrefl hpn hno hnn
    rcases value with _ | ⟨⟨vk, vv⟩, vt⟩
    · simp at hv
    · simp only [List.map_cons, List.cons_append] at hv
      injection hv with hvk hvt
      subst hvk
      have hpop : pyDictPop ((vk, vv) :: vt) vk = some (vv, vt) := by
        rw [pyDictPop, if_pos (hrefl vk (by simp))]
      have hset : pyDictSet vt nk0 vv = vt ++ [(nk0, vv)] := by
        apply pyDictSet_append
        intro q hq
        have hqf : q.1 ∈ rest.map Prod.snd ++ post := by
          rw [← hvt]
          exact List.mem_map_of_mem Prod.fst hq
        rcases List.mem_append.mp hqf with hh | hh
        · rcases List.mem_map.mp hh with ⟨b, hb, hbq⟩
          have hthis := (List.pairwise_cons.mp hno).1 b hb
          rw [hbq] at hthis
          exact hthis
        · exact hpn q.1 hh nk0 (by simp)
      have hinv : (vt ++ [(nk0, vv)]).map Prod.fst =
          rest.map Prod.snd ++ (post ++ [nk0]) := by
        simp only [List.map_append, List.map_cons, List.map_nil, hvt]
        simp [List.append_assoc]
      have hrefl2 : ∀ k ∈ rest.map Prod.snd, pyEq k k = true := by
        intro k hk
        exact hrefl k (by simp [hk])
      have hpn2 : ∀ p ∈ post ++ [nk0], ∀ nk ∈ rest.map Prod.fst,
          pyEq p nk = false := by
        intro p hp nk hnk
        rcases List.mem_append.mp hp with hh | hh
        · exact hpn p hh nk (by simp [hnk])
        · rw [List.mem_singleton] at hh
          subst hh
          rcases List.mem_map.mp hnk with ⟨b, hb, hbq⟩
          have hthis := (List.pairwise_cons.mp hnn).1 b hb
          rw [hbq] at hthis
          exact hthis
      obtain ⟨out, hout, hkeys⟩ := ih (vt ++ [(nk0, vv)]) (post ++ [nk0])
        hinv hrefl2 hpn2 (List.pairwise_cons.mp hno).2 (List.pairwise_cons.mp hnn).2
      refine ⟨out, ?_, ?_⟩
      · rw [rekeyLoop, hpop]
        simp only []
        rw [hset]
        exact hout
      · rw [hkeys]
        simp [List.append_assoc]

theorem validate_map_int_spec (vt kt : SchemaType) (lt : String)
    (entries : List (PyVal × PyVal)) (chain : List String)
    (hg : GENERIC_TO_PYTHON_TYPE kt.typeStr = some PyType.int) :
    validate_correct_type (SchemaType.mk "map" lt [vt] (some kt)) (.dict entries)
        chain =
      match validateDictVals (SchemaType.mk "map" lt [vt] (some kt)) entries
          (chain ++ ["map"]) with
      | .error e => .error e
      | .ok entries1 =>
        match buildKeyMap .int (entries1.map Prod.fst) [] with
        | .error e => .error e
        | .ok km =>
          match rekeyLoop km entries1 with
          | .error e => .error e
          | .ok entries2 =>
            if singleTypeCheck (entries2.map (fun p => pyTypeName p.2)) then
              if singleTypeCheck (entries2.map (fun p => pyTypeName p.1)) then
                .ok (.dict entries2)
              else .error ("map" ++ " does not support multiple element types.")
            else .error ("map" ++ " does not support multiple element types.") := by
  rw [validate_correct_type]
  simp only [SchemaType.typeStr_mk, SchemaType.keyType_mk]
  have h1 : GENERIC_TO_PYTHON_TYPE "map" = some PyType.dict := rfl
  rw [h1]
  simp only []
  have h2 : (!allows_null "map" && (PyVal.dict entries).isNone) = false := rfl
  rw [h2, if_neg Bool.false_ne_true]
  have h3 : (if (PyVal.dict entries).isNone = true then pyEmpty PyType.dict
      else PyVal.dict entries) = PyVal.dict entries := rfl
  rw [h3]
  have h4 : pyIsInstance (PyVal.dict entries) PyType.dict = true := rfl
  rw [dif_pos h4]
  rw [if_neg (show ¬(("map" : String) = "list" ∨ ("map" : String) = "set") by decide)]
  rw [if_pos trivial]
  simp only []
  rw [hg]

theorem pyEq_int_int (n m : Int) : pyEq (PyVal.int n) (PyVal.int m) = decide (n = m) := by
  rw [pyEq]

/-- C10: validating a value against a map type whose declared key type maps to
Python `int` casts every key to an integer: when validation succeeds, every
original key was castable, no two distinct original keys collide after the
cast, and the returned dict's keys are exactly the cast integers of the
original keys in order; conversely an uncastable string key, or a cast
collision between two distinct original keys, forces a `SchemaError`. -/
theorem claim_C10 (vt kt : SchemaType) (lt : String)
    (entries : List (PyVal × PyVal)) (chain : List String)
    (hg : GENERIC_TO_PYTHON_TYPE kt.typeStr = some PyType.int)
    (hnd : List.Pairwise (fun a b : PyVal × PyVal => pyEq a.1 b.1 = false) entries) :
    (∀ r, validate_correct_type (SchemaType.mk "map" lt [vt] (some kt))
        (.dict entries) chain = .ok r →
      (∀ k ∈ entries.map Prod.fst, (pyInt k).isSome = true) ∧
      List.Pairwise (fun a b : PyVal × PyVal =>
        (pyInt a.1).getD 0 ≠ (pyInt b.1).getD 0) entries ∧
      ∃ out, r = .dict out ∧
        out.map Prod.fst = entries.map (fun p => PyVal.int ((pyInt p.1).getD 0))) ∧
    ((∃ s, PyVal.str s ∈ entries.map Prod.fst ∧ pyIntOfString s = Option.none) →
      ∃ e, validate_correct_type (SchemaType.mk "map" lt [vt] (some kt))
        (.dict entries) chain = .error e) ∧
    (¬ List.Pairwise (fun a b : PyVal × PyVal =>
        (pyInt a.1).getD 0 ≠ (pyInt b.1).getD 0) entries →
      ∃ e, validate_correct_type (SchemaType.mk "map" lt [vt] (some kt))
        (.dict entries) chain = .error e) := by
  have main : ∀ r, validate_correct_type (SchemaType.mk "map" lt [vt] (some kt))
      (.dict entries) chain = .ok r →
      (∀ k ∈ entries.map Prod.fst, (pyInt k).isSome = true) ∧
      List.Pairwise (fun a b : PyVal × PyVal =>
        (pyInt a.1).getD 0 ≠ (pyInt b.1).getD 0) entries ∧
      ∃ out, r = .dict out ∧
        out.map Prod.fst = entries.map (fun p => PyVal.int ((pyInt p.1).getD 0)) := by
    intro r hok
    rw [validate_map_int_spec vt kt lt entries chain hg] at hok
    rcases hdv : validateDictVals (SchemaType.mk "map" lt [vt] (some kt)) entries
        (chain ++ ["map"]) with e | entries1 <;> rw [hdv] at hok <;>
      try simp only [] at hok
    · exact Except.noConfusion hok
    have hkeys := validateDictVals_keys (SchemaType.mk "map" lt [vt] (some kt))
      entries entries1 (chain ++ ["map"]) hdv
    rcases hbk : buildKeyMap .int (entries1.map Prod.fst) [] with e | km <;>
      rw [hbk] at hok <;> try simp only [] at hok
    · exact Except.noConfusion hok
    obtain ⟨hkm, hmem, hpwf⟩ := buildKeyMap_ok (entries1.map Prod.fst) [] km hbk
    simp only [List.nil_append] at hkm
    have hpw : List.Pairwise (fun a b : PyVal × PyVal => pyEq a.1 b.1 = false) km :=
      hpwf List.Pairwise.nil
    subst hkm
    -- the cast values of the original keys are pairwise distinct
    have hcastpw : List.Pairwise (fun a b : PyVal =>
        (pyInt a).getD 0 ≠ (pyInt b).getD 0) (entries1.map Prod.fst) := by
      rw [List.pairwise_map] at hpw
      refine hpw.imp ?_
      intro a b hab
      rw [pyEq_int_int] at hab
      simpa using hab
    -- rekeyLoop succeeds and yields the cast keys in order
    obtain ⟨out, hout, houtkeys⟩ := rekeyLoop_spec
      ((entries1.map Prod.fst).map (fun k => (PyVal.int ((pyInt k).getD 0), k)))
      entries1 []
      (by simp [List.map_map, Function.comp])
      (by
        have hsnd : ((entries1.map Prod.fst).map
            (fun k => (PyVal.int ((pyInt k).getD 0), k))).map Prod.snd =
            entries1.map Prod.fst := by
          rw [List.map_map]
          exact List.map_id _
        intro k hk
        rw [hsnd] at hk
        exact pyEq_refl_scalar k (hmem k hk).1)
      (by intro p hp; simp at hp)
      (by
        rw [List.pairwise_map]
        rw [List.pairwise_map] at hpw
        refine List.Pairwise.imp_of_mem ?_ hpw
        intro a b ha hb hab
        simp only []
        by_cases hbe : pyEq b (PyVal.int ((pyInt a).getD 0)) = true
        · exfalso
          have hsc := (hmem b hb).1
          have hbi := pyEq_scalar_int hsc hbe
          rw [pyEq_int_int, hbi] at hab
          simp at hab
        · simpa using hbe)
      hpw
    rcases hrk : rekeyLoop
        ((entries1.map Prod.fst).map (fun k => (PyVal.int ((pyInt k).getD 0), k)))
        entries1 with e | entries2 <;> rw [hrk] at hok <;> try simp only [] at hok
    · exact Except.noConfusion hok
    rw [hrk] at hout
    injection hout with hout2
    subst hout2
    refine ⟨?_, ?_, ?_⟩
    · intro k hk
      rw [← hkeys] at hk
      exact (hmem k hk).2
    · rw [hkeys] at hcastpw
      exact hcastpw.of_map Prod.fst (fun a b h => h)
    · -- the two single-type checks must have passed
      by_cases hc1 : singleTypeCheck (entries2.map (fun p => pyTypeName p.2)) = true
      · rw [if_pos hc1] at hok
        by_cases hc2 : singleTypeCheck (entries2.map (fun p => pyTypeName p.1)) = true
        · rw [if_pos hc2] at hok
          injection hok with hok2
          refine ⟨entries2, hok2.symm, ?_⟩
          rw [houtkeys, List.nil_append, hkeys]
          simp [List.map_map, Function.comp]
        · rw [if_neg hc2] at hok
          exact Except.noConfusion hok
      · rw [if_neg hc1] at hok
        exact Except.noConfusion hok
  refine ⟨main, ?_, ?_⟩
  · intro hbad
    obtain ⟨s, hs, hcast⟩ := hbad
    rcases hres : validate_correct_type (SchemaType.mk "map" lt [vt] (some kt))
        (.dict entries) chain with e | r
    · exact ⟨e, rfl⟩
    · exfalso
      have h := (main r hres).1 (PyVal.str s) hs
      rw [show pyInt (PyVal.str s) = pyIntOfString s from rfl, hcast] at h
      simp at h
  · intro hnp
    rcases hres : validate_correct_type (SchemaType.mk "map" lt [vt] (some kt))
        (.dict entries) chain with e | r
    · exact ⟨e, rfl⟩
    · exact absurd (main r hres).2.1 hnp

theorem claim_C10_witness :
    ∃ e, validate_correct_type
      (SchemaType.mk "map" "" [SchemaType.mk "integer" "" [] Option.none]
        (some (SchemaType.mk "integer" "" [] Option.none)))
      (.dict [(.str "x", .int 5)]) [] = .error e :=
  (claim_C10 (SchemaType.mk "integer" "" [] Option.none)
      (SchemaType.mk "integer" "" [] Option.none) ""
      [(.str "x", .int 5)] [] rfl (by simp)).2.1
    ⟨"x", by simp, rfl⟩
